import Mathlib

/-!
# linearfb: a text console and 2D primitives on a linear framebuffer

A shallow embedding of `src/linearfb.c`.  The module's file-scope variables
become the fields of `State`; every C function becomes a function on `State`.
Memory is one byte-addressed map shared by all surfaces.

Integer conventions
* a value of type `uint32_t` is a natural number below `2^32`; every sum and
  product of the source that is computed in `uint32_t` is wrapped with `u32`,
  and a difference `a - 1` is `u32 (a + 4294967295)` unless the source guards
  it with `a > 0`;
* `int` arithmetic (line and polygon code) is exact integer arithmetic: signed
  overflow is undefined in C and lies outside the embedding;
* pointer arithmetic, and the 64-bit product `y * fb->pitch` inside it, is
  exact: the surface lies in addressable memory.
-/

namespace Linearfb

/-! ## Machine integers and memory -/

/-- Value of an expression of type `uint32_t`: unsigned arithmetic wraps. -/
def u32 (n : Nat) : Nat := n % 4294967296

/-- Conversion of an `int` argument to a `uint32_t` parameter. -/
def int_to_u32 (v : Int) : Nat := (v % 4294967296).toNat

/-- Byte-addressed memory: address to byte value. -/
abbrev Mem := Nat → Nat

/-- Byte `i` of the object representation of a `uint32_t` (little-endian).
Bytes past the fourth do not belong to the object; reading them is undefined
in C and they are given as zero here. -/
def color_byte (color i : Nat) : Nat := (u32 color / 256 ^ i) % 256

/-- The call `memcpy(p, &color, n)` of `putpixel`. -/
def memcpy_color (p color n : Nat) (mem : Mem) : Mem :=
  fun a => if p ≤ a ∧ a < p + n then color_byte color (a - p) else mem a

/-- The call `memmove(dst, src, n)`: the `n` bytes are read before any is written. -/
def memmove (dst src n : Nat) (mem : Mem) : Mem :=
  fun a => if dst ≤ a ∧ a < dst + n then mem (src + (a - dst)) else mem a

/-! ## Data model -/

/-- Modelled from the spec: `struct limine_framebuffer` of `limine.h`, which is
not among the sources.  Only the fields the code reads are kept: the base
address, width and height in pixels, the pitch in bytes and the bits per pixel.
The code walks a surface with `uint32_t` coordinates and computes the byte
offset inside a scanline, `x * (fb->bpp / 8)`, in 32-bit unsigned arithmetic;
a descriptor is a surface that these can address, which the three bounds
record. -/
structure limine_framebuffer where
  address : Nat
  width : Nat
  height : Nat
  pitch : Nat
  bpp : Nat
  width_lt : width < 4294967296
  height_lt : height < 4294967296
  line_le : width * (bpp / 8) ≤ 4294967296

/-- Modelled from the spec: `struct limine_framebuffer_response` of `limine.h`:
the framebuffer count and the pointer `framebuffers[0]` (possibly null). -/
structure limine_framebuffer_response where
  framebuffer_count : Nat
  framebuffers0 : Option limine_framebuffer

/-- Modelled from the spec: `struct limine_framebuffer_request` of `limine.h`:
the pointer `response` (possibly null). -/
structure limine_framebuffer_request where
  response : Option limine_framebuffer_response

/-- The type `linearfb_mode_t`. -/
inductive linearfb_mode_t where
  | FB_MODE_CONSOLE
  | FB_MODE_GRAPHICS
  deriving DecidableEq, Repr

/-- The type `linearfb_font_t`.  `data` is the glyph table the pointer refers to
(index to byte), `none` for a null pointer; the other fields are `uint32_t`. -/
structure linearfb_font_t where
  data : Option (Nat → Nat)
  width : Nat
  height : Nat
  pitch : Nat
  bpp : Nat
  width_lt : width < 4294967296
  height_lt : height < 4294967296

/-- The file-scope variables of `linearfb.c`, together with memory.  The last
field is a ghost counter, not a variable of the program: it counts how often
the body of `console_scroll` ran, so that statements can speak of scrolls. -/
structure State where
  mem : Mem
  fb : Option limine_framebuffer
  fb_mode : linearfb_mode_t
  fb_font : linearfb_font_t
  font_glyph_count : Nat
  font_glyph_w : Nat
  font_glyph_h : Nat
  console_col : Nat
  console_row : Nat
  console_cols : Nat
  console_rows : Nat
  console_bg : Nat
  scrolls : Nat

/-- The state `s` with its memory replaced. -/
def State.set_mem (s : State) (m : Mem) : State := { s with mem := m }

/-- The initialiser `{0}` of `fb_font`. -/
def font_zero : linearfb_font_t :=
  { data := none, width := 0, height := 0, pitch := 0, bpp := 0,
    width_lt := by decide, height_lt := by decide }

/-- The state at program start, over an arbitrary memory. -/
def State.initial (mem : Mem) : State :=
  { mem := mem, fb := none, fb_mode := linearfb_mode_t.FB_MODE_CONSOLE,
    fb_font := font_zero, font_glyph_count := 0, font_glyph_w := 0,
    font_glyph_h := 0, console_col := 0, console_row := 0, console_cols := 0,
    console_rows := 0, console_bg := 0, scrolls := 0 }

/-! ## Loops -/

/-- The loop `for (T i = 0; i < n; ++i) body(i)` for a bound `n` that the
counter's type `T` (`uint32_t` or `size_t`) can hold. -/
def for_range {σ : Type} (n : Nat) (body : Nat → σ → σ) (s : σ) : σ :=
  (List.range n).foldl (fun acc i => body i acc) s

/-- The loop `for (T i = lo; i < hi; ++i) body(i)` for a bound `hi` that the
counter's type `T` can hold. -/
def for_from {σ : Type} (lo hi : Nat) (body : Nat → σ → σ) (s : σ) : σ :=
  (List.range (hi - lo)).foldl (fun acc k => body (lo + k) acc) s

/-! ## Surface binding -/

/-- The pointer `p` of `putpixel`, as an address:
`(uint8_t*)fb->address + y * fb->pitch + x * (fb->bpp / 8)`.  The last product
is `uint32_t` arithmetic (`x` is `uint32_t`, `fb->bpp / 8` an `int`). -/
def pixel_addr (fb : limine_framebuffer) (x y : Nat) : Nat :=
  fb.address + y * fb.pitch + u32 (x * (fb.bpp / 8))

/-- The body of `putpixel` on a bound surface, as a memory transformer. -/
def pixel_store (fb : limine_framebuffer) (x y color : Nat) (mem : Mem) : Mem :=
  if x ≥ fb.width ∨ y ≥ fb.height then mem
  else memcpy_color (pixel_addr fb x y) color (fb.bpp / 8) mem

/-- The function `putpixel`. -/
def putpixel (x y color : Nat) (s : State) : State :=
  match s.fb with
  | none => s
  | some fb => s.set_mem (pixel_store fb x y color s.mem)

/-! ## Console engine -/

/-- The function `linearfb_console_set_cursor`. -/
def linearfb_console_set_cursor (col row : Nat) (s : State) : State :=
  let s1 := if col < s.console_cols then { s with console_col := col } else s
  if row < s1.console_rows then { s1 with console_row := row } else s1

/-- The function `linearfb_console_get_cursor`, both out-pointers non-null. -/
def linearfb_console_get_cursor (s : State) : Nat × Nat :=
  (s.console_col, s.console_row)

/-- The function `linearfb_console_clear`. -/
def linearfb_console_clear (color : Nat) (s : State) : State :=
  match s.fb with
  | none => s
  | some fb =>
    let s1 := for_range fb.height (fun y acc =>
      for_range fb.width (fun x acc1 => putpixel x y color acc1) acc) s
    { s1 with console_col := 0, console_row := 0, console_bg := color }

/-- The function `console_scroll`.  A difference `console_rows - 1` in `uint32_t`
is `u32 (console_rows + 4294967295)`. -/
def console_scroll (s : State) : State :=
  match s.fb, s.fb_font.data with
  | some fb, some _ =>
    let row_bytes := u32 (fb.pitch * s.font_glyph_h)
    let dst := fb.address
    let src := dst + row_bytes
    let s1 := s.set_mem (memmove dst src (u32 (row_bytes * u32 (s.console_rows + 4294967295))) s.mem)
    let s2 := for_from (u32 (u32 (s.console_rows + 4294967295) * s.font_glyph_h)) fb.height
      (fun y acc => for_range fb.width (fun x acc1 => putpixel x y s.console_bg acc1) acc) s1
    { s2 with console_row := u32 (s.console_rows + 4294967295), scrolls := s.scrolls + 1 }
  | _, _ => s

/-- The test `bits & (1 << (7 - col))` of the glyph blit.  For `col > 7` the
shift count is out of range (undefined in C); the test is false here. -/
def glyph_bit (bits col : Nat) : Bool :=
  decide (col ≤ 7) && decide ((bits / 2 ^ (7 - col)) % 2 = 1)

/-- The glyph index: `ch = (uint8_t)c; if (ch >= font_glyph_count) ch = (char) 63`. -/
def glyph_index (c glyph_count : Nat) : Nat :=
  if c % 256 ≥ glyph_count then 63 else c % 256

/-- The byte `glyph[row]` with `glyph = fb_font.data + ch * font_glyph_h`, read
as `uint8_t`; the product is `uint32_t` arithmetic. -/
def glyph_row (data : Nat → Nat) (ch glyph_h row : Nat) : Nat :=
  data (u32 (ch * glyph_h) + row) % 256

/-- The loop nest that paints the set bits of one glyph at `(x, y)`, shared by
`linearfb_console_putc` and `linearfb_draw_text`. -/
def blit_glyph (data : Nat → Nat) (ch x y : Nat) (s : State) : State :=
  for_range s.font_glyph_h (fun row acc =>
    for_range s.font_glyph_w (fun col acc1 =>
      if glyph_bit (glyph_row data ch s.font_glyph_h row) col
      then putpixel (u32 (x + col)) (u32 (y + row)) 4294967295 acc1 else acc1) acc) s

/-- The tail of `linearfb_console_putc` shared by newline and wrap:
`if (++console_row >= console_rows) console_scroll();`. -/
def console_next_row (s : State) : State :=
  let s1 := { s with console_row := u32 (s.console_row + 1) }
  if s1.console_row ≥ s1.console_rows then console_scroll s1 else s1

/-- The two drawing passes of `linearfb_console_putc` for glyph `ch` at the
cursor: the cell is filled with the background, then the set bits are painted
white (`0xFFFFFFFF`). -/
def draw_cell (data : Nat → Nat) (ch : Nat) (s : State) : State :=
  let px := u32 (s.console_col * s.font_glyph_w)
  let py := u32 (s.console_row * s.font_glyph_h)
  let s1 := for_range s.font_glyph_h (fun row acc =>
    for_range s.font_glyph_w (fun col acc1 =>
      putpixel (u32 (px + col)) (u32 (py + row)) s.console_bg acc1) acc) s
  blit_glyph data ch px py s1

/-- The function `linearfb_console_putc`; `c` is the character code. -/
def linearfb_console_putc (c : Nat) (s : State) : State :=
  match s.fb_font.data with
  | none => s
  | some data =>
    if s.fb_mode ≠ linearfb_mode_t.FB_MODE_CONSOLE then s
    else if c = 10 then console_next_row { s with console_col := 0 }
    else if c = 13 then { s with console_col := 0 }
    else if c = 8 then
      (if s.console_col > 0 then { s with console_col := s.console_col - 1 } else s)
    else
      let s2 := draw_cell data (glyph_index c s.font_glyph_count) s
      let s3 := { s2 with console_col := u32 (s2.console_col + 1) }
      if s3.console_col ≥ s3.console_cols then console_next_row { s3 with console_col := 0 } else s3

/-- The function `linearfb_console_puts`; the list holds the characters of the
buffer, read up to the first zero byte (or the end of the list). -/
def linearfb_console_puts : List Nat → State → State
  | [], s => s
  | c :: cs, s => if c = 0 then s else linearfb_console_puts cs (linearfb_console_putc c s)

/-! ## Mode and font registry -/

/-- The grid update shared by `linearfb_init` and `linearfb_load_font`:
`if (fb && font_glyph_w && font_glyph_h) { console_cols = ...; console_rows = ...; }`. -/
def update_grid (s : State) : State :=
  match s.fb with
  | none => s
  | some fb =>
    if s.font_glyph_w ≠ 0 ∧ s.font_glyph_h ≠ 0 then
      { s with console_cols := u32 (fb.width / s.font_glyph_w),
               console_rows := u32 (fb.height / s.font_glyph_h) }
    else s

/-- The function `linearfb_init`: the returned `int` and the new state. -/
def linearfb_init (fb_req : Option limine_framebuffer_request) (s : State) : Int × State :=
  match fb_req with
  | none => (-1, s)
  | some req =>
    match req.response with
    | none => (-1, s)
    | some resp =>
      if resp.framebuffer_count = 0 then (-1, s)
      else (0, update_grid { s with fb := resp.framebuffers0 })

/-- The function `linearfb_set_mode`. -/
def linearfb_set_mode (mode : linearfb_mode_t) (s : State) : State :=
  { s with fb_mode := mode }

/-- The function `linearfb_load_font`: the returned `int` and the new state;
`count` is a `uint32_t`. -/
def linearfb_load_font (font : Option linearfb_font_t) (count : Nat) (s : State) : Int × State :=
  match font with
  | none => (-1, s)
  | some f =>
    (0, update_grid { s with fb_font := f, font_glyph_w := f.width, font_glyph_h := f.height,
                             font_glyph_count := count })

/-! ## Vector primitives -/

/-- The loop of `linearfb_draw_text` over the characters of `text`, read up to
the first zero byte (or the end of the list). -/
def draw_text_loop (data : Nat → Nat) : List Nat → Nat → Nat → State → State
  | [], _, _, s => s
  | c :: cs, x, y, s =>
    if c = 0 then s
    else
      draw_text_loop data cs (u32 (x + s.font_glyph_w)) y
        (blit_glyph data (glyph_index c s.font_glyph_count) x y s)

/-- The function `linearfb_draw_text`. -/
def linearfb_draw_text (text : List Nat) (x y : Nat) (s : State) : State :=
  if s.fb_mode = linearfb_mode_t.FB_MODE_CONSOLE then s
  else
    match s.fb_font.data with
    | none => s
    | some data => draw_text_loop data text x y s

/-- The function-like definition `abs(x)` of the source: `((x) >= 0 ? (x) : -(x))`. -/
def c_abs (v : Int) : Int := if v ≥ 0 then v else -v

/-- The `while (1)` loop of `fb_draw_line`, run for at most `fuel` iterations;
`none` when the fuel runs out before the loop breaks.  The `int` values are
exact integers: the definition agrees with the source as long as no computed
value (`2 * err`, `err + dy`, `err + dx`, the stepped coordinates) leaves `int`. -/
def fb_draw_line_loop (dx dy sx sy x1 y1 : Int) (color : Nat) :
    Nat → Int → Int → Int → State → Option State
  | 0, _, _, _, _ => none
  | fuel + 1, x0, y0, err, s =>
    let s1 := putpixel (int_to_u32 x0) (int_to_u32 y0) color s
    if x0 = x1 ∧ y0 = y1 then some s1
    else
      let e2 := 2 * err
      let err1 := if e2 ≥ dy then err + dy else err
      let x0n := if e2 ≥ dy then x0 + sx else x0
      let err2 := if e2 ≤ dx then err1 + dx else err1
      let y0n := if e2 ≤ dx then y0 + sy else y0
      fb_draw_line_loop dx dy sx sy x1 y1 color fuel x0n y0n err2 s1

/-- The function `fb_draw_line`, with fuel for its loop. -/
def fb_draw_line (fuel : Nat) (x0 y0 x1 y1 : Int) (color : Nat) (s : State) : Option State :=
  let dx := c_abs (x1 - x0)
  let sx : Int := if x0 < x1 then 1 else -1
  let dy := -c_abs (y1 - y0)
  let sy : Int := if y0 < y1 then 1 else -1
  fb_draw_line_loop dx dy sx sy x1 y1 color fuel x0 y0 (dx + dy) s

/-- The loop `for (int v = lo; v <= hi; ++v) body(v)`, for `hi` below `INT_MAX`
(the last increment must fit `int`). -/
def int_for {σ : Type} (lo hi : Int) (body : Int → σ → σ) (s : σ) : σ :=
  (List.range (hi - lo + 1).toNat).foldl (fun acc (k : Nat) => body (lo + (k : Int)) acc) s

/-- An array read `a[i]` of the polygon code. -/
def arr (a : List Int) (i : Nat) : Int := a.getD i 0

/-- The first loop of `fb_fill_polygon`: `(min_y, max_y)` over `y[0..n)`. -/
def poly_min_max (y : List Int) (n : Nat) : Int × Int :=
  for_from 1 n (fun i acc =>
    let mn := if arr y i < acc.1 then arr y i else acc.1
    let mx := if arr y i > acc.2 then arr y i else acc.2
    (mn, mx)) (arr y 0, arr y 0)

/-- The edge loop of `fb_fill_polygon` on scanline `yy`: the contents of
`nodes[0..nodes_n)`.  The accumulator is `(nodes, j)`. -/
def scan_nodes (x y : List Int) (n : Nat) (yy : Int) : List Int :=
  (for_range n (fun i (acc : List Int × Nat) =>
    let j := acc.2
    let nodes :=
      if (arr y i < yy ∧ arr y j ≥ yy) ∨ (arr y j < yy ∧ arr y i ≥ yy) then
        let xval := arr x i + Int.tdiv ((yy - arr y i) * (arr x j - arr x i)) (arr y j - arr y i)
        if acc.1.length < 64 then acc.1 ++ [xval] else acc.1
      else acc.1
    (nodes, i)) ([], n - 1)).1

/-- The pair loop of `fb_fill_polygon` on scanline `yy`: each pair of nodes is
ordered and its span filled. -/
def fill_spans (yy : Int) (color : Nat) : List Int → State → State
  | a :: b :: rest, s =>
    let lo := if a > b then b else a
    let hi := if a > b then a else b
    fill_spans yy color rest
      (int_for lo hi (fun xx acc => putpixel (int_to_u32 xx) (int_to_u32 yy) color acc) s)
  | _, s => s

/-- The function `fb_fill_polygon`. -/
def fb_fill_polygon (x y : List Int) (n : Nat) (color : Nat) (s : State) : State :=
  let mm := poly_min_max y n
  int_for mm.1 mm.2 (fun yy acc => fill_spans yy color (scan_nodes x y n yy) acc) s

/-- The function `linearfb_draw_polygon`, with fuel for each line; `filled` is the `int` flag. -/
def linearfb_draw_polygon (fuel : Nat) (x y : List Int) (n : Nat) (color : Nat) (filled : Int)
    (s : State) : Option State :=
  if s.fb_mode = linearfb_mode_t.FB_MODE_CONSOLE then some s
  else if n < 2 then some s
  else
    let s1 := if filled ≠ 0 then fb_fill_polygon x y n color s else s
    (List.range n).foldlM (fun acc i =>
      fb_draw_line fuel (arr x i) (arr y i) (arr x ((i + 1) % n)) (arr y ((i + 1) % n)) color acc) s1

/-! ## Reachable states -/

/-- A value that fits `uint32_t`. -/
def is_u32 (n : Nat) : Prop := n < 4294967296

instance (n : Nat) : Decidable (is_u32 n) := inferInstanceAs (Decidable (n < 4294967296))

/-- A value that fits `int`. -/
def is_int (v : Int) : Prop := -2147483648 ≤ v ∧ v < 2147483648

/-- A buffer of character codes (bytes). -/
def is_text (text : List Nat) : Prop := ∀ c ∈ text, c < 256

/-- Two arrays of `n` values of type `int`. -/
def is_vertices (x y : List Int) (n : Nat) : Prop :=
  n ≤ x.length ∧ n ≤ y.length ∧ (∀ v ∈ x, is_int v) ∧ (∀ v ∈ y, is_int v)

/-- The states the program can be in: the initial state, closed under the
public operations called with arguments of their declared types. -/
inductive Reachable : State → Prop where
  | start (mem : Mem) : Reachable (State.initial mem)
  | bind (req : Option limine_framebuffer_request) {s : State} :
      Reachable s → Reachable (linearfb_init req s).2
  | load_font (font : Option linearfb_font_t) (count : Nat) {s : State} :
      is_u32 count → Reachable s → Reachable (linearfb_load_font font count s).2
  | set_mode (mode : linearfb_mode_t) {s : State} :
      Reachable s → Reachable (linearfb_set_mode mode s)
  | clear (color : Nat) {s : State} :
      is_u32 color → Reachable s → Reachable (linearfb_console_clear color s)
  | set_cursor (col row : Nat) {s : State} :
      is_u32 col → is_u32 row → Reachable s → Reachable (linearfb_console_set_cursor col row s)
  | put_char (c : Nat) {s : State} :
      c < 256 → Reachable s → Reachable (linearfb_console_putc c s)
  | put_string (text : List Nat) {s : State} :
      is_text text → Reachable s → Reachable (linearfb_console_puts text s)
  | draw_text (text : List Nat) (x y : Nat) {s : State} :
      is_text text → is_u32 x → is_u32 y → Reachable s → Reachable (linearfb_draw_text text x y s)
  | draw_polygon (fuel : Nat) (x y : List Int) (n color : Nat) (filled : Int) {s s1 : State} :
      is_vertices x y n → is_u32 color → Reachable s →
      linearfb_draw_polygon fuel x y n color filled s = some s1 → Reachable s1

/-! ## Vocabulary of the statements -/

/-- The bytes of pixel `(x, y)` of surface `fb`, in address order: the
`fb.bpp / 8` bytes at offset `y * pitch + x * (bpp / 8)` from the base. -/
def read_pixel (mem : Mem) (fb : limine_framebuffer) (x y : Nat) : List Nat :=
  (List.range (fb.bpp / 8)).map (fun i => mem (fb.address + y * fb.pitch + x * (fb.bpp / 8) + i))

/-- The low `n` bytes of `c`, least significant first. -/
def low_bytes (c n : Nat) : List Nat :=
  (List.range n).map (fun i => (c / 256 ^ i) % 256)

/-- A pixel write `(x, y, color)`. -/
abbrev Write := Nat × Nat × Nat

/-- A sequence of calls of `putpixel` on surface `fb`, as a memory transformer. -/
def paint (fb : limine_framebuffer) (ws : List Write) (mem : Mem) : Mem :=
  ws.foldl (fun m w => pixel_store fb w.1 w.2.1 w.2.2 m) mem

/-- The write `w` stores into address `a` of surface `fb`. -/
def covers (fb : limine_framebuffer) (w : Write) (a : Nat) : Prop :=
  w.1 < fb.width ∧ w.2.1 < fb.height ∧
    pixel_addr fb w.1 w.2.1 ≤ a ∧ a < pixel_addr fb w.1 w.2.1 + fb.bpp / 8

/-- The writes of a fill of scanlines `[lo, hi)` over columns `[0, n)` with colour `c`,
in program order. -/
def fill_writes (lo hi n c : Nat) : List Write :=
  (List.range (hi - lo)).flatMap (fun k => (List.range n).flatMap (fun x => [(x, lo + k, c)]))

/-- The writes of the background pass of `linearfb_console_putc`: the cell of
`gw` by `gh` pixels at `(px, py)`, in program order. -/
def cell_writes (gw gh px py c : Nat) : List Write :=
  (List.range gh).flatMap (fun row =>
    (List.range gw).flatMap (fun col => [(u32 (px + col), u32 (py + row), c)]))

/-- The writes of `blit_glyph`: the set bits of glyph `ch`, in program order. -/
def glyph_writes (data : Nat → Nat) (ch gw gh px py : Nat) : List Write :=
  (List.range gh).flatMap (fun row =>
    (List.range gw).flatMap (fun col =>
      if glyph_bit (glyph_row data ch gh row) col
      then [(u32 (px + col), u32 (py + row), 4294967295)] else []))

/-- The memory `console_scroll` leaves on surface `fb`. -/
def scroll_mem (fb : limine_framebuffer) (s : State) : Mem :=
  paint fb
    (fill_writes (u32 (u32 (s.console_rows + 4294967295) * s.font_glyph_h)) fb.height fb.width
      s.console_bg)
    (memmove fb.address (fb.address + u32 (fb.pitch * s.font_glyph_h))
      (u32 (u32 (fb.pitch * s.font_glyph_h) * u32 (s.console_rows + 4294967295))) s.mem)

/-- The memory the two drawing passes of `linearfb_console_putc` leave on
surface `fb` for glyph `ch`. -/
def cell_mem (fb : limine_framebuffer) (data : Nat → Nat) (ch : Nat) (s : State) : Mem :=
  paint fb
    (cell_writes s.font_glyph_w s.font_glyph_h (u32 (s.console_col * s.font_glyph_w))
        (u32 (s.console_row * s.font_glyph_h)) s.console_bg ++
      glyph_writes data ch s.font_glyph_w s.font_glyph_h (u32 (s.console_col * s.font_glyph_w))
        (u32 (s.console_row * s.font_glyph_h)))
    s.mem

/-- The states `s` and `t` agree on the surface, the mode, the font, the grid
and the background. -/
def same_config (s t : State) : Prop :=
  t.fb = s.fb ∧ t.fb_mode = s.fb_mode ∧ t.fb_font = s.fb_font ∧
  t.font_glyph_count = s.font_glyph_count ∧ t.font_glyph_w = s.font_glyph_w ∧
  t.font_glyph_h = s.font_glyph_h ∧ t.console_cols = s.console_cols ∧
  t.console_rows = s.console_rows ∧ t.console_bg = s.console_bg

/-- The cursor of a state: column and row. -/
def State.cursor (s : State) : Nat × Nat := (s.console_col, s.console_row)

/-- The row and the scroll count after `if (++console_row >= console_rows) console_scroll();`
when the scroll runs its body (surface bound, font loaded). -/
def next_row_cursor (rows row scrolls : Nat) : Nat × Nat :=
  if u32 (row + 1) ≥ rows then (u32 (rows + 4294967295), scrolls + 1) else (u32 (row + 1), scrolls)

/-- The column, row and scroll count after `linearfb_console_putc(c)` in console
mode with a surface bound and a font loaded, as a function of those before. -/
def putc_cursor (c cols rows col row scrolls : Nat) : Nat × Nat × Nat :=
  if c = 10 then (0, next_row_cursor rows row scrolls)
  else if c = 13 then (0, row, scrolls)
  else if c = 8 then (if col > 0 then col - 1 else col, row, scrolls)
  else if u32 (col + 1) ≥ cols then (0, next_row_cursor rows row scrolls)
  else (u32 (col + 1), row, scrolls)

/-- The cursor lies inside the grid: `column < columns` and `row < rows`. -/
def State.in_grid (s : State) : Prop :=
  s.console_col < s.console_cols ∧ s.console_row < s.console_rows

instance (s : State) : Decidable s.in_grid :=
  inferInstanceAs (Decidable (s.console_col < s.console_cols ∧ s.console_row < s.console_rows))

/-- The variables hold `uint32_t` values and, when a surface is bound and both
glyph metrics are nonzero, the grid is the surface size divided by the glyph size. -/
def State.wf (s : State) : Prop :=
  is_u32 s.console_cols ∧ is_u32 s.console_rows ∧
  is_u32 s.font_glyph_w ∧ is_u32 s.font_glyph_h ∧
  ∀ fb, s.fb = some fb → s.font_glyph_w ≠ 0 → s.font_glyph_h ≠ 0 →
    s.console_cols = fb.width / s.font_glyph_w ∧ s.console_rows = fb.height / s.font_glyph_h

/-- A state transformer that changes memory only. -/
def mem_only (f : State → State) : Prop := ∀ s, f s = s.set_mem (f s).mem

/-! ## Sample inputs -/

/-- A 4x4 surface at address 0 with 32 bits per pixel and no padding. -/
def sample_fb : limine_framebuffer :=
  { address := 0, width := 4, height := 4, pitch := 16, bpp := 32,
    width_lt := by decide, height_lt := by decide, line_le := by decide }

/-- A font of 2x2 glyphs: every glyph has row 0 = `0x80` and row 1 = `0xC0`. -/
def sample_font : linearfb_font_t :=
  { data := some (fun i => 128 + 64 * (i % 2)), width := 2, height := 2, pitch := 0, bpp := 0,
    width_lt := by decide, height_lt := by decide }

/-- A request whose response holds the one surface `fb`. -/
def request_of (fb : limine_framebuffer) : Option limine_framebuffer_request :=
  some { response := some { framebuffer_count := 1, framebuffers0 := some fb } }

/-- The state after binding `sample_fb` and loading `sample_font` over zeroed
memory: a 2x2 grid in console mode. -/
def sample_state : State :=
  (linearfb_load_font (some sample_font) 128
    (linearfb_init (request_of sample_fb) (State.initial (fun _ => 0))).2).2

/-- A 2x2 surface with 32 bits per pixel whose pitch, 6 bytes, is shorter than a
row of pixels, 8 bytes. -/
def narrow_fb : limine_framebuffer :=
  { address := 0, width := 2, height := 2, pitch := 6, bpp := 32,
    width_lt := by decide, height_lt := by decide, line_le := by decide }

/-- The state after binding `narrow_fb`, loading `sample_font` and clearing to
`0x04030201`: a 1x1 grid. -/
def narrow_state : State :=
  linearfb_console_clear 67305985
    (linearfb_load_font (some sample_font) 128
      (linearfb_init (request_of narrow_fb) (State.initial (fun _ => 0))).2).2

/-- A font of 4x4 glyphs with the glyph table of `sample_font`. -/
def big_font : linearfb_font_t :=
  { data := some (fun i => 128 + 64 * (i % 2)), width := 4, height := 4, pitch := 0, bpp := 0,
    width_lt := by decide, height_lt := by decide }

/-- The state after moving the cursor of `sample_state` to `(1,1)` and then
loading `big_font`: the grid shrinks from 2x2 to 1x1. -/
def shrunk_state : State :=
  (linearfb_load_font (some big_font) 128 (linearfb_console_set_cursor 1 1 sample_state)).2

/-- The state after loading `sample_font` with no surface bound. -/
def unbound_state : State :=
  (linearfb_load_font (some sample_font) 128 (State.initial (fun _ => 0))).2

/-- The states reached from `s` by the public operations that do not
recompute the grid: every operation but `linearfb_init` and `linearfb_load_font`. -/
inductive ConsoleRun (s : State) : State → Prop where
  | start : ConsoleRun s s
  | set_mode (mode : linearfb_mode_t) {t : State} :
      ConsoleRun s t → ConsoleRun s (linearfb_set_mode mode t)
  | clear (color : Nat) {t : State} :
      ConsoleRun s t → ConsoleRun s (linearfb_console_clear color t)
  | set_cursor (col row : Nat) {t : State} :
      ConsoleRun s t → ConsoleRun s (linearfb_console_set_cursor col row t)
  | put_char (c : Nat) {t : State} :
      ConsoleRun s t → ConsoleRun s (linearfb_console_putc c t)
  | put_string (text : List Nat) {t : State} :
      ConsoleRun s t → ConsoleRun s (linearfb_console_puts text t)
  | draw_text (text : List Nat) (x y : Nat) {t : State} :
      ConsoleRun s t → ConsoleRun s (linearfb_draw_text text x y t)
  | draw_polygon (fuel : Nat) (x y : List Int) (n color : Nat) (filled : Int) {t t1 : State} :
      ConsoleRun s t → linearfb_draw_polygon fuel x y n color filled t = some t1 →
      ConsoleRun s t1

/-! ## Vocabulary of the setup and polygon statements -/

/-- The descriptor offers no framebuffer: the request is absent, its response
is absent, or the framebuffer count is 0. -/
def no_framebuffer (req : Option limine_framebuffer_request) : Prop :=
  match req with
  | none => True
  | some r =>
    match r.response with
    | none => True
    | some resp => resp.framebuffer_count = 0

/-- The edge-crossing test of `fb_fill_polygon` for the edge `(i, j)` on scanline `yy`:
`(y[i] < yy && y[j] >= yy) || (y[j] < yy && y[i] >= yy)`. -/
def crossing_test (y : List Int) (i j : Nat) (yy : Int) : Prop :=
  (arr y i < yy ∧ arr y j ≥ yy) ∨ (arr y j < yy ∧ arr y i ≥ yy)

instance (y : List Int) (i j : Nat) (yy : Int) : Decidable (crossing_test y i j yy) :=
  inferInstanceAs (Decidable ((arr y i < yy ∧ arr y j ≥ yy) ∨ (arr y j < yy ∧ arr y i ≥ yy)))

/-- The intersection `xval` of the edge `(i, j)` with scanline `yy`:
`x[i] + (yy - y[i]) * (x[j] - x[i]) / (y[j] - y[i])`, with the truncating division of C. -/
def edge_xval (x y : List Int) (i j : Nat) (yy : Int) : Int :=
  arr x i + Int.tdiv ((yy - arr y i) * (arr x j - arr x i)) (arr y j - arr y i)

/-- The edge `j` that the loop `for (i = 0, j = n - 1; i < n; j = i++)` pairs with `i`. -/
def edge_prev (n i : Nat) : Nat := if i = 0 then n - 1 else i - 1

/-- All crossings of scanline `yy`, in the order the edge loop finds them,
without the capacity of the buffer. -/
def scan_crossings (x y : List Int) (n : Nat) (yy : Int) : List Int :=
  (List.range n).flatMap (fun i =>
    if crossing_test y i (edge_prev n i) yy then [edge_xval x y i (edge_prev n i) yy] else [])

/-- A 64x48 surface with 32 bits per pixel. -/
def fb_64x48 : limine_framebuffer :=
  { address := 0, width := 64, height := 48, pitch := 256, bpp := 32,
    width_lt := by decide, height_lt := by decide, line_le := by decide }

/-- A font with 8x8 glyphs. -/
def font_8x8 : linearfb_font_t :=
  { data := some (fun _ => 0), width := 8, height := 8, pitch := 0, bpp := 0,
    width_lt := by decide, height_lt := by decide }

/-- A font with 4x8 glyphs. -/
def font_4x8 : linearfb_font_t :=
  { data := some (fun _ => 0), width := 4, height := 8, pitch := 0, bpp := 0,
    width_lt := by decide, height_lt := by decide }

/-- The state `sample_state` switched to graphics mode. -/
def graphics_state : State :=
  linearfb_set_mode linearfb_mode_t.FB_MODE_GRAPHICS sample_state

/-- The values `lo, lo + 1, ..., hi` that the loop `for (int v = lo; v <= hi; ++v)` visits. -/
def int_range (lo hi : Int) : List Int :=
  (List.range (hi - lo + 1).toNat).map (fun (k : Nat) => lo + (k : Int))

/-- The points `(xx, yy)` that the pair loop of `fb_fill_polygon` passes to
`putpixel` on scanline `yy`, in program order, for the buffer contents `nodes`. -/
def span_points (yy : Int) : List Int → List (Int × Int)
  | a :: b :: rest =>
    (int_range (if a > b then b else a) (if a > b then a else b)).map (fun xx => (xx, yy)) ++
      span_points yy rest
  | _ => []

/-- The points that `fb_fill_polygon` passes to `putpixel`, in program order. -/
def fill_points (x y : List Int) (n : Nat) : List (Int × Int) :=
  (int_range (poly_min_max y n).1 (poly_min_max y n).2).flatMap (fun yy =>
    span_points yy (scan_nodes x y n yy))

/-- The calls `putpixel(x, y, color)` for the points of a list, in order; the
`int` coordinates are converted to `uint32_t`. -/
def draw_points (color : Nat) (pts : List (Int × Int)) (s : State) : State :=
  pts.foldl (fun acc p => putpixel (int_to_u32 p.1) (int_to_u32 p.2) color acc) s

instance (v : Int) : Decidable (is_int v) :=
  inferInstanceAs (Decidable (-2147483648 ≤ v ∧ v < 2147483648))

/-- The iterations of the loop of `fb_draw_line` within `fuel`: the values of
`(x0, y0, err)` at the start of each iteration, in order. -/
def line_iters (dx dy sx sy x1 y1 : Int) : Nat → Int → Int → Int → List (Int × Int × Int)
  | 0, _, _, _ => []
  | fuel + 1, x0, y0, err =>
    (x0, y0, err) ::
      (if x0 = x1 ∧ y0 = y1 then []
      else
        let e2 := 2 * err
        let err1 := if e2 ≥ dy then err + dy else err
        let x0n := if e2 ≥ dy then x0 + sx else x0
        let err2 := if e2 ≤ dx then err1 + dx else err1
        let y0n := if e2 ≤ dx then y0 + sy else y0
        line_iters dx dy sx sy x1 y1 fuel x0n y0n err2)

/-- The iterations of the call `fb_draw_line(x0, y0, x1, y1, color)` within `fuel`. -/
def line_trace (fuel : Nat) (x0 y0 x1 y1 : Int) : List (Int × Int × Int) :=
  let dx := c_abs (x1 - x0)
  let sx : Int := if x0 < x1 then 1 else -1
  let dy := -c_abs (y1 - y0)
  let sy : Int := if y0 < y1 then 1 else -1
  line_iters dx dy sx sy x1 y1 fuel x0 y0 (dx + dy)

/-- The pixels the call `fb_draw_line(x0, y0, x1, y1, color)` writes within `fuel`, in order. -/
def line_points (fuel : Nat) (x0 y0 x1 y1 : Int) : List (Int × Int) :=
  (line_trace fuel x0 y0 x1 y1).map (fun t => (t.1, t.2.1))

/-- Consecutive pixels of a line: `q` differs from `p` by 0 or `gx` in x and
by 0 or `gy` in y, and not by 0 in both. -/
def line_step (gx gy : Int) (p q : Int × Int) : Prop :=
  (q.1 = p.1 ∨ q.1 = p.1 + gx) ∧ (q.2 = p.2 ∨ q.2 = p.2 + gy) ∧ (q.1 ≠ p.1 ∨ q.2 ≠ p.2)

/-- Every value an iteration of the loop of `fb_draw_line` can compute from
`(x0, y0, err) = t` fits `int`: `2*err`, `err + dy`, `err + dx`, `err + dy + dx`,
`x0 + sx` and `y0 + sy`. -/
def iter_in_range (dx dy sx sy : Int) (t : Int × Int × Int) : Prop :=
  is_int t.1 ∧ is_int t.2.1 ∧ is_int t.2.2 ∧ is_int (2 * t.2.2) ∧ is_int (t.2.2 + dy) ∧
    is_int (t.2.2 + dx) ∧ is_int (t.2.2 + dy + dx) ∧ is_int (t.1 + sx) ∧ is_int (t.2.1 + sy)

/-- The larger of the two coordinate distances of a line. -/
def line_span (x0 y0 x1 y1 : Int) : Nat :=
  (max (c_abs (x1 - x0)) (c_abs (y1 - y0))).toNat

instance (dx dy sx sy : Int) (t : Int × Int × Int) : Decidable (iter_in_range dx dy sx sy t) :=
  inferInstanceAs (Decidable (is_int t.1 ∧ is_int t.2.1 ∧ is_int t.2.2 ∧ is_int (2 * t.2.2) ∧
    is_int (t.2.2 + dy) ∧ is_int (t.2.2 + dx) ∧ is_int (t.2.2 + dy + dx) ∧ is_int (t.1 + sx) ∧
    is_int (t.2.1 + sy)))

/-- The pixels the outline loop of `linearfb_draw_polygon` passes to `putpixel`:
the points of the line from vertex `i` to vertex `(i + 1) % n`, for `i` in `[0, n)`. -/
def outline_points (fuel : Nat) (x y : List Int) (n : Nat) : List (Int × Int) :=
  (List.range n).flatMap (fun i =>
    line_points fuel (arr x i) (arr y i) (arr x ((i + 1) % n)) (arr y ((i + 1) % n)))

/-- The call `putpixel(p.x, p.y, color)` with `int` arguments, as a pixel write. -/
def point_write (color : Nat) (p : Int × Int) : Write :=
  (int_to_u32 p.1, int_to_u32 p.2, color)

/-- The writes of the character loop of `linearfb_draw_text` from pen position
`(x, y)`, in program order: the set bits of each glyph up to the terminating NUL. -/
def text_writes (data : Nat → Nat) (count gw gh : Nat) : List Nat → Nat → Nat → List Write
  | [], _, _ => []
  | c :: cs, x, y =>
    if c = 0 then []
    else glyph_writes data (glyph_index c count) gw gh x y ++
      text_writes data count gw gh cs (u32 (x + gw)) y

/-- A font of 2x2 glyphs in which the glyph of `A` (65) differs from all others:
its rows are `0x40`, `0x80` (bytes 130 and 131 of the table); every other glyph
has the rows `0x80`, `0xC0`. -/
def letter_font : linearfb_font_t :=
  { data := some (fun i => if i = 130 then 64 else if i = 131 then 128 else 128 + 64 * (i % 2)),
    width := 2, height := 2, pitch := 0, bpp := 0,
    width_lt := by decide, height_lt := by decide }

/-- The state after binding `sample_fb` and loading `letter_font` with 128
glyphs over zeroed memory: a 2x2 grid in console mode. -/
def letter_state : State :=
  (linearfb_load_font (some letter_font) 128
    (linearfb_init (request_of sample_fb) (State.initial (fun _ => 0))).2).2

/-- The state `letter_state` switched to graphics mode. -/
def letter_graphics_state : State :=
  linearfb_set_mode linearfb_mode_t.FB_MODE_GRAPHICS letter_state

/-- A surface of 16 by 2^25 pixels with 32 bits per pixel and no padding. -/
def tall_fb : limine_framebuffer :=
  { address := 0, width := 16, height := 33554432, pitch := 64, bpp := 32,
    width_lt := by decide, height_lt := by decide, line_le := by decide }

/-- A font of glyphs 8 pixels wide and 2^25 rows high whose table is zero in its
first 2^32 bytes and `0xFF` from there on. -/
def tall_font : linearfb_font_t :=
  { data := some (fun i => if i < 4294967296 then 0 else 255),
    width := 8, height := 33554432, pitch := 0, bpp := 0,
    width_lt := by decide, height_lt := by decide }

/-- The state after binding `tall_fb` and loading `tall_font` with 256 glyphs
over zeroed memory: a grid of 2 columns and 1 row in console mode. -/
def tall_state : State :=
  (linearfb_load_font (some tall_font) 256
    (linearfb_init (request_of tall_fb) (State.initial (fun _ => 0))).2).2

/-! ## Pixels and sequences of pixel writes -/


theorem u32_of_lt {n : Nat} (h : n < 4294967296) : u32 n = n := by
  unfold u32; omega

theorem pixel_addr_eq (fb : limine_framebuffer) {x : Nat} (y : Nat) (hx : x < fb.width) :
    pixel_addr fb x y = fb.address + y * fb.pitch + x * (fb.bpp / 8) := by
  unfold pixel_addr
  have h1 : (x + 1) * (fb.bpp / 8) ≤ fb.width * (fb.bpp / 8) := Nat.mul_le_mul_right _ hx
  have h2 : (x + 1) * (fb.bpp / 8) = x * (fb.bpp / 8) + fb.bpp / 8 := by ring
  have h3 := fb.line_le
  rcases Nat.eq_zero_or_pos (fb.bpp / 8) with h0 | h0
  · rw [h0]; simp [u32]
  · rw [u32_of_lt (by omega)]

theorem color_byte_eq (c : Nat) {i : Nat} (hi : i < 4) : color_byte c i = (c / 256 ^ i) % 256 := by
  unfold color_byte u32
  interval_cases i <;> simp <;> omega

theorem pixel_store_apply (fb : limine_framebuffer) (x y c : Nat) (mem : Mem) (a : Nat) :
    pixel_store fb x y c mem a =
      if x < fb.width ∧ y < fb.height ∧ pixel_addr fb x y ≤ a ∧ a < pixel_addr fb x y + fb.bpp / 8
      then color_byte c (a - pixel_addr fb x y) else mem a := by
  unfold pixel_store memcpy_color
  by_cases hx : x < fb.width <;> by_cases hy : y < fb.height <;> simp [hx, hy, Nat.not_le.mpr, Nat.not_lt.mp]

theorem pixel_store_of_not_covers (fb : limine_framebuffer) (w : Write) (mem : Mem) (a : Nat)
    (h : ¬ covers fb w a) : pixel_store fb w.1 w.2.1 w.2.2 mem a = mem a := by
  rw [pixel_store_apply]
  unfold covers at h
  rw [if_neg h]

theorem pixel_store_of_covers (fb : limine_framebuffer) (w : Write) (mem : Mem) (a : Nat)
    (h : covers fb w a) :
    pixel_store fb w.1 w.2.1 w.2.2 mem a = color_byte w.2.2 (a - pixel_addr fb w.1 w.2.1) := by
  rw [pixel_store_apply]
  unfold covers at h
  rw [if_pos h]

theorem paint_nil (fb : limine_framebuffer) (mem : Mem) : paint fb [] mem = mem := rfl

theorem paint_cons (fb : limine_framebuffer) (w : Write) (ws : List Write) (mem : Mem) :
    paint fb (w :: ws) mem = paint fb ws (pixel_store fb w.1 w.2.1 w.2.2 mem) := rfl

theorem paint_append (fb : limine_framebuffer) (ws vs : List Write) (mem : Mem) :
    paint fb (ws ++ vs) mem = paint fb vs (paint fb ws mem) := by
  unfold paint; rw [List.foldl_append]

/-- Frame rule for a sequence of pixel writes: an address that no write
covers keeps its byte. -/
theorem paint_frame (fb : limine_framebuffer) (ws : List Write) (mem : Mem) (a : Nat)
    (h : ∀ w ∈ ws, ¬ covers fb w a) : paint fb ws mem a = mem a := by
  induction ws generalizing mem with
  | nil => rfl
  | cons w ws ih =>
    rw [paint_cons, ih _ (fun v hv => h v (List.mem_cons_of_mem _ hv))]
    exact pixel_store_of_not_covers fb w mem a (h w (List.mem_cons_self _ _))

/-- Distinct pixels of a surface whose scanlines hold a full row of pixels
occupy disjoint bytes. -/
theorem covers_unique (fb : limine_framebuffer) (hp : fb.width * (fb.bpp / 8) ≤ fb.pitch)
    (w v : Write) (a : Nat) (hw : covers fb w a) (hv : covers fb v a) :
    w.1 = v.1 ∧ w.2.1 = v.2.1 := by
  obtain ⟨hwx, hwy, hw1, hw2⟩ := hw
  obtain ⟨hvx, hvy, hv1, hv2⟩ := hv
  rw [pixel_addr_eq fb _ hwx] at hw1 hw2
  rw [pixel_addr_eq fb _ hvx] at hv1 hv2
  have e1 : (w.1 + 1) * (fb.bpp / 8) ≤ fb.width * (fb.bpp / 8) := Nat.mul_le_mul_right _ hwx
  have e2 : (v.1 + 1) * (fb.bpp / 8) ≤ fb.width * (fb.bpp / 8) := Nat.mul_le_mul_right _ hvx
  have e3 : (w.1 + 1) * (fb.bpp / 8) = w.1 * (fb.bpp / 8) + fb.bpp / 8 := by ring
  have e4 : (v.1 + 1) * (fb.bpp / 8) = v.1 * (fb.bpp / 8) + fb.bpp / 8 := by ring
  have hy : w.2.1 = v.2.1 := by
    rcases Nat.lt_trichotomy w.2.1 v.2.1 with h | h | h
    · exfalso
      have e5 : (w.2.1 + 1) * fb.pitch ≤ v.2.1 * fb.pitch := Nat.mul_le_mul_right _ h
      have e6 : (w.2.1 + 1) * fb.pitch = w.2.1 * fb.pitch + fb.pitch := by ring
      omega
    · exact h
    · exfalso
      have e5 : (v.2.1 + 1) * fb.pitch ≤ w.2.1 * fb.pitch := Nat.mul_le_mul_right _ h
      have e6 : (v.2.1 + 1) * fb.pitch = v.2.1 * fb.pitch + fb.pitch := by ring
      omega
  refine ⟨?_, hy⟩
  rw [hy] at hw1 hw2
  rcases Nat.lt_trichotomy w.1 v.1 with h | h | h
  · exfalso
    have e5 : (w.1 + 1) * (fb.bpp / 8) ≤ v.1 * (fb.bpp / 8) := Nat.mul_le_mul_right _ h
    omega
  · exact h
  · exfalso
    have e5 : (v.1 + 1) * (fb.bpp / 8) ≤ w.1 * (fb.bpp / 8) := Nat.mul_le_mul_right _ h
    omega

/-- The address of byte `i` of an in-surface pixel is covered by a write to that pixel. -/
theorem covers_self (fb : limine_framebuffer) {x y : Nat} (c : Nat) (hx : x < fb.width)
    (hy : y < fb.height) {i : Nat} (hi : i < fb.bpp / 8) :
    covers fb (x, y, c) (fb.address + y * fb.pitch + x * (fb.bpp / 8) + i) := by
  refine ⟨hx, hy, ?_, ?_⟩ <;> simp only [pixel_addr_eq fb y hx] <;> omega

theorem read_pixel_congr (fb : limine_framebuffer) (m1 m2 : Mem) (x y : Nat)
    (h : ∀ i, i < fb.bpp / 8 →
      m1 (fb.address + y * fb.pitch + x * (fb.bpp / 8) + i) =
      m2 (fb.address + y * fb.pitch + x * (fb.bpp / 8) + i)) :
    read_pixel m1 fb x y = read_pixel m2 fb x y := by
  unfold read_pixel
  apply List.map_congr_left
  intro i hi
  exact h i (List.mem_range.mp hi)

/-- The bytes `putpixel` stores for a colour, for any pixel size. -/
theorem read_pixel_eq_bytes (fb : limine_framebuffer) (m : Mem) (x y c : Nat)
    (hB : fb.bpp / 8 ≤ 4)
    (h : ∀ i, i < fb.bpp / 8 →
      m (fb.address + y * fb.pitch + x * (fb.bpp / 8) + i) = color_byte c i) :
    read_pixel m fb x y = low_bytes c (fb.bpp / 8) := by
  unfold read_pixel low_bytes
  apply List.map_congr_left
  intro i hi
  have hi := List.mem_range.mp hi
  rw [h i hi, color_byte_eq c (by omega)]

/-- Reading a pixel right after writing it. -/
theorem read_pixel_store_same (fb : limine_framebuffer) (m : Mem) {x y : Nat} (c : Nat)
    (hB : fb.bpp / 8 ≤ 4) (hx : x < fb.width) (hy : y < fb.height) :
    read_pixel (pixel_store fb x y c m) fb x y = low_bytes c (fb.bpp / 8) := by
  apply read_pixel_eq_bytes fb _ x y c hB
  intro i hi
  have hc := covers_self fb c hx hy hi
  have := pixel_store_of_covers fb (x, y, c) m _ hc
  simp only at this
  rw [this, pixel_addr_eq fb y hx]
  congr 1
  omega

/-- A write to another pixel leaves the pixel's bytes as they were. -/
theorem read_pixel_store_other (fb : limine_framebuffer) (hp : fb.width * (fb.bpp / 8) ≤ fb.pitch)
    (m : Mem) {x y : Nat} (w : Write) (hx : x < fb.width) (hy : y < fb.height)
    (hne : ¬ (w.1 = x ∧ w.2.1 = y)) :
    read_pixel (pixel_store fb w.1 w.2.1 w.2.2 m) fb x y = read_pixel m fb x y := by
  apply read_pixel_congr
  intro i hi
  apply pixel_store_of_not_covers
  intro hc
  exact hne (covers_unique fb hp w (x, y, 0) _ hc (covers_self fb 0 hx hy hi))

/-- A pixel that no write of the sequence addresses keeps its bytes. -/
theorem read_pixel_paint_other (fb : limine_framebuffer) (hp : fb.width * (fb.bpp / 8) ≤ fb.pitch)
    (ws : List Write) (m : Mem) {x y : Nat} (hx : x < fb.width) (hy : y < fb.height)
    (hne : ∀ w ∈ ws, ¬ (w.1 = x ∧ w.2.1 = y)) :
    read_pixel (paint fb ws m) fb x y = read_pixel m fb x y := by
  induction ws generalizing m with
  | nil => rfl
  | cons w ws ih =>
    rw [paint_cons, ih _ (fun v hv => hne v (List.mem_cons_of_mem _ hv))]
    exact read_pixel_store_other fb hp m w hx hy (hne w (List.mem_cons_self _ _))

/-- A pixel that some write of a one-colour sequence addresses holds that colour. -/
theorem read_pixel_paint_same (fb : limine_framebuffer) (hp : fb.width * (fb.bpp / 8) ≤ fb.pitch)
    (hB : fb.bpp / 8 ≤ 4) (ws : List Write) (m : Mem) {x y : Nat} (c : Nat)
    (hx : x < fb.width) (hy : y < fb.height) (hc : ∀ w ∈ ws, w.2.2 = c)
    (hex : ∃ w ∈ ws, w.1 = x ∧ w.2.1 = y) :
    read_pixel (paint fb ws m) fb x y = low_bytes c (fb.bpp / 8) := by
  induction ws generalizing m with
  | nil => obtain ⟨w, hw, _⟩ := hex; cases hw
  | cons w ws ih =>
    rw [paint_cons]
    by_cases hrest : ∃ v ∈ ws, v.1 = x ∧ v.2.1 = y
    · exact ih _ (fun v hv => hc v (List.mem_cons_of_mem _ hv)) hrest
    · have hw : w.1 = x ∧ w.2.1 = y := by
        obtain ⟨v, hv, hv2⟩ := hex
        rcases List.mem_cons.mp hv with h | h
        · rw [← h]; exact hv2
        · exact absurd ⟨v, h, hv2⟩ hrest
      rw [read_pixel_paint_other fb hp ws _ hx hy (fun v hv hv2 => hrest ⟨v, hv, hv2⟩)]
      rw [hw.1, hw.2, hc w (List.mem_cons_self _ _)]
      exact read_pixel_store_same fb m c hB hx hy



theorem set_mem_mem (s : State) (m : Mem) : (s.set_mem m).mem = m := rfl
theorem set_mem_set_mem (s : State) (m n : Mem) : (s.set_mem m).set_mem n = s.set_mem n := rfl
theorem set_mem_self (s : State) : s.set_mem s.mem = s := rfl

theorem putpixel_set_mem (s : State) (fb : limine_framebuffer) (hfb : s.fb = some fb)
    (x y c : Nat) (m : Mem) :
    putpixel x y c (s.set_mem m) = s.set_mem (paint fb [(x, y, c)] m) := by
  unfold putpixel State.set_mem
  simp only [hfb]
  rfl

theorem putpixel_of_no_fb (s : State) (hfb : s.fb = none) (x y c : Nat) :
    putpixel x y c s = s := by
  unfold putpixel
  simp only [hfb]

/-- A loop whose body is a sequence of pixel writes is the sequence of all its writes. -/
theorem foldl_paint {α : Type} (s : State) (fb : limine_framebuffer) (l : List α)
    (body : α → State → State) (f : α → List Write)
    (h : ∀ i m, body i (s.set_mem m) = s.set_mem (paint fb (f i) m)) (m : Mem) :
    l.foldl (fun acc i => body i acc) (s.set_mem m) = s.set_mem (paint fb (l.flatMap f) m) := by
  induction l generalizing m with
  | nil => rfl
  | cons a l ih =>
    rw [List.foldl_cons, h, ih, List.flatMap_cons, paint_append]

theorem for_range_paint (s : State) (fb : limine_framebuffer) (n : Nat)
    (body : Nat → State → State) (f : Nat → List Write)
    (h : ∀ i m, body i (s.set_mem m) = s.set_mem (paint fb (f i) m)) (m : Mem) :
    for_range n body (s.set_mem m) = s.set_mem (paint fb ((List.range n).flatMap f) m) :=
  foldl_paint s fb (List.range n) body f h m

theorem for_from_paint (s : State) (fb : limine_framebuffer) (lo hi : Nat)
    (body : Nat → State → State) (f : Nat → List Write)
    (h : ∀ i m, body i (s.set_mem m) = s.set_mem (paint fb (f i) m)) (m : Mem) :
    for_from lo hi body (s.set_mem m) =
      s.set_mem (paint fb ((List.range (hi - lo)).flatMap (fun k => f (lo + k))) m) :=
  foldl_paint s fb (List.range (hi - lo)) (fun k => body (lo + k)) (fun k => f (lo + k))
    (fun k m => h (lo + k) m) m

/-- The writes of one scanline of a fill: `putpixel(x, y, c)` for `x` in `[0, n)`. -/
theorem fill_row_paint (s : State) (fb : limine_framebuffer) (hfb : s.fb = some fb)
    (n y c : Nat) (m : Mem) :
    for_range n (fun x acc => putpixel x y c acc) (s.set_mem m) =
      s.set_mem (paint fb ((List.range n).flatMap (fun x => [(x, y, c)])) m) :=
  for_range_paint s fb n _ _ (fun x m => putpixel_set_mem s fb hfb x y c m) m

/-- C1 (write_pixel).  On a bound surface with 1 to 4 bytes per pixel, a write
inside the surface leaves the low bytes of the colour, least significant first,
at offset `y * pitch + x * B`, and changes no other byte and no variable; a
write outside the surface, or with no surface bound, changes nothing. -/
theorem putpixel_contract (s : State) (x y c : Nat) :
    (∀ fb, s.fb = some fb → 1 ≤ fb.bpp / 8 → fb.bpp / 8 ≤ 4 → x < fb.width → y < fb.height →
      read_pixel (putpixel x y c s).mem fb x y = low_bytes c (fb.bpp / 8) ∧
      (∀ a, ¬ (fb.address + y * fb.pitch + x * (fb.bpp / 8) ≤ a ∧
            a < fb.address + y * fb.pitch + x * (fb.bpp / 8) + fb.bpp / 8) →
        (putpixel x y c s).mem a = s.mem a) ∧
      putpixel x y c s = s.set_mem (putpixel x y c s).mem) ∧
    (∀ fb, s.fb = some fb → (fb.width ≤ x ∨ fb.height ≤ y) → putpixel x y c s = s) ∧
    (s.fb = none → putpixel x y c s = s) := by
  refine ⟨?_, ?_, ?_⟩
  · intro fb hfb _ hB4 hx hy
    have hput : putpixel x y c s = s.set_mem (pixel_store fb x y c s.mem) := by
      have := putpixel_set_mem s fb hfb x y c s.mem
      rwa [set_mem_self] at this
    rw [hput]
    refine ⟨read_pixel_store_same fb s.mem c hB4 hx hy, ?_, rfl⟩
    intro a ha
    rw [set_mem_mem]
    apply pixel_store_of_not_covers fb (x, y, c)
    intro hc
    apply ha
    have h1 := hc.2.2.1
    have h2 := hc.2.2.2
    simp only [pixel_addr_eq fb y hx] at h1 h2
    exact ⟨h1, h2⟩
  · intro fb hfb hout
    have hput : putpixel x y c s = s.set_mem (pixel_store fb x y c s.mem) := by
      have := putpixel_set_mem s fb hfb x y c s.mem
      rwa [set_mem_self] at this
    rw [hput]
    unfold pixel_store
    rw [if_pos (by omega)]
    rfl
  · intro hfb
    exact putpixel_of_no_fb s hfb x y c

theorem clear_eq (s : State) (fb : limine_framebuffer) (hfb : s.fb = some fb) (c : Nat) :
    linearfb_console_clear c s =
      { s.set_mem (paint fb ((List.range fb.height).flatMap (fun y =>
          (List.range fb.width).flatMap (fun x => [(x, y, c)]))) s.mem) with
        console_col := 0, console_row := 0, console_bg := c } := by
  unfold linearfb_console_clear
  simp only [hfb]
  have h := for_range_paint s fb fb.height
    (fun y acc => for_range fb.width (fun x acc1 => putpixel x y c acc1) acc)
    (fun y => (List.range fb.width).flatMap (fun x => [(x, y, c)]))
    (fun y m => fill_row_paint s fb hfb fb.width y c m) s.mem
  rw [set_mem_self] at h
  rw [h]

/-- C2 (clear).  On a bound surface with 1 to 4 bytes per pixel whose pitch
holds a full row of pixels, in any mode and from any state, `clear(c)` leaves
the cursor at `(0,0)`, records `c` as the background and makes every pixel of
the surface read back as the low bytes of `c`. -/
theorem clear_contract (s : State) (fb : limine_framebuffer) (c : Nat)
    (hfb : s.fb = some fb) (_hB1 : 1 ≤ fb.bpp / 8) (hB4 : fb.bpp / 8 ≤ 4)
    (hp : fb.width * (fb.bpp / 8) ≤ fb.pitch) :
    linearfb_console_get_cursor (linearfb_console_clear c s) = (0, 0) ∧
    (linearfb_console_clear c s).console_bg = c ∧
    ∀ x y, x < fb.width → y < fb.height →
      read_pixel (linearfb_console_clear c s).mem fb x y = low_bytes c (fb.bpp / 8) := by
  rw [clear_eq s fb hfb c]
  refine ⟨rfl, rfl, ?_⟩
  intro x y hx hy
  apply read_pixel_paint_same fb hp hB4 _ _ c hx hy
  · intro w hw
    simp only [List.mem_flatMap, List.mem_range, List.mem_singleton] at hw
    obtain ⟨_, _, _, _, rfl⟩ := hw
    rfl
  · refine ⟨(x, y, c), ?_, rfl, rfl⟩
    simp only [List.mem_flatMap, List.mem_range, List.mem_singleton]
    exact ⟨y, hy, x, hx, rfl⟩

theorem putpixel_contract_witness :
    read_pixel (putpixel 1 2 287454020 sample_state).mem sample_fb 1 2 = [68, 51, 34, 17] ∧
    putpixel 4 0 287454020 sample_state = sample_state :=
  ⟨(((putpixel_contract sample_state 1 2 287454020).1 sample_fb rfl (by decide) (by decide)
      (by decide) (by decide)).1).trans (by decide),
   (putpixel_contract sample_state 4 0 287454020).2.1 sample_fb rfl (Or.inl (by decide))⟩

theorem clear_contract_witness :
    linearfb_console_get_cursor (linearfb_console_clear 287454020 sample_state) = (0, 0) ∧
    read_pixel (linearfb_console_clear 287454020 sample_state).mem sample_fb 3 3 =
      [68, 51, 34, 17] :=
  have h := clear_contract sample_state sample_fb 287454020 rfl (by decide) (by decide) (by decide)
  ⟨h.1, (h.2.2 3 3 (by decide) (by decide)).trans (by decide)⟩

theorem mem_only_putpixel (x y c : Nat) : mem_only (putpixel x y c) := by
  intro s
  unfold putpixel
  split <;> rfl

theorem mem_only_foldl {α : Type} (l : List α) (body : α → State → State)
    (h : ∀ i, mem_only (body i)) (s : State) :
    l.foldl (fun acc i => body i acc) s = s.set_mem (l.foldl (fun acc i => body i acc) s).mem := by
  induction l generalizing s with
  | nil => rfl
  | cons a l ih =>
    simp only [List.foldl_cons]
    rw [ih (body a s)]
    generalize (List.foldl (fun acc i => body i acc) (body a s) l).mem = X
    rw [h a s]
    rfl

theorem mem_only_for_range (n : Nat) (body : Nat → State → State)
    (h : ∀ i, mem_only (body i)) : mem_only (for_range n body) :=
  fun s => mem_only_foldl (List.range n) body h s

theorem mem_only_blit_glyph (data : Nat → Nat) (ch x y : Nat) :
    mem_only (blit_glyph data ch x y) := by
  intro s
  unfold blit_glyph
  apply mem_only_for_range
  intro row
  apply mem_only_for_range
  intro col t
  split
  · exact mem_only_putpixel _ _ _ t
  · rfl

theorem for_range_paint_self (s : State) (fb : limine_framebuffer) (n : Nat)
    (body : Nat → State → State) (f : Nat → List Write)
    (h : ∀ i m, body i (s.set_mem m) = s.set_mem (paint fb (f i) m)) :
    for_range n body s = s.set_mem (paint fb ((List.range n).flatMap f) s.mem) :=
  for_range_paint s fb n body f h s.mem

/-- The band fill of `console_scroll` and the fill of `clear`, as writes. -/
theorem fill_paint (s : State) (fb : limine_framebuffer) (hfb : s.fb = some fb)
    (lo hi n c : Nat) (m : Mem) :
    for_from lo hi (fun y acc => for_range n (fun x acc1 => putpixel x y c acc1) acc)
        (s.set_mem m) = s.set_mem (paint fb (fill_writes lo hi n c) m) :=
  for_from_paint s fb lo hi _ (fun y => (List.range n).flatMap (fun x => [(x, y, c)]))
    (fun y m => fill_row_paint s fb hfb n y c m) m

theorem cell_paint (s : State) (fb : limine_framebuffer) (hfb : s.fb = some fb)
    (gw gh px py c : Nat) (m : Mem) :
    for_range gh (fun row acc => for_range gw (fun col acc1 =>
        putpixel (u32 (px + col)) (u32 (py + row)) c acc1) acc) (s.set_mem m) =
      s.set_mem (paint fb (cell_writes gw gh px py c) m) :=
  for_range_paint s fb gh _
    (fun row => (List.range gw).flatMap (fun col => [(u32 (px + col), u32 (py + row), c)]))
    (fun _ m => for_range_paint s fb gw _ _
      (fun _ m => putpixel_set_mem s fb hfb _ _ c m) m) m

theorem blit_glyph_paint (s : State) (fb : limine_framebuffer) (hfb : s.fb = some fb)
    (data : Nat → Nat) (ch px py : Nat) (m : Mem) :
    blit_glyph data ch px py (s.set_mem m) =
      s.set_mem (paint fb (glyph_writes data ch s.font_glyph_w s.font_glyph_h px py) m) := by
  unfold blit_glyph
  exact for_range_paint s fb s.font_glyph_h _
    (fun row => (List.range s.font_glyph_w).flatMap (fun col =>
      if glyph_bit (glyph_row data ch s.font_glyph_h row) col
      then [(u32 (px + col), u32 (py + row), 4294967295)] else []))
    (fun row m => for_range_paint s fb s.font_glyph_w _ _
      (fun col m => by
        show (if glyph_bit (glyph_row data ch s.font_glyph_h row) col = true
            then putpixel (u32 (px + col)) (u32 (py + row)) 4294967295 (s.set_mem m)
            else s.set_mem m) = _
        split
        · exact putpixel_set_mem s fb hfb _ _ _ m
        · rfl) m) m

/-- Normal form of `console_scroll` when it runs. -/
theorem console_scroll_eq (s : State) (fb : limine_framebuffer) (d : Nat → Nat)
    (hfb : s.fb = some fb) (hd : s.fb_font.data = some d) :
    console_scroll s =
      { s.set_mem (scroll_mem fb s) with
        console_row := u32 (s.console_rows + 4294967295), scrolls := s.scrolls + 1 } := by
  unfold console_scroll
  rw [hfb, hd]
  simp only
  rw [fill_paint s fb hfb]
  rfl

/-- `console_scroll` returns at once unless a surface is bound and a font loaded. -/
theorem console_scroll_skip (s : State) (h : s.fb = none ∨ s.fb_font.data = none) :
    console_scroll s = s := by
  unfold console_scroll
  rcases h with h | h
  · rw [h]
  · rw [h]
    cases s.fb <;> rfl


theorem mem_only_draw_cell (data : Nat → Nat) (ch : Nat) : mem_only (draw_cell data ch) := by
  intro s
  unfold draw_cell
  simp only
  rw [mem_only_blit_glyph data ch _ _ _]
  rw [mem_only_for_range s.font_glyph_h _ (fun row => mem_only_for_range _ _
    (fun col => mem_only_putpixel _ _ _)) s]
  rfl

theorem draw_cell_paint (s : State) (fb : limine_framebuffer) (hfb : s.fb = some fb)
    (data : Nat → Nat) (ch : Nat) :
    draw_cell data ch s = s.set_mem (cell_mem fb data ch s) := by
  unfold draw_cell cell_mem
  simp only
  have h := cell_paint s fb hfb s.font_glyph_w s.font_glyph_h
    (u32 (s.console_col * s.font_glyph_w)) (u32 (s.console_row * s.font_glyph_h)) s.console_bg s.mem
  rw [set_mem_self] at h
  rw [h, blit_glyph_paint s fb hfb, paint_append]

theorem console_next_row_eq (s : State) :
    console_next_row s =
      if u32 (s.console_row + 1) ≥ s.console_rows
      then console_scroll { s with console_row := u32 (s.console_row + 1) }
      else { s with console_row := u32 (s.console_row + 1) } := rfl

theorem putc_guard (c : Nat) (s : State)
    (h : s.fb_font.data = none ∨ s.fb_mode ≠ linearfb_mode_t.FB_MODE_CONSOLE) :
    linearfb_console_putc c s = s := by
  unfold linearfb_console_putc
  rcases h with h | h
  · rw [h]
  · cases s.fb_font.data with
    | none => rfl
    | some d => simp only [h, ne_eq, not_false_eq_true, if_true]

theorem putc_newline (s : State) (d : Nat → Nat) (hd : s.fb_font.data = some d)
    (hm : s.fb_mode = linearfb_mode_t.FB_MODE_CONSOLE) :
    linearfb_console_putc 10 s = console_next_row { s with console_col := 0 } := by
  unfold linearfb_console_putc
  rw [hd]
  simp only [hm, ne_eq, not_true_eq_false, if_false, if_true]

theorem putc_return (s : State) (d : Nat → Nat) (hd : s.fb_font.data = some d)
    (hm : s.fb_mode = linearfb_mode_t.FB_MODE_CONSOLE) :
    linearfb_console_putc 13 s = { s with console_col := 0 } := by
  unfold linearfb_console_putc
  rw [hd]
  simp [hm]

theorem putc_backspace (s : State) (d : Nat → Nat) (hd : s.fb_font.data = some d)
    (hm : s.fb_mode = linearfb_mode_t.FB_MODE_CONSOLE) :
    linearfb_console_putc 8 s =
      if s.console_col > 0 then { s with console_col := s.console_col - 1 } else s := by
  unfold linearfb_console_putc
  rw [hd]
  simp [hm]

theorem putc_glyph (c : Nat) (s : State) (d : Nat → Nat) (hd : s.fb_font.data = some d)
    (hm : s.fb_mode = linearfb_mode_t.FB_MODE_CONSOLE) (h10 : c ≠ 10) (h13 : c ≠ 13)
    (h8 : c ≠ 8) :
    linearfb_console_putc c s =
      if u32 (s.console_col + 1) ≥ s.console_cols
      then console_next_row
        { s.set_mem (draw_cell d (glyph_index c s.font_glyph_count) s).mem with console_col := 0 }
      else
        { s.set_mem (draw_cell d (glyph_index c s.font_glyph_count) s).mem with
          console_col := u32 (s.console_col + 1) } := by
  unfold linearfb_console_putc
  rw [hd]
  simp only [hm, ne_eq, not_true_eq_false, if_false, h10, h13, h8]
  rw [mem_only_draw_cell d _ s]
  rfl


theorem same_config_refl (s : State) : same_config s s :=
  ⟨rfl, rfl, rfl, rfl, rfl, rfl, rfl, rfl, rfl⟩

theorem same_config_trans {s t r : State} (h1 : same_config s t) (h2 : same_config t r) :
    same_config s r := by
  unfold same_config at *
  obtain ⟨a1, a2, a3, a4, a5, a6, a7, a8, a9⟩ := h1
  obtain ⟨b1, b2, b3, b4, b5, b6, b7, b8, b9⟩ := h2
  exact ⟨b1.trans a1, b2.trans a2, b3.trans a3, b4.trans a4, b5.trans a5, b6.trans a6,
    b7.trans a7, b8.trans a8, b9.trans a9⟩

theorem same_config_set_mem (s : State) (m : Mem) : same_config s (s.set_mem m) :=
  same_config_refl s

theorem same_config_of_mem_only {f : State → State} (h : mem_only f) (s : State) :
    same_config s (f s) := by
  rw [h s]
  exact same_config_set_mem s _

theorem console_scroll_same_config (s : State) : same_config s (console_scroll s) := by
  cases hfb : s.fb with
  | none => rw [console_scroll_skip s (Or.inl hfb)]; exact same_config_refl s
  | some fb =>
    cases hd : s.fb_font.data with
    | none => rw [console_scroll_skip s (Or.inr hd)]; exact same_config_refl s
    | some d => rw [console_scroll_eq s fb d hfb hd]; exact same_config_refl s

theorem console_next_row_same_config (s : State) : same_config s (console_next_row s) := by
  rw [console_next_row_eq]
  split
  · exact same_config_trans (s := s) (t := { s with console_row := u32 (s.console_row + 1) })
      (same_config_refl s) (console_scroll_same_config _)
  · exact same_config_refl s

theorem putc_same_config (c : Nat) (s : State) : same_config s (linearfb_console_putc c s) := by
  cases hd : s.fb_font.data with
  | none => rw [putc_guard c s (Or.inl hd)]; exact same_config_refl s
  | some d =>
    by_cases hm : s.fb_mode = linearfb_mode_t.FB_MODE_CONSOLE
    · by_cases h10 : c = 10
      · subst h10
        rw [putc_newline s d hd hm]
        exact same_config_trans (s := s) (t := { s with console_col := 0 })
          (same_config_refl s) (console_next_row_same_config _)
      · by_cases h13 : c = 13
        · subst h13
          rw [putc_return s d hd hm]
          exact same_config_refl s
        · by_cases h8 : c = 8
          · subst h8
            rw [putc_backspace s d hd hm]
            split <;> exact same_config_refl s
          · rw [putc_glyph c s d hd hm h10 h13 h8]
            split
            · exact same_config_trans
                (t := { s.set_mem (draw_cell d (glyph_index c s.font_glyph_count) s).mem with
                  console_col := 0 })
                (same_config_refl s) (console_next_row_same_config _)
            · exact same_config_refl s
    · rw [putc_guard c s (Or.inr hm)]; exact same_config_refl s

theorem puts_same_config (text : List Nat) (s : State) :
    same_config s (linearfb_console_puts text s) := by
  induction text generalizing s with
  | nil => exact same_config_refl s
  | cons c cs ih =>
    unfold linearfb_console_puts
    split
    · exact same_config_refl s
    · exact same_config_trans (putc_same_config c s) (ih _)


/-- Normal form of the row advance on a bound surface with a font loaded. -/
theorem console_next_row_bound (s : State) (fb : limine_framebuffer) (d : Nat → Nat)
    (hfb : s.fb = some fb) (hd : s.fb_font.data = some d) :
    console_next_row s =
      if u32 (s.console_row + 1) ≥ s.console_rows
      then { s.set_mem (scroll_mem fb s) with
             console_row := u32 (s.console_rows + 4294967295), scrolls := s.scrolls + 1 }
      else { s with console_row := u32 (s.console_row + 1) } := by
  rw [console_next_row_eq]
  split
  · rw [console_scroll_eq { s with console_row := u32 (s.console_row + 1) } fb d hfb hd]
    rfl
  · rfl

theorem console_next_row_cursor (s : State) (fb : limine_framebuffer) (d : Nat → Nat)
    (hfb : s.fb = some fb) (hd : s.fb_font.data = some d) :
    (console_next_row s).console_col = s.console_col ∧
    ((console_next_row s).console_row, (console_next_row s).scrolls) =
      next_row_cursor s.console_rows s.console_row s.scrolls := by
  rw [console_next_row_bound s fb d hfb hd]
  unfold next_row_cursor
  split <;> exact ⟨rfl, rfl⟩

/-- The cursor and the scroll count after `linearfb_console_putc`. -/
theorem putc_cursor_eq (c : Nat) (s : State) (fb : limine_framebuffer) (d : Nat → Nat)
    (hfb : s.fb = some fb) (hd : s.fb_font.data = some d)
    (hm : s.fb_mode = linearfb_mode_t.FB_MODE_CONSOLE) :
    ((linearfb_console_putc c s).console_col, (linearfb_console_putc c s).console_row,
      (linearfb_console_putc c s).scrolls) =
      putc_cursor c s.console_cols s.console_rows s.console_col s.console_row s.scrolls := by
  unfold putc_cursor
  by_cases h10 : c = 10
  · subst h10
    rw [putc_newline s d hd hm]
    have h := console_next_row_cursor { s with console_col := 0 } fb d hfb hd
    simp only [if_true]
    exact Prod.ext h.1 h.2
  · by_cases h13 : c = 13
    · subst h13
      rw [putc_return s d hd hm]
      simp
    · by_cases h8 : c = 8
      · subst h8
        rw [putc_backspace s d hd hm]
        simp only [if_neg h10, if_neg h13, if_true]
        split <;> rfl
      · rw [putc_glyph c s d hd hm h10 h13 h8]
        simp only [if_neg h10, if_neg h13, if_neg h8]
        split
        · have h := console_next_row_cursor
            { s.set_mem (draw_cell d (glyph_index c s.font_glyph_count) s).mem with
              console_col := 0 } fb d hfb hd
          exact Prod.ext h.1 h.2
        · rfl


/-! ### The cursor as a function of the characters written -/

theorem putc_cursor_in_grid (c cols rows col row scrolls : Nat) (hc : col < cols)
    (hr : row < rows) :
    (putc_cursor c cols rows col row scrolls).1 < cols ∧
    (putc_cursor c cols rows col row scrolls).2.1 < rows := by
  unfold putc_cursor next_row_cursor u32
  split_ifs <;> simp only <;> omega

theorem putc_cursor_row_mono (c cols rows col row scrolls : Nat) (hr : row < rows)
    (ht : rows < 4294967296) :
    row ≤ (putc_cursor c cols rows col row scrolls).2.1 ∧
    (c = 10 → min (row + 1) (rows - 1) ≤ (putc_cursor c cols rows col row scrolls).2.1) := by
  unfold putc_cursor next_row_cursor u32
  split_ifs <;> simp only <;> omega

/-- One printable character: the cursor moves to the next cell in row-major
order without a scroll, except from the last cell, where the scroll runs once. -/
theorem putc_cursor_printable (c cols rows col row scrolls : Nat) (h10 : c ≠ 10)
    (h13 : c ≠ 13) (h8 : c ≠ 8) (hc : col < cols) (hr : row < rows)
    (htc : cols < 4294967296) (htr : rows < 4294967296) :
    (row * cols + col + 1 < cols * rows →
      (putc_cursor c cols rows col row scrolls).2.1 * cols +
          (putc_cursor c cols rows col row scrolls).1 = row * cols + col + 1 ∧
      (putc_cursor c cols rows col row scrolls).2.2 = scrolls) ∧
    (row * cols + col + 1 = cols * rows →
      putc_cursor c cols rows col row scrolls = (0, rows - 1, scrolls + 1)) := by
  have e1 : (row + 1) * cols = row * cols + cols := by ring
  have e2 : cols * rows = rows * cols := by ring
  have e3 : (row + 1) * cols ≤ rows * cols := Nat.mul_le_mul_right _ hr
  unfold putc_cursor next_row_cursor
  simp only [if_neg h10, if_neg h13, if_neg h8]
  by_cases hw : col + 1 < cols
  · have hu : u32 (col + 1) = col + 1 := u32_of_lt (by omega)
    rw [hu, if_neg (by omega)]
    refine ⟨fun _ => ⟨by simp only; omega, rfl⟩, fun h => ?_⟩
    omega
  · have hu : u32 (col + 1) = col + 1 := u32_of_lt (by omega)
    rw [hu, if_pos (by omega)]
    have hv : u32 (row + 1) = row + 1 := u32_of_lt (by omega)
    rw [hv]
    by_cases hl : row + 1 < rows
    · rw [if_neg (by omega)]
      refine ⟨fun _ => ⟨by simp only; omega, rfl⟩, fun h => ?_⟩
      have e4 : (row + 1 + 1) * cols ≤ rows * cols := Nat.mul_le_mul_right _ hl
      have e5 : (row + 1 + 1) * cols = row * cols + cols + cols := by ring
      omega
    · have hrows : rows = row + 1 := by omega
      rw [if_pos (by omega)]
      have hw2 : u32 (rows + 4294967295) = rows - 1 := by unfold u32; omega
      rw [hw2]
      refine ⟨fun h => ?_, fun _ => rfl⟩
      subst hrows
      omega

theorem putc_in_grid (c : Nat) (s : State) (fb : limine_framebuffer) (hfb : s.fb = some fb)
    (h : s.in_grid) : (linearfb_console_putc c s).in_grid := by
  cases hd : s.fb_font.data with
  | none => rw [putc_guard c s (Or.inl hd)]; exact h
  | some d =>
    by_cases hm : s.fb_mode = linearfb_mode_t.FB_MODE_CONSOLE
    · have e := putc_cursor_eq c s fb d hfb hd hm
      have g := putc_cursor_in_grid c s.console_cols s.console_rows s.console_col s.console_row
        s.scrolls h.1 h.2
      have cfg := putc_same_config c s
      rw [← e] at g
      unfold State.in_grid
      rw [cfg.2.2.2.2.2.2.1, cfg.2.2.2.2.2.2.2.1]
      exact g
    · rw [putc_guard c s (Or.inr hm)]; exact h

/-- A property that every `linearfb_console_putc` keeps, on states with the
configuration of `s0`, holds after `linearfb_console_puts`. -/
theorem puts_induct (P : State → Prop) (s0 : State)
    (hstep : ∀ c s, same_config s0 s → P s → P (linearfb_console_putc c s))
    (text : List Nat) (s : State) (hs : same_config s0 s) (hP : P s) :
    P (linearfb_console_puts text s) := by
  induction text generalizing s with
  | nil => exact hP
  | cons c cs ih =>
    unfold linearfb_console_puts
    split
    · exact hP
    · exact ih _ (same_config_trans hs (putc_same_config c s)) (hstep c s hs hP)

theorem puts_append (a b : List Nat) (s : State) (ha : ∀ c ∈ a, c ≠ 0) :
    linearfb_console_puts (a ++ b) s = linearfb_console_puts b (linearfb_console_puts a s) := by
  induction a generalizing s with
  | nil => rfl
  | cons c cs ih =>
    have hc : c ≠ 0 := ha c (List.mem_cons_self _ _)
    simp only [List.cons_append, linearfb_console_puts, if_neg hc]
    exact ih _ (fun x hx => ha x (List.mem_cons_of_mem _ hx))

theorem puts_in_grid (text : List Nat) (s : State) (fb : limine_framebuffer)
    (hfb : s.fb = some fb) (h : s.in_grid) : (linearfb_console_puts text s).in_grid :=
  puts_induct State.in_grid s
    (fun c t ht hP => putc_in_grid c t fb (ht.1.trans hfb) hP) text s (same_config_refl s) h


theorem putc_row_mono (c : Nat) (s : State) (fb : limine_framebuffer) (d : Nat → Nat)
    (hfb : s.fb = some fb) (hd : s.fb_font.data = some d)
    (hm : s.fb_mode = linearfb_mode_t.FB_MODE_CONSOLE) (h : s.in_grid)
    (ht : s.console_rows < 4294967296) :
    s.console_row ≤ (linearfb_console_putc c s).console_row ∧
    (c = 10 → min (s.console_row + 1) (s.console_rows - 1) ≤
      (linearfb_console_putc c s).console_row) := by
  have e := putc_cursor_eq c s fb d hfb hd hm
  have g := putc_cursor_row_mono c s.console_cols s.console_rows s.console_col s.console_row
    s.scrolls h.2 ht
  rw [← e] at g
  exact g

/-- Every newline moves the cursor one row down until the last row is reached. -/
theorem puts_row_lower (text : List Nat) (s : State) (fb : limine_framebuffer) (d : Nat → Nat)
    (hfb : s.fb = some fb) (hd : s.fb_font.data = some d)
    (hm : s.fb_mode = linearfb_mode_t.FB_MODE_CONSOLE) (h : s.in_grid)
    (ht : s.console_rows < 4294967296) (hnz : ∀ c ∈ text, c ≠ 0) :
    min (s.console_row + text.count 10) (s.console_rows - 1) ≤
      (linearfb_console_puts text s).console_row := by
  induction text generalizing s with
  | nil => simp only [List.count_nil, linearfb_console_puts]; omega
  | cons c cs ih =>
    have hc : c ≠ 0 := hnz c (List.mem_cons_self _ _)
    simp only [linearfb_console_puts, if_neg hc]
    have cfg := putc_same_config c s
    have hg := putc_in_grid c s fb hfb h
    have hmono := putc_row_mono c s fb d hfb hd hm h ht
    have hrows : (linearfb_console_putc c s).console_rows = s.console_rows := cfg.2.2.2.2.2.2.2.1
    have ih2 := ih (linearfb_console_putc c s) (cfg.1.trans hfb) (cfg.2.2.1 ▸ hd)
      (cfg.2.1.trans hm) hg (hrows ▸ ht) (fun x hx => hnz x (List.mem_cons_of_mem _ hx))
    rw [hrows] at ih2
    rw [List.count_cons]
    by_cases h10 : c = 10
    · have := hmono.2 h10
      subst h10
      simp only [beq_self_eq_true, if_true]
      omega
    · have h10b : (c == 10) = false := by simpa using h10
      simp only [h10b]
      have := hmono.1
      simp only [Bool.false_eq_true, if_false]
      omega

/-- C4 (cursor bound across put_string).  With a surface bound, a font loaded,
console mode, a non-empty grid and the cursor inside it, after `put_string` of
any text the grid is the same, `column < columns` and `row <= rows - 1`, so the
row never equals `rows`; and each newline of a text moves the cursor down one
row until it is pinned at `rows - 1` (in particular after `rows + 1` lines). -/
theorem puts_cursor_bound (s : State) (fb : limine_framebuffer) (d : Nat → Nat)
    (text : List Nat) (hfb : s.fb = some fb) (hd : s.fb_font.data = some d)
    (hm : s.fb_mode = linearfb_mode_t.FB_MODE_CONSOLE)
    (_hcols : 1 ≤ s.console_cols) (_hrows : 1 ≤ s.console_rows)
    (hcol : s.console_col < s.console_cols) (hrow : s.console_row < s.console_rows) :
    (linearfb_console_puts text s).console_cols = s.console_cols ∧
    (linearfb_console_puts text s).console_rows = s.console_rows ∧
    (linearfb_console_puts text s).console_col < s.console_cols ∧
    (linearfb_console_puts text s).console_row ≤ s.console_rows - 1 ∧
    (linearfb_console_puts text s).console_row ≠ s.console_rows ∧
    (is_u32 s.console_rows → (∀ c ∈ text, c ≠ 0) →
      min (s.console_row + text.count 10) (s.console_rows - 1) ≤
        (linearfb_console_puts text s).console_row) := by
  have cfg := puts_same_config text s
  have hg := puts_in_grid text s fb hfb ⟨hcol, hrow⟩
  unfold State.in_grid at hg
  rw [cfg.2.2.2.2.2.2.1, cfg.2.2.2.2.2.2.2.1] at hg
  refine ⟨cfg.2.2.2.2.2.2.1, cfg.2.2.2.2.2.2.2.1, hg.1, by omega, by omega, ?_⟩
  intro ht hnz
  exact puts_row_lower text s fb d hfb hd hm ⟨hcol, hrow⟩ ht hnz

/-- Printable characters that do not reach the end of the grid advance the
cursor in row-major order and cause no scroll. -/
theorem puts_no_scroll (text : List Nat) (s : State) (fb : limine_framebuffer) (d : Nat → Nat)
    (hfb : s.fb = some fb) (hd : s.fb_font.data = some d)
    (hm : s.fb_mode = linearfb_mode_t.FB_MODE_CONSOLE) (h : s.in_grid)
    (htc : s.console_cols < 4294967296) (htr : s.console_rows < 4294967296)
    (hp : ∀ c ∈ text, c ≠ 0 ∧ c ≠ 10 ∧ c ≠ 13 ∧ c ≠ 8)
    (hlen : s.console_row * s.console_cols + s.console_col + text.length <
      s.console_cols * s.console_rows) :
    (linearfb_console_puts text s).console_row * s.console_cols +
        (linearfb_console_puts text s).console_col =
      s.console_row * s.console_cols + s.console_col + text.length ∧
    (linearfb_console_puts text s).in_grid ∧
    (linearfb_console_puts text s).scrolls = s.scrolls := by
  induction text generalizing s with
  | nil => exact ⟨rfl, h, rfl⟩
  | cons c cs ih =>
    obtain ⟨hc0, hc10, hc13, hc8⟩ := hp c (List.mem_cons_self _ _)
    simp only [linearfb_console_puts, if_neg hc0]
    have cfg := putc_same_config c s
    have hg := putc_in_grid c s fb hfb h
    have e := putc_cursor_eq c s fb d hfb hd hm
    have hcols : (linearfb_console_putc c s).console_cols = s.console_cols := cfg.2.2.2.2.2.2.1
    have hrows : (linearfb_console_putc c s).console_rows = s.console_rows := cfg.2.2.2.2.2.2.2.1
    have g := (putc_cursor_printable c s.console_cols s.console_rows s.console_col s.console_row
      s.scrolls hc10 hc13 hc8 h.1 h.2 htc htr).1
      (by simp only [List.length_cons] at hlen; omega)
    rw [← e] at g
    simp only at g
    have ih2 := ih (linearfb_console_putc c s) (cfg.1.trans hfb) (cfg.2.2.1 ▸ hd)
      (cfg.2.1.trans hm) hg (hcols ▸ htc) (hrows ▸ htr)
      (fun x hx => hp x (List.mem_cons_of_mem _ hx))
      (by rw [hcols, hrows, g.1]; simp only [List.length_cons] at hlen; omega)
    rw [hcols] at ih2
    refine ⟨?_, ih2.2.1, ?_⟩
    · rw [ih2.1, g.1, List.length_cons]; omega
    · rw [ih2.2.2, g.2]


theorem clear_same_grid (color : Nat) (s : State) :
    (linearfb_console_clear color s).fb = s.fb ∧
    (linearfb_console_clear color s).fb_mode = s.fb_mode ∧
    (linearfb_console_clear color s).fb_font = s.fb_font ∧
    (linearfb_console_clear color s).font_glyph_count = s.font_glyph_count ∧
    (linearfb_console_clear color s).font_glyph_w = s.font_glyph_w ∧
    (linearfb_console_clear color s).font_glyph_h = s.font_glyph_h ∧
    (linearfb_console_clear color s).console_cols = s.console_cols ∧
    (linearfb_console_clear color s).console_rows = s.console_rows ∧
    (linearfb_console_clear color s).scrolls = s.scrolls := by
  cases hfb : s.fb with
  | none =>
    have : linearfb_console_clear color s = s := by
      unfold linearfb_console_clear; rw [hfb]
    rw [this]
    exact ⟨hfb, rfl, rfl, rfl, rfl, rfl, rfl, rfl, rfl⟩
  | some fb =>
    rw [clear_eq s fb hfb color]
    exact ⟨hfb, rfl, rfl, rfl, rfl, rfl, rfl, rfl, rfl⟩

theorem cursor_of_position {cols col row k : Nat} (hc : col < cols)
    (h : row * cols + col = k) : (col, row) = (k % cols, k / cols) := by
  have hpos : 0 < cols := by omega
  have := (Nat.div_mod_unique hpos (a := k) (c := col) (d := row)).mpr
    ⟨by rw [Nat.mul_comm]; omega, hc⟩
  rw [this.1, this.2]

/-- C5 (one scroll per full grid).  From the state left by `clear`, with a
surface bound, a font loaded, console mode and a non-empty grid, a text of
exactly `columns * rows` printable characters scrolls exactly once, on its last
character: after the first `k < columns * rows` characters the cursor is
`(k mod columns, k div columns)` and no scroll has run; after the whole text the
cursor is `(0, rows - 1)` and one scroll has run. -/
theorem puts_full_grid (s0 : State) (fb : limine_framebuffer) (d : Nat → Nat) (color : Nat)
    (text : List Nat) (hfb : s0.fb = some fb) (hd : s0.fb_font.data = some d)
    (hm : s0.fb_mode = linearfb_mode_t.FB_MODE_CONSOLE) (hwf : s0.wf)
    (hcols : 1 ≤ s0.console_cols) (hrows : 1 ≤ s0.console_rows)
    (hlen : text.length = s0.console_cols * s0.console_rows)
    (hp : ∀ c ∈ text, c ≠ 0 ∧ c ≠ 10 ∧ c ≠ 13 ∧ c ≠ 8) :
    (∀ k, k < s0.console_cols * s0.console_rows →
      (linearfb_console_puts (text.take k) (linearfb_console_clear color s0)).cursor =
        (k % s0.console_cols, k / s0.console_cols) ∧
      (linearfb_console_puts (text.take k) (linearfb_console_clear color s0)).scrolls =
        (linearfb_console_clear color s0).scrolls) ∧
    (linearfb_console_puts text (linearfb_console_clear color s0)).cursor =
      (0, s0.console_rows - 1) ∧
    (linearfb_console_puts text (linearfb_console_clear color s0)).scrolls =
      (linearfb_console_clear color s0).scrolls + 1 := by
  obtain ⟨g1, g2, g3, _, _, _, g7, g8, _⟩ := clear_same_grid color s0
  have hcur : (linearfb_console_clear color s0).console_col = 0 ∧
      (linearfb_console_clear color s0).console_row = 0 := by
    rw [clear_eq s0 fb hfb color]; exact ⟨rfl, rfl⟩
  generalize linearfb_console_clear color s0 = s at *
  have hfb1 : s.fb = some fb := g1.trans hfb
  have hd1 : s.fb_font.data = some d := by rw [g3]; exact hd
  have hm1 := g2.trans hm
  have htc : s.console_cols < 4294967296 := by rw [g7]; exact hwf.1
  have htr : s.console_rows < 4294967296 := by rw [g8]; exact hwf.2.1
  have hgrid : s.in_grid := by unfold State.in_grid; omega
  have hfirst : ∀ k, k < s0.console_cols * s0.console_rows →
      (linearfb_console_puts (text.take k) s).console_row * s.console_cols +
        (linearfb_console_puts (text.take k) s).console_col = k ∧
      (linearfb_console_puts (text.take k) s).in_grid ∧
      (linearfb_console_puts (text.take k) s).scrolls = s.scrolls := by
    intro k hk
    have hl : (text.take k).length = k := by rw [List.length_take]; omega
    have h := puts_no_scroll (text.take k) s fb d hfb1 hd1 hm1 hgrid htc htr
      (fun c hc => hp c (List.mem_of_mem_take hc))
      (by rw [hl, hcur.1, hcur.2, g7, g8]; omega)
    rw [hl, hcur.1, hcur.2] at h
    refine ⟨by omega, h.2.1, h.2.2⟩
  refine ⟨?_, ?_⟩
  · intro k hk
    obtain ⟨h1, h2, h3⟩ := hfirst k hk
    have cfg := puts_same_config (text.take k) s
    unfold State.in_grid at h2
    rw [cfg.2.2.2.2.2.2.1, g7] at h2
    rw [g7] at h1
    exact ⟨cursor_of_position h2.1 h1, h3⟩
  · have hN : 0 < s0.console_cols * s0.console_rows := Nat.mul_pos hcols hrows
    obtain ⟨h1, h2, h3⟩ := hfirst (s0.console_cols * s0.console_rows - 1) (by omega)
    have hsplit := List.take_append_drop (s0.console_cols * s0.console_rows - 1) text
    have hdl : (text.drop (s0.console_cols * s0.console_rows - 1)).length = 1 := by
      rw [List.length_drop]; omega
    obtain ⟨x, hx⟩ := List.length_eq_one.mp hdl
    rw [hx] at hsplit
    have hxm : x ∈ text := by rw [← hsplit]; simp
    obtain ⟨hx0, hx10, hx13, hx8⟩ := hp x hxm
    have hputs : linearfb_console_puts text s =
        linearfb_console_putc x
          (linearfb_console_puts (text.take (s0.console_cols * s0.console_rows - 1)) s) := by
      conv_lhs => rw [← hsplit]
      rw [puts_append _ _ _ (fun c hc => (hp c (List.mem_of_mem_take hc)).1)]
      simp only [linearfb_console_puts, if_neg hx0]
    have cfg := puts_same_config (text.take (s0.console_cols * s0.console_rows - 1)) s
    generalize linearfb_console_puts (text.take (s0.console_cols * s0.console_rows - 1)) s = t at *
    have e := putc_cursor_eq x t fb d (cfg.1.trans hfb1) (by rw [cfg.2.2.1]; exact hd1)
      (cfg.2.1.trans hm1)
    have hgc : t.console_cols = s0.console_cols := cfg.2.2.2.2.2.2.1.trans g7
    have hgr : t.console_rows = s0.console_rows := cfg.2.2.2.2.2.2.2.1.trans g8
    have g := (putc_cursor_printable x t.console_cols t.console_rows t.console_col t.console_row
      t.scrolls hx10 hx13 hx8 h2.1 h2.2 (by rw [hgc]; exact hwf.1) (by rw [hgr]; exact hwf.2.1)).2
      (by rw [hgc, hgr]; rw [g7] at h1; omega)
    rw [g] at e
    rw [hputs]
    unfold State.cursor
    have e1 := congrArg Prod.fst e
    have e2 := congrArg (fun p => p.2.1) e
    have e3 := congrArg (fun p => p.2.2) e
    simp only at e1 e2 e3
    rw [e1, e2, e3, hgr, h3]
    exact ⟨rfl, rfl⟩

theorem pixel_addr_ge (fb : limine_framebuffer) (x y : Nat) :
    fb.address + y * fb.pitch ≤ pixel_addr fb x y := by
  unfold pixel_addr; omega

theorem mem_fill_writes {lo hi n c : Nat} {w : Write} :
    w ∈ fill_writes lo hi n c ↔ ∃ k, k < hi - lo ∧ ∃ x, x < n ∧ w = (x, lo + k, c) := by
  unfold fill_writes
  simp only [List.mem_flatMap, List.mem_range, List.mem_singleton]

/-- The effect of `console_scroll` on memory, with the arithmetic of the source
shown not to wrap: when the grid rows are the surface height divided by the
glyph height and the surface is smaller than `2^32` bytes. -/
theorem scroll_mem_eq (s : State) (fb : limine_framebuffer)
    (hrows : 1 ≤ s.console_rows) (hgrid : s.console_rows = fb.height / s.font_glyph_h)
    (hsize : fb.height * fb.pitch < 4294967296) :
    scroll_mem fb s =
      paint fb (fill_writes ((s.console_rows - 1) * s.font_glyph_h) fb.height fb.width s.console_bg)
        (memmove fb.address (fb.address + fb.pitch * s.font_glyph_h)
          (fb.pitch * s.font_glyph_h * (s.console_rows - 1)) s.mem) := by
  have hgh : 0 < s.font_glyph_h := by
    rcases Nat.eq_zero_or_pos s.font_glyph_h with h | h
    · rw [h, Nat.div_zero] at hgrid; omega
    · exact h
  have hmul : s.console_rows * s.font_glyph_h ≤ fb.height := by
    rw [hgrid]; exact Nat.div_mul_le_self _ _
  have hh := fb.height_lt
  have h1 : u32 (s.console_rows + 4294967295) = s.console_rows - 1 := by
    unfold u32
    have : s.console_rows ≤ fb.height := by
      rw [hgrid]; exact Nat.div_le_self _ _
    omega
  have h2 : (s.console_rows - 1) * s.font_glyph_h ≤ s.console_rows * s.font_glyph_h :=
    Nat.mul_le_mul_right _ (by omega)
  have h3 : s.font_glyph_h ≤ s.console_rows * s.font_glyph_h :=
    Nat.le_mul_of_pos_left _ (by omega)
  have h4 : fb.pitch * s.font_glyph_h ≤ fb.height * fb.pitch := by
    rw [Nat.mul_comm fb.height]
    exact Nat.mul_le_mul_left _ (by omega)
  have h5 : fb.pitch * s.font_glyph_h * (s.console_rows - 1) ≤ fb.height * fb.pitch := by
    calc fb.pitch * s.font_glyph_h * (s.console_rows - 1)
        = fb.pitch * ((s.console_rows - 1) * s.font_glyph_h) := by ring
      _ ≤ fb.pitch * fb.height := Nat.mul_le_mul_left _ (by omega)
      _ = fb.height * fb.pitch := by ring
  unfold scroll_mem
  rw [h1, u32_of_lt (n := (s.console_rows - 1) * s.font_glyph_h) (by omega),
    u32_of_lt (n := fb.pitch * s.font_glyph_h) (by omega),
    u32_of_lt (n := fb.pitch * s.font_glyph_h * (s.console_rows - 1)) (by omega)]


/-- C6, as stated, fails: on a surface whose pitch is shorter than a row of
pixels the repainted band does not read back as the background.  Here pixel
`(1,0)` reads `01 02 01 02` after the scroll while the background is `0x04030201`. -/
theorem scroll_band_overlap :
    narrow_state.fb = some narrow_fb ∧ narrow_state.fb_font.data.isSome = true ∧
    1 ≤ narrow_state.console_rows ∧
    narrow_state.console_rows = narrow_fb.height / narrow_state.font_glyph_h ∧
    narrow_fb.pitch * narrow_state.font_glyph_h * (narrow_state.console_rows - 1) ≤
      narrow_fb.height * narrow_fb.pitch ∧
    narrow_fb.height * narrow_fb.pitch < 4294967296 ∧
    (narrow_state.console_rows - 1) * narrow_state.font_glyph_h ≤ 0 ∧
    0 < narrow_fb.height ∧ 1 < narrow_fb.width ∧
    read_pixel (console_scroll narrow_state).mem narrow_fb 1 0 = [1, 2, 1, 2] ∧
    low_bytes narrow_state.console_bg (narrow_fb.bpp / 8) = [1, 2, 3, 4] := by
  refine ⟨rfl, rfl, ?_, ?_, ?_, ?_, ?_, ?_, ?_, ?_, ?_⟩ <;> decide

/-- C6 (scroll step), amended.  With a surface bound, a font loaded, `rows >= 1`,
`rows = height div glyph_h` and `pitch * glyph_h * (rows - 1) <= height * pitch < 2^32`:
every scanline above the last glyph row takes the bytes of the scanline
`glyph_h` below it; the cursor row becomes `rows - 1` and the column, the
background and the grid are unchanged; and, when the surface has at most 4
bytes per pixel and its pitch holds a full row of pixels, every pixel of the
last band reads back as the background colour. -/
theorem scroll_contract (s : State) (fb : limine_framebuffer) (d : Nat → Nat)
    (hfb : s.fb = some fb) (hd : s.fb_font.data = some d)
    (hrows : 1 ≤ s.console_rows) (hgrid : s.console_rows = fb.height / s.font_glyph_h)
    (_hmove : fb.pitch * s.font_glyph_h * (s.console_rows - 1) ≤ fb.height * fb.pitch)
    (hsize : fb.height * fb.pitch < 4294967296) :
    (∀ y k, y < (s.console_rows - 1) * s.font_glyph_h → k < fb.pitch →
      (console_scroll s).mem (fb.address + y * fb.pitch + k) =
        s.mem (fb.address + (y + s.font_glyph_h) * fb.pitch + k)) ∧
    (fb.bpp / 8 ≤ 4 → fb.width * (fb.bpp / 8) ≤ fb.pitch →
      ∀ x y, x < fb.width → (s.console_rows - 1) * s.font_glyph_h ≤ y → y < fb.height →
        read_pixel (console_scroll s).mem fb x y = low_bytes s.console_bg (fb.bpp / 8)) ∧
    (console_scroll s).console_row = s.console_rows - 1 ∧
    (console_scroll s).console_col = s.console_col ∧
    (console_scroll s).console_bg = s.console_bg ∧
    (console_scroll s).console_cols = s.console_cols ∧
    (console_scroll s).console_rows = s.console_rows := by
  have hmem : (console_scroll s).mem = scroll_mem fb s := by
    rw [console_scroll_eq s fb d hfb hd]
    rfl
  have hrow : u32 (s.console_rows + 4294967295) = s.console_rows - 1 := by
    have := fb.height_lt
    have : s.console_rows ≤ fb.height := by rw [hgrid]; exact Nat.div_le_self _ _
    unfold u32; omega
  rw [hmem, scroll_mem_eq s fb hrows hgrid hsize]
  refine ⟨?_, ?_, ?_, ?_, ?_, ?_, ?_⟩
  · intro y k hy hk
    rw [paint_frame]
    · unfold memmove
      have e1 : (y + 1) * fb.pitch ≤ (s.console_rows - 1) * s.font_glyph_h * fb.pitch :=
        Nat.mul_le_mul_right _ hy
      have e2 : (y + 1) * fb.pitch = y * fb.pitch + fb.pitch := by ring
      have e3 : fb.pitch * s.font_glyph_h * (s.console_rows - 1) =
          (s.console_rows - 1) * s.font_glyph_h * fb.pitch := by ring
      have e4 : (y + s.font_glyph_h) * fb.pitch = y * fb.pitch + fb.pitch * s.font_glyph_h := by
        ring
      rw [e3, e4]
      rw [e2] at e1
      generalize (s.console_rows - 1) * s.font_glyph_h * fb.pitch = n at e1
      generalize y * fb.pitch = a at e1
      generalize fb.pitch * s.font_glyph_h = c
      rw [if_pos (by omega)]
      apply congrArg
      omega
    · intro w hw hc
      obtain ⟨k2, _, x, _, rfl⟩ := mem_fill_writes.mp hw
      have h1 := pixel_addr_ge fb x ((s.console_rows - 1) * s.font_glyph_h + k2)
      have h2 := hc.2.2.1
      simp only at h2
      have e1 : (y + 1) * fb.pitch ≤ (s.console_rows - 1) * s.font_glyph_h * fb.pitch :=
        Nat.mul_le_mul_right _ hy
      have e2 : (y + 1) * fb.pitch = y * fb.pitch + fb.pitch := by ring
      have e3 : ((s.console_rows - 1) * s.font_glyph_h + k2) * fb.pitch =
          (s.console_rows - 1) * s.font_glyph_h * fb.pitch + k2 * fb.pitch := by ring
      rw [e3] at h1
      rw [e2] at e1
      generalize (s.console_rows - 1) * s.font_glyph_h * fb.pitch = n at e1 h1
      generalize y * fb.pitch = a at e1 h2
      generalize pixel_addr fb x ((s.console_rows - 1) * s.font_glyph_h + k2) = p at h1 h2
      omega
  · intro hB4 hp x y hx hlo hy
    apply read_pixel_paint_same fb hp hB4 _ _ s.console_bg hx hy
    · intro w hw
      obtain ⟨_, _, _, _, rfl⟩ := mem_fill_writes.mp hw
      rfl
    · have hy2 : (s.console_rows - 1) * s.font_glyph_h +
          (y - (s.console_rows - 1) * s.font_glyph_h) = y := by omega
      refine ⟨(x, y, s.console_bg), mem_fill_writes.mpr ⟨y - (s.console_rows - 1) * s.font_glyph_h,
        by omega, x, hx, ?_⟩, rfl, rfl⟩
      rw [hy2]
  · rw [console_scroll_eq s fb d hfb hd]; exact hrow
  · rw [console_scroll_eq s fb d hfb hd]; rfl
  · rw [console_scroll_eq s fb d hfb hd]; rfl
  · rw [console_scroll_eq s fb d hfb hd]; rfl
  · rw [console_scroll_eq s fb d hfb hd]; rfl

theorem mem_cell_writes {gw gh px py c : Nat} {w : Write} :
    w ∈ cell_writes gw gh px py c ↔
      ∃ j, j < gh ∧ ∃ i, i < gw ∧ w = (u32 (px + i), u32 (py + j), c) := by
  unfold cell_writes
  simp only [List.mem_flatMap, List.mem_range, List.mem_singleton]

theorem mem_glyph_writes {data : Nat → Nat} {ch gw gh px py : Nat} {w : Write} :
    w ∈ glyph_writes data ch gw gh px py ↔
      ∃ j, j < gh ∧ ∃ i, i < gw ∧ glyph_bit (glyph_row data ch gh j) i = true ∧
        w = (u32 (px + i), u32 (py + j), 4294967295) := by
  unfold glyph_writes
  simp only [List.mem_flatMap, List.mem_range]
  constructor
  · rintro ⟨j, hj, i, hi, hw⟩
    by_cases hb : glyph_bit (glyph_row data ch gh j) i = true
    · rw [if_pos hb] at hw
      exact ⟨j, hj, i, hi, hb, List.mem_singleton.mp hw⟩
    · rw [if_neg hb] at hw
      cases hw
  · rintro ⟨j, hj, i, hi, hb, hw⟩
    refine ⟨j, hj, i, hi, ?_⟩
    rw [if_pos hb]
    exact List.mem_singleton.mpr hw

theorem glyph_bit_iff (bits i : Nat) (hi : i ≤ 7) :
    glyph_bit bits i = true ↔ (bits / 2 ^ (7 - i)) % 2 = 1 := by
  unfold glyph_bit
  simp [hi]

/-- The pixels of the cursor's cell lie inside the surface, and the cell
coordinates of the source do not wrap. -/
theorem cell_in_surface (s : State) (fb : limine_framebuffer) (hfb : s.fb = some fb)
    (hwf : s.wf) (hg : s.in_grid) {i j : Nat} (hi : i < s.font_glyph_w)
    (hj : j < s.font_glyph_h) :
    u32 (u32 (s.console_col * s.font_glyph_w) + i) = s.console_col * s.font_glyph_w + i ∧
    u32 (u32 (s.console_row * s.font_glyph_h) + j) = s.console_row * s.font_glyph_h + j ∧
    s.console_col * s.font_glyph_w + i < fb.width ∧
    s.console_row * s.font_glyph_h + j < fb.height := by
  obtain ⟨_, _, _, _, hgrid⟩ := hwf
  obtain ⟨hc, hr⟩ := hgrid fb hfb (by omega) (by omega)
  have hw := fb.width_lt
  have hh := fb.height_lt
  have e1 : (s.console_col + 1) * s.font_glyph_w ≤ s.console_cols * s.font_glyph_w :=
    Nat.mul_le_mul_right _ hg.1
  have e2 : s.console_cols * s.font_glyph_w ≤ fb.width := by
    rw [hc]; exact Nat.div_mul_le_self _ _
  have e3 : (s.console_col + 1) * s.font_glyph_w = s.console_col * s.font_glyph_w + s.font_glyph_w := by
    ring
  have f1 : (s.console_row + 1) * s.font_glyph_h ≤ s.console_rows * s.font_glyph_h :=
    Nat.mul_le_mul_right _ hg.2
  have f2 : s.console_rows * s.font_glyph_h ≤ fb.height := by
    rw [hr]; exact Nat.div_mul_le_self _ _
  have f3 : (s.console_row + 1) * s.font_glyph_h = s.console_row * s.font_glyph_h + s.font_glyph_h := by
    ring
  rw [u32_of_lt (n := s.console_col * s.font_glyph_w) (by omega),
    u32_of_lt (n := s.console_row * s.font_glyph_h) (by omega),
    u32_of_lt (n := s.console_col * s.font_glyph_w + i) (by omega),
    u32_of_lt (n := s.console_row * s.font_glyph_h + j) (by omega)]
  exact ⟨rfl, rfl, by omega, by omega⟩

/-- The bytes of the pixels after the two drawing passes of `linearfb_console_putc`. -/
theorem cell_mem_pixels (s : State) (fb : limine_framebuffer) (d : Nat → Nat) (ch : Nat)
    (hfb : s.fb = some fb) (hwf : s.wf) (hg : s.in_grid)
    (hB4 : fb.bpp / 8 ≤ 4) (hp : fb.width * (fb.bpp / 8) ≤ fb.pitch)
    (hgw : s.font_glyph_w ≤ 8) :
    (∀ i j, i < s.font_glyph_w → j < s.font_glyph_h →
      read_pixel (cell_mem fb d ch s) fb (s.console_col * s.font_glyph_w + i)
          (s.console_row * s.font_glyph_h + j) =
        if (glyph_row d ch s.font_glyph_h j / 2 ^ (7 - i)) % 2 = 1
        then low_bytes 4294967295 (fb.bpp / 8) else low_bytes s.console_bg (fb.bpp / 8)) ∧
    (∀ x y, x < fb.width → y < fb.height →
      ¬ (s.console_col * s.font_glyph_w ≤ x ∧ x < s.console_col * s.font_glyph_w + s.font_glyph_w ∧
         s.console_row * s.font_glyph_h ≤ y ∧ y < s.console_row * s.font_glyph_h + s.font_glyph_h) →
      read_pixel (cell_mem fb d ch s) fb x y = read_pixel s.mem fb x y) := by
  unfold cell_mem
  constructor
  · intro i j hi hj
    obtain ⟨hx, hy, hxw, hyh⟩ := cell_in_surface s fb hfb hwf hg hi hj
    rw [paint_append]
    by_cases hb : (glyph_row d ch s.font_glyph_h j / 2 ^ (7 - i)) % 2 = 1
    · rw [if_pos hb]
      apply read_pixel_paint_same fb hp hB4 _ _ 4294967295 hxw hyh
      · intro w hw
        obtain ⟨_, _, _, _, _, rfl⟩ := mem_glyph_writes.mp hw
        rfl
      · refine ⟨_, mem_glyph_writes.mpr ⟨j, hj, i, hi, (glyph_bit_iff _ i (by omega)).mpr hb, rfl⟩,
          hx, hy⟩
    · rw [if_neg hb]
      rw [read_pixel_paint_other fb hp _ _ hxw hyh]
      · apply read_pixel_paint_same fb hp hB4 _ _ s.console_bg hxw hyh
        · intro w hw
          obtain ⟨_, _, _, _, rfl⟩ := mem_cell_writes.mp hw
          rfl
        · exact ⟨_, mem_cell_writes.mpr ⟨j, hj, i, hi, rfl⟩, hx, hy⟩
      · intro w hw hpos
        obtain ⟨j2, hj2, i2, hi2, hbit, rfl⟩ := mem_glyph_writes.mp hw
        obtain ⟨hx2, hy2, _, _⟩ := cell_in_surface s fb hfb hwf hg hi2 hj2
        simp only at hpos
        rw [hx2, hy2] at hpos
        have hi3 : i2 = i := by omega
        have hj3 : j2 = j := by omega
        subst hi3 hj3
        exact hb ((glyph_bit_iff _ i2 (by omega)).mp hbit)
  · intro x y hx hy hout
    apply read_pixel_paint_other fb hp _ _ hx hy
    intro w hw hpos
    rcases List.mem_append.mp hw with h | h
    · obtain ⟨j2, hj2, i2, hi2, rfl⟩ := mem_cell_writes.mp h
      obtain ⟨hx2, hy2, _, _⟩ := cell_in_surface s fb hfb hwf hg hi2 hj2
      simp only at hpos
      rw [hx2, hy2] at hpos
      apply hout
      omega
    · obtain ⟨j2, hj2, i2, hi2, _, rfl⟩ := mem_glyph_writes.mp h
      obtain ⟨hx2, hy2, _, _⟩ := cell_in_surface s fb hfb hwf hg hi2 hj2
      simp only at hpos
      rw [hx2, hy2] at hpos
      apply hout
      omega


/-- The memory after a printable character that does not scroll. -/
theorem putc_glyph_mem (c : Nat) (s : State) (fb : limine_framebuffer) (d : Nat → Nat)
    (hfb : s.fb = some fb) (hd : s.fb_font.data = some d)
    (hm : s.fb_mode = linearfb_mode_t.FB_MODE_CONSOLE) (h10 : c ≠ 10) (h13 : c ≠ 13)
    (h8 : c ≠ 8)
    (hns : ¬ (u32 (s.console_col + 1) ≥ s.console_cols ∧ u32 (s.console_row + 1) ≥ s.console_rows)) :
    (linearfb_console_putc c s).mem = cell_mem fb d (glyph_index c s.font_glyph_count) s := by
  rw [putc_glyph c s d hd hm h10 h13 h8, draw_cell_paint s fb hfb]
  by_cases hw : u32 (s.console_col + 1) ≥ s.console_cols
  · rw [if_pos hw]
    rw [console_next_row_bound
      { s.set_mem (s.set_mem (cell_mem fb d (glyph_index c s.font_glyph_count) s)).mem with
        console_col := 0 } fb d hfb hd]
    have hr : ¬ (u32 (s.console_row + 1) ≥ s.console_rows) := fun h => hns ⟨hw, h⟩
    split
    · rename_i h
      exact absurd h hr
    · rfl
  · rw [if_neg hw]
    rfl

/-- C7 (glyph blit), amended.  In console mode, on a bound surface with 1 to 4
bytes per pixel whose pitch holds a full row of pixels, with a font loaded whose
glyphs are at most 8 pixels wide and the cursor at a cell `(col, row)` of the
grid other than the last one, `put_char` of a character `c` other than newline,
carriage return and backspace leaves pixel `(col * glyph_w + i, row * glyph_h + j)`
white when bit `7 - i` of the font byte `data[(g * glyph_h mod 2^32) + j]` is set
and in the background colour otherwise, where the glyph index `g` is `c mod 256`
when that is below the glyph count and 63 otherwise; it leaves every pixel
outside the cell as it was, moves the cursor to `(col + 1, row)`, or to
`(0, row + 1)` at the end of a row, and changes nothing else but memory.  When
`g * glyph_h < 2^32` the font byte is `data[g * glyph_h + j]`. -/
theorem putc_glyph_contract (s : State) (fb : limine_framebuffer) (d : Nat → Nat) (c : Nat)
    (hfb : s.fb = some fb) (hd : s.fb_font.data = some d)
    (hm : s.fb_mode = linearfb_mode_t.FB_MODE_CONSOLE) (hwf : s.wf)
    (_hB1 : 1 ≤ fb.bpp / 8) (hB4 : fb.bpp / 8 ≤ 4) (hp : fb.width * (fb.bpp / 8) ≤ fb.pitch)
    (hgw : s.font_glyph_w ≤ 8) (h10 : c ≠ 10) (h13 : c ≠ 13) (h8 : c ≠ 8)
    (hcol : s.console_col < s.console_cols) (hrow : s.console_row < s.console_rows)
    (hlast : ¬ (s.console_col = s.console_cols - 1 ∧ s.console_row = s.console_rows - 1)) :
    (∀ i j, i < s.font_glyph_w → j < s.font_glyph_h →
      read_pixel (linearfb_console_putc c s).mem fb (s.console_col * s.font_glyph_w + i)
          (s.console_row * s.font_glyph_h + j) =
        if (d (u32 ((if c % 256 ≥ s.font_glyph_count then 63 else c % 256) * s.font_glyph_h) + j)
              % 256 / 2 ^ (7 - i)) % 2 = 1
        then low_bytes 4294967295 (fb.bpp / 8) else low_bytes s.console_bg (fb.bpp / 8)) ∧
    (∀ x y, x < fb.width → y < fb.height →
      ¬ (s.console_col * s.font_glyph_w ≤ x ∧ x < s.console_col * s.font_glyph_w + s.font_glyph_w ∧
         s.console_row * s.font_glyph_h ≤ y ∧ y < s.console_row * s.font_glyph_h + s.font_glyph_h) →
      read_pixel (linearfb_console_putc c s).mem fb x y = read_pixel s.mem fb x y) ∧
    (linearfb_console_putc c s).cursor =
      (if s.console_col + 1 < s.console_cols then (s.console_col + 1, s.console_row)
       else (0, s.console_row + 1)) ∧
    same_config s (linearfb_console_putc c s) ∧
    (linearfb_console_putc c s).scrolls = s.scrolls ∧
    ((if c % 256 ≥ s.font_glyph_count then 63 else c % 256) * s.font_glyph_h < 4294967296 →
      ∀ i j, i < s.font_glyph_w → j < s.font_glyph_h →
        read_pixel (linearfb_console_putc c s).mem fb (s.console_col * s.font_glyph_w + i)
            (s.console_row * s.font_glyph_h + j) =
          if (d ((if c % 256 ≥ s.font_glyph_count then 63 else c % 256) * s.font_glyph_h + j)
                % 256 / 2 ^ (7 - i)) % 2 = 1
          then low_bytes 4294967295 (fb.bpp / 8) else low_bytes s.console_bg (fb.bpp / 8)) := by
  have htc : s.console_cols < 4294967296 := hwf.1
  have htr : s.console_rows < 4294967296 := hwf.2.1
  have hu1 : u32 (s.console_col + 1) = s.console_col + 1 := u32_of_lt (by omega)
  have hu2 : u32 (s.console_row + 1) = s.console_row + 1 := u32_of_lt (by omega)
  have hns : ¬ (u32 (s.console_col + 1) ≥ s.console_cols ∧
      u32 (s.console_row + 1) ≥ s.console_rows) := by
    rw [hu1, hu2]; omega
  rw [putc_glyph_mem c s fb d hfb hd hm h10 h13 h8 hns]
  obtain ⟨p1, p2⟩ := cell_mem_pixels s fb d (glyph_index c s.font_glyph_count) hfb hwf
    ⟨hcol, hrow⟩ hB4 hp hgw
  have hrow_eq : ∀ j, glyph_row d (glyph_index c s.font_glyph_count) s.font_glyph_h j =
      d (u32 ((if c % 256 ≥ s.font_glyph_count then 63 else c % 256) * s.font_glyph_h) + j)
        % 256 := by
    intro j
    unfold glyph_row glyph_index
    rfl
  have q1 : ∀ i j, i < s.font_glyph_w → j < s.font_glyph_h →
      read_pixel (cell_mem fb d (glyph_index c s.font_glyph_count) s) fb
          (s.console_col * s.font_glyph_w + i) (s.console_row * s.font_glyph_h + j) =
        if (d (u32 ((if c % 256 ≥ s.font_glyph_count then 63 else c % 256) * s.font_glyph_h) + j)
              % 256 / 2 ^ (7 - i)) % 2 = 1
        then low_bytes 4294967295 (fb.bpp / 8) else low_bytes s.console_bg (fb.bpp / 8) := by
    intro i j hi hj
    rw [p1 i j hi hj, hrow_eq j]
  have e := putc_cursor_eq c s fb d hfb hd hm
  unfold putc_cursor next_row_cursor at e
  rw [if_neg h10, if_neg h13, if_neg h8, hu1, hu2] at e
  refine ⟨q1, p2, ?_, putc_same_config c s, ?_, ?_⟩
  rotate_left 2
  · intro hlt i j hi hj
    rw [q1 i j hi hj, u32_of_lt hlt]
  · unfold State.cursor
    by_cases hw : s.console_col + 1 < s.console_cols
    · rw [if_pos hw]
      rw [if_neg (by omega)] at e
      have e1 := congrArg Prod.fst e
      have e2 := congrArg (fun p => p.2.1) e
      simp only at e1 e2
      rw [e1, e2]
    · rw [if_neg hw]
      rw [if_pos (by omega), if_neg (by omega)] at e
      have e1 := congrArg Prod.fst e
      have e2 := congrArg (fun p => p.2.1) e
      simp only at e1 e2
      rw [e1, e2]
  · by_cases hw : s.console_col + 1 < s.console_cols
    · rw [if_neg (by omega)] at e
      exact congrArg (fun p => p.2.2) e
    · rw [if_pos (by omega), if_neg (by omega)] at e
      exact congrArg (fun p => p.2.2) e

/-! ### The drawing primitives change memory only -/

theorem mem_only_draw_text_loop (data : Nat → Nat) (text : List Nat) (x y : Nat) (s : State) :
    draw_text_loop data text x y s = s.set_mem (draw_text_loop data text x y s).mem := by
  induction text generalizing x s with
  | nil => rfl
  | cons c cs ih =>
    unfold draw_text_loop
    split
    · rfl
    · have hb := mem_only_blit_glyph data (glyph_index c s.font_glyph_count) x y s
      rw [ih]
      generalize (draw_text_loop data cs (u32 (x + s.font_glyph_w)) y
        (blit_glyph data (glyph_index c s.font_glyph_count) x y s)).mem = m
      rw [hb]
      rfl

theorem mem_only_draw_text (text : List Nat) (x y : Nat) : mem_only (linearfb_draw_text text x y) := by
  intro s
  unfold linearfb_draw_text
  split
  · rfl
  · split
    · rfl
    · exact mem_only_draw_text_loop _ text x y s

theorem mem_only_draw_line_loop (dx dy sx sy x1 y1 : Int) (color fuel : Nat) (x0 y0 err : Int)
    (s t : State) (h : fb_draw_line_loop dx dy sx sy x1 y1 color fuel x0 y0 err s = some t) :
    t = s.set_mem t.mem := by
  induction fuel generalizing x0 y0 err s with
  | zero => simp [fb_draw_line_loop] at h
  | succ n ih =>
    unfold fb_draw_line_loop at h
    simp only at h
    have hp := mem_only_putpixel (int_to_u32 x0) (int_to_u32 y0) color s
    split at h
    · injection h with h
      rw [← h]
      exact hp
    · have := ih _ _ _ _ h
      rw [this, hp]
      rfl

theorem mem_only_draw_line (fuel : Nat) (x0 y0 x1 y1 : Int) (color : Nat) (s t : State)
    (h : fb_draw_line fuel x0 y0 x1 y1 color s = some t) : t = s.set_mem t.mem := by
  unfold fb_draw_line at h
  exact mem_only_draw_line_loop _ _ _ _ _ _ _ _ _ _ _ _ _ h

theorem mem_only_int_for (lo hi : Int) (body : Int → State → State)
    (h : ∀ v, mem_only (body v)) : mem_only (int_for lo hi body) := by
  intro s
  unfold int_for
  exact mem_only_foldl (List.range (hi - lo + 1).toNat) (fun k => body (lo + (k : Int)))
    (fun k => h _) s

theorem mem_only_fill_spans (yy : Int) (color : Nat) :
    ∀ (nodes : List Int) (s : State),
      fill_spans yy color nodes s = s.set_mem (fill_spans yy color nodes s).mem
  | [], _ => rfl
  | [_], _ => rfl
  | a :: b :: rest, s => by
    unfold fill_spans
    simp only
    rw [mem_only_fill_spans yy color rest]
    have hs := mem_only_int_for (if a > b then b else a) (if a > b then a else b)
      (fun xx acc => putpixel (int_to_u32 xx) (int_to_u32 yy) color acc)
      (fun xx => mem_only_putpixel _ _ _) s
    generalize (fill_spans yy color rest (int_for (if a > b then b else a) (if a > b then a else b)
      (fun xx acc => putpixel (int_to_u32 xx) (int_to_u32 yy) color acc) s)).mem = m
    rw [hs]
    rfl

theorem mem_only_fill_polygon (x y : List Int) (n color : Nat) :
    mem_only (fb_fill_polygon x y n color) := by
  intro s
  unfold fb_fill_polygon
  exact mem_only_int_for _ _ _ (fun yy t => mem_only_fill_spans yy color _ t) s

theorem mem_only_foldlM {α : Type} (l : List α) (f : State → α → Option State)
    (h : ∀ s a t, f s a = some t → t = s.set_mem t.mem) (s t : State)
    (hr : l.foldlM f s = some t) : t = s.set_mem t.mem := by
  induction l generalizing s with
  | nil =>
    simp only [List.foldlM, pure] at hr
    injection hr with hr
    rw [← hr]
    rfl
  | cons a l ih =>
    simp only [List.foldlM_cons, bind, Option.bind] at hr
    cases hfa : f s a with
    | none => rw [hfa] at hr; cases hr
    | some u =>
      rw [hfa] at hr
      have h1 := h s a u hfa
      have h2 := ih u hr
      rw [h2, h1]
      rfl

theorem mem_only_draw_polygon (fuel : Nat) (x y : List Int) (n color : Nat) (filled : Int)
    (s t : State) (h : linearfb_draw_polygon fuel x y n color filled s = some t) :
    t = s.set_mem t.mem := by
  unfold linearfb_draw_polygon at h
  split at h
  · injection h with h; rw [← h]; rfl
  · split at h
    · injection h with h; rw [← h]; rfl
    · have h1 := mem_only_foldlM _ _ (fun s a t hs => mem_only_draw_line _ _ _ _ _ _ s t hs) _ _ h
      by_cases hf : filled ≠ 0
      · simp only [if_pos hf] at h1
        rw [h1, mem_only_fill_polygon x y n color s]
        rfl
      · simp only [if_neg hf] at h1
        exact h1


/-! ### Well-formedness of the reachable states -/

theorem wf_congr {s t : State} (h1 : t.fb = s.fb) (h2 : t.font_glyph_w = s.font_glyph_w)
    (h3 : t.font_glyph_h = s.font_glyph_h) (h4 : t.console_cols = s.console_cols)
    (h5 : t.console_rows = s.console_rows) (h : s.wf) : t.wf := by
  unfold State.wf at *
  rw [h1, h2, h3, h4, h5]
  exact h

theorem wf_of_same_config {s t : State} (h : same_config s t) (hs : s.wf) : t.wf :=
  wf_congr h.1 h.2.2.2.2.1 h.2.2.2.2.2.1 h.2.2.2.2.2.2.1 h.2.2.2.2.2.2.2.1 hs

theorem wf_set_mem {s : State} (m : Mem) (hs : s.wf) : (s.set_mem m).wf :=
  wf_congr rfl rfl rfl rfl rfl hs

/-- The grid update establishes the grid equation whenever the variables hold
`uint32_t` values. -/
theorem update_grid_wf (s : State) (h1 : is_u32 s.console_cols) (h2 : is_u32 s.console_rows)
    (h3 : is_u32 s.font_glyph_w) (h4 : is_u32 s.font_glyph_h) : (update_grid s).wf := by
  unfold update_grid
  cases hfb : s.fb with
  | none =>
    refine ⟨h1, h2, h3, h4, ?_⟩
    intro fb hfb2
    rw [hfb] at hfb2
    cases hfb2
  | some fb =>
    simp only
    have hw := fb.width_lt
    have hh := fb.height_lt
    have d1 : fb.width / s.font_glyph_w ≤ fb.width := Nat.div_le_self _ _
    have d2 : fb.height / s.font_glyph_h ≤ fb.height := Nat.div_le_self _ _
    by_cases hz : s.font_glyph_w ≠ 0 ∧ s.font_glyph_h ≠ 0
    · rw [if_pos hz]
      have u1 : u32 (fb.width / s.font_glyph_w) = fb.width / s.font_glyph_w :=
        u32_of_lt (by omega)
      have u2 : u32 (fb.height / s.font_glyph_h) = fb.height / s.font_glyph_h :=
        u32_of_lt (by omega)
      unfold State.wf is_u32
      simp only [u1, u2]
      refine ⟨by omega, by omega, h3, h4, ?_⟩
      intro fb2 hfb2 _ _
      injection hfb2 with hfb2
      subst hfb2
      exact ⟨rfl, rfl⟩
    · rw [if_neg hz]
      refine ⟨h1, h2, h3, h4, ?_⟩
      intro fb2 _ hw0 hh0
      exact absurd ⟨hw0, hh0⟩ hz

/-- The two outcomes of `linearfb_init`. -/
theorem init_cases (req : Option limine_framebuffer_request) (s : State) :
    linearfb_init req s = (-1, s) ∨
    ∃ fb0, linearfb_init req s = (0, update_grid { s with fb := fb0 }) := by
  rcases req with _ | ⟨⟨_ | ⟨cnt, fb0⟩⟩⟩
  · exact Or.inl rfl
  · exact Or.inl rfl
  · by_cases hc : cnt = 0
    · left
      simp only [linearfb_init, hc, if_true]
    · right
      exact ⟨fb0, by simp only [linearfb_init, hc, if_false]⟩

theorem init_wf (req : Option limine_framebuffer_request) (s : State) (hs : s.wf) :
    (linearfb_init req s).2.wf := by
  rcases init_cases req s with h | ⟨fb0, h⟩
  · rw [h]; exact hs
  · rw [h]
    exact update_grid_wf _ hs.1 hs.2.1 hs.2.2.1 hs.2.2.2.1

theorem load_font_wf (font : Option linearfb_font_t) (count : Nat) (s : State) (hs : s.wf) :
    (linearfb_load_font font count s).2.wf := by
  unfold linearfb_load_font
  cases font with
  | none => exact hs
  | some f => exact update_grid_wf _ hs.1 hs.2.1 f.width_lt f.height_lt

theorem clear_wf (color : Nat) (s : State) (hs : s.wf) : (linearfb_console_clear color s).wf := by
  obtain ⟨g1, _, _, _, g5, g6, g7, g8, _⟩ := clear_same_grid color s
  exact wf_congr g1 g5 g6 g7 g8 hs

theorem set_cursor_wf (col row : Nat) (s : State) (hs : s.wf) :
    (linearfb_console_set_cursor col row s).wf := by
  unfold linearfb_console_set_cursor
  simp only
  split <;> split <;> exact wf_congr rfl rfl rfl rfl rfl hs

/-- Every reachable state is well formed. -/
theorem reachable_wf (s : State) (h : Reachable s) : s.wf := by
  induction h with
  | start mem =>
    have h0 : is_u32 0 := by unfold is_u32; omega
    refine ⟨h0, h0, h0, h0, ?_⟩
    intro fb hfb
    cases hfb
  | bind req _ ih => exact init_wf req _ ih
  | load_font font count _ _ ih => exact load_font_wf font count _ ih
  | set_mode mode _ ih => exact wf_congr rfl rfl rfl rfl rfl ih
  | clear color _ _ ih => exact clear_wf color _ ih
  | set_cursor col row _ _ _ ih => exact set_cursor_wf col row _ ih
  | put_char c _ _ ih => exact wf_of_same_config (putc_same_config c _) ih
  | put_string text _ _ ih => exact wf_of_same_config (puts_same_config text _) ih
  | draw_text text x y _ _ _ _ ih =>
    exact wf_of_same_config (same_config_of_mem_only (mem_only_draw_text text x y) _) ih
  | draw_polygon fuel x y n color filled _ _ _ hp ih =>
    rw [mem_only_draw_polygon fuel x y n color filled _ _ hp]
    exact wf_set_mem _ ih


/-! ### The cursor invariant -/

theorem sample_state_reachable : Reachable sample_state :=
  Reachable.load_font (some sample_font) 128 (by decide)
    (Reachable.bind (request_of sample_fb) (Reachable.start (fun _ => 0)))

/-- C3, as stated, fails: `load_font` recomputes the grid without clamping the
cursor.  After binding a 4x4 surface, loading a 2x2 font, moving the cursor to
`(1,1)` and loading a 4x4 font, the grid is 1x1 and the cursor is still `(1,1)`. -/
theorem cursor_outside_grid_after_load_font :
    Reachable shrunk_state ∧ 1 ≤ shrunk_state.console_cols ∧ 1 ≤ shrunk_state.console_rows ∧
    ¬ (shrunk_state.console_col < shrunk_state.console_cols ∧
       shrunk_state.console_row < shrunk_state.console_rows) :=
  ⟨Reachable.load_font (some big_font) 128 (by decide)
      (Reachable.set_cursor 1 1 (by decide) (by decide) sample_state_reachable),
    by decide, by decide, by decide⟩

theorem set_cursor_in_grid (col row : Nat) (s : State) (h : s.in_grid) :
    (linearfb_console_set_cursor col row s).in_grid := by
  unfold linearfb_console_set_cursor State.in_grid at *
  simp only
  by_cases hc : col < s.console_cols <;> by_cases hr : row < s.console_rows <;>
    simp [hc, hr, h.1, h.2]

theorem set_cursor_same_config (col row : Nat) (s : State) :
    same_config s (linearfb_console_set_cursor col row s) := by
  unfold linearfb_console_set_cursor
  simp only
  by_cases hc : col < s.console_cols <;> by_cases hr : row < s.console_rows <;>
    simp only [hc, hr, if_true, if_false] <;> exact same_config_refl _

/-- C3 (cursor invariant), amended.  From a state with a surface bound and the
cursor inside the grid, every sequence of `set_mode`, `clear`, `set_cursor`,
`put_char`, `put_string`, `draw_text` and `draw_polygon` leaves the surface
bound, the grid unchanged and the cursor inside the grid: `column < columns`
and `row < rows`.  (`bind` and `load_font` recompute the grid and do not clamp
the cursor.) -/
theorem cursor_in_grid_preserved (s t : State) (fb : limine_framebuffer)
    (hfb : s.fb = some fb) (hgrid : s.in_grid) (hrun : ConsoleRun s t) :
    t.fb = some fb ∧ t.console_cols = s.console_cols ∧ t.console_rows = s.console_rows ∧
    t.console_col < t.console_cols ∧ t.console_row < t.console_rows := by
  induction hrun with
  | start => exact ⟨hfb, rfl, rfl, hgrid.1, hgrid.2⟩
  | set_mode mode _ ih => exact ih
  | @clear color u _ ih =>
    obtain ⟨g1, _, _, _, _, _, g7, g8, _⟩ := clear_same_grid color u
    obtain ⟨i1, i2, i3, i4, i5⟩ := ih
    refine ⟨g1.trans i1, g7.trans i2, g8.trans i3, ?_, ?_⟩
    · rw [g7, clear_eq u fb i1 color]
      show 0 < _
      omega
    · rw [g8, clear_eq u fb i1 color]
      show 0 < _
      omega
  | @set_cursor col row u _ ih =>
    obtain ⟨i1, i2, i3, i4, i5⟩ := ih
    have cfg := set_cursor_same_config col row u
    have hg := set_cursor_in_grid col row u ⟨i4, i5⟩
    exact ⟨cfg.1.trans i1, cfg.2.2.2.2.2.2.1.trans i2, cfg.2.2.2.2.2.2.2.1.trans i3, hg.1, hg.2⟩
  | @put_char c u _ ih =>
    obtain ⟨i1, i2, i3, i4, i5⟩ := ih
    have cfg := putc_same_config c u
    have hg := putc_in_grid c u fb i1 ⟨i4, i5⟩
    exact ⟨cfg.1.trans i1, cfg.2.2.2.2.2.2.1.trans i2, cfg.2.2.2.2.2.2.2.1.trans i3, hg.1, hg.2⟩
  | @put_string text u _ ih =>
    obtain ⟨i1, i2, i3, i4, i5⟩ := ih
    have cfg := puts_same_config text u
    have hg := puts_in_grid text u fb i1 ⟨i4, i5⟩
    exact ⟨cfg.1.trans i1, cfg.2.2.2.2.2.2.1.trans i2, cfg.2.2.2.2.2.2.2.1.trans i3, hg.1, hg.2⟩
  | @draw_text text x y u _ ih =>
    rw [mem_only_draw_text text x y u]
    exact ih
  | @draw_polygon fuel x y n color filled u u1 _ hp ih =>
    rw [mem_only_draw_polygon fuel x y n color filled u u1 hp]
    exact ih

theorem cursor_in_grid_preserved_witness :
    (linearfb_console_puts [65, 10, 66]
      (linearfb_console_set_cursor 1 0 sample_state)).console_col < 2 :=
  (cursor_in_grid_preserved sample_state _ sample_fb rfl (by decide)
    (ConsoleRun.put_string [65, 10, 66]
      (ConsoleRun.set_cursor 1 0 ConsoleRun.start))).2.2.2.1

/-! ### Control characters, cursor setting, and the missing surface -/

/-- C8 (control characters).  In console mode with a font loaded, a surface
bound and the cursor inside the grid: newline sets the column to 0 and moves
one row down, except from the last row, where it runs the scroll step and the
row ends at `rows - 1`; carriage return sets the column to 0 and changes
nothing else; backspace moves one column left, or changes nothing in column 0. -/
theorem putc_control_contract (s : State) (fb : limine_framebuffer) (d : Nat → Nat)
    (hfb : s.fb = some fb) (hd : s.fb_font.data = some d)
    (hm : s.fb_mode = linearfb_mode_t.FB_MODE_CONSOLE) (hwf : s.wf)
    (_hcol : s.console_col < s.console_cols) (hrow : s.console_row < s.console_rows) :
    (s.console_row + 1 ≠ s.console_rows →
      linearfb_console_putc 10 s =
        { s with console_col := 0, console_row := s.console_row + 1 }) ∧
    (s.console_row + 1 = s.console_rows →
      linearfb_console_putc 10 s =
        console_scroll { s with console_col := 0, console_row := s.console_row + 1 } ∧
      (linearfb_console_putc 10 s).cursor = (0, s.console_rows - 1) ∧
      (linearfb_console_putc 10 s).scrolls = s.scrolls + 1) ∧
    linearfb_console_putc 13 s = { s with console_col := 0 } ∧
    (0 < s.console_col →
      linearfb_console_putc 8 s = { s with console_col := s.console_col - 1 }) ∧
    (s.console_col = 0 → linearfb_console_putc 8 s = s) := by
  have htr : s.console_rows < 4294967296 := hwf.2.1
  have hu : u32 (s.console_row + 1) = s.console_row + 1 := u32_of_lt (by omega)
  refine ⟨?_, ?_, putc_return s d hd hm, ?_, ?_⟩
  · intro hne
    rw [putc_newline s d hd hm, console_next_row_eq]
    have hc : ¬ (u32 (s.console_row + 1) ≥ s.console_rows) := by rw [hu]; omega
    split
    · rename_i h
      exact absurd h hc
    · show _ = _
      simp only [hu]
  · intro heq
    have hnl : linearfb_console_putc 10 s =
        console_scroll { s with console_col := 0, console_row := s.console_row + 1 } := by
      rw [putc_newline s d hd hm, console_next_row_eq]
      have hc : u32 (s.console_row + 1) ≥ s.console_rows := by rw [hu]; omega
      split
      · simp only [hu]
      · rename_i h
        exact absurd hc h
    have hsc := console_scroll_eq
      { s with console_col := 0, console_row := s.console_row + 1 } fb d hfb hd
    refine ⟨hnl, ?_, ?_⟩
    · rw [hnl, hsc]
      unfold State.cursor
      have : u32 (s.console_rows + 4294967295) = s.console_rows - 1 := by unfold u32; omega
      simp only [State.set_mem, this]
    · rw [hnl, hsc]
  · intro hpos
    rw [putc_backspace s d hd hm, if_pos hpos]
  · intro hz
    rw [putc_backspace s d hd hm, if_neg (by omega)]

/-- C9 (set_cursor).  From any state, `set_cursor(col, row)` stores `col` when
`col < columns` and `row` when `row < rows`, each axis on its own, changes
nothing else, and `get_cursor` returns the stored pair. -/
theorem set_cursor_contract (s : State) (col row : Nat) :
    (linearfb_console_set_cursor col row s).console_col =
      (if col < s.console_cols then col else s.console_col) ∧
    (linearfb_console_set_cursor col row s).console_row =
      (if row < s.console_rows then row else s.console_row) ∧
    linearfb_console_set_cursor col row s =
      { s with console_col := (linearfb_console_set_cursor col row s).console_col,
               console_row := (linearfb_console_set_cursor col row s).console_row } ∧
    linearfb_console_get_cursor (linearfb_console_set_cursor col row s) =
      ((linearfb_console_set_cursor col row s).console_col,
       (linearfb_console_set_cursor col row s).console_row) := by
  unfold linearfb_console_set_cursor linearfb_console_get_cursor
  simp only
  by_cases hc : col < s.console_cols <;> by_cases hr : row < s.console_rows <;>
    simp [hc, hr]

/-- C10: with no surface bound, a font loaded and console mode,
`linearfb_console_putc` is not a no-op: a printable character moves the cursor
from row 0 to row 1. -/
theorem putc_unbound_moves_cursor :
    Reachable unbound_state ∧ unbound_state.fb = none ∧
    unbound_state.fb_mode = linearfb_mode_t.FB_MODE_CONSOLE ∧
    unbound_state.cursor = (0, 0) ∧
    (linearfb_console_putc 65 unbound_state).cursor = (0, 1) :=
  ⟨Reachable.load_font (some sample_font) 128 (by decide) (Reachable.start (fun _ => 0)),
    rfl, rfl, rfl, by decide⟩

theorem puts_cursor_bound_witness :
    (linearfb_console_puts [65, 10, 10, 10] sample_state).console_col < 2 ∧
    (linearfb_console_puts [65, 10, 10, 10] sample_state).console_row ≤ 1 ∧
    1 ≤ (linearfb_console_puts [65, 10, 10, 10] sample_state).console_row :=
  have h := puts_cursor_bound sample_state sample_fb (fun i => 128 + 64 * (i % 2))
    [65, 10, 10, 10] rfl rfl rfl (by decide) (by decide) (by decide) (by decide)
  ⟨h.2.2.1, h.2.2.2.1, h.2.2.2.2.2 (by decide) (by decide)⟩

theorem puts_full_grid_witness :
    (linearfb_console_puts [65, 66, 67, 68] (linearfb_console_clear 0 sample_state)).cursor =
      (0, 1) ∧
    (linearfb_console_puts [65, 66, 67, 68] (linearfb_console_clear 0 sample_state)).scrolls =
      (linearfb_console_clear 0 sample_state).scrolls + 1 ∧
    (linearfb_console_puts [65, 66, 67] (linearfb_console_clear 0 sample_state)).cursor =
      (1, 1) :=
  have h := puts_full_grid sample_state sample_fb (fun i => 128 + 64 * (i % 2)) 0
    [65, 66, 67, 68] rfl rfl rfl (reachable_wf _ sample_state_reachable) (by decide) (by decide)
    (by decide) (by decide)
  ⟨h.2.1, h.2.2, (h.1 3 (by decide)).1⟩

theorem scroll_contract_witness :
    (console_scroll sample_state).console_row = 1 ∧
    read_pixel (console_scroll sample_state).mem sample_fb 3 2 = [0, 0, 0, 0] :=
  have h := scroll_contract sample_state sample_fb (fun i => 128 + 64 * (i % 2)) rfl rfl
    (by decide) (by decide) (by decide) (by decide)
  ⟨h.2.2.1, (h.2.1 (by decide) (by decide) 3 2 (by decide) (by decide) (by decide)).trans
    (by decide)⟩

theorem tall_state_reachable : Reachable tall_state :=
  Reachable.load_font (some tall_font) 256 (by decide)
    (Reachable.bind (request_of tall_fb) (Reachable.start (fun _ => 0)))

theorem letter_state_reachable : Reachable letter_state :=
  Reachable.load_font (some letter_font) 128 (by decide)
    (Reachable.bind (request_of sample_fb) (Reachable.start (fun _ => 0)))

/-- C7, as stated, fails: the glyph pointer is `fb_font.data + ch * font_glyph_h`
with the product computed in `uint32_t`.  On a surface of 16 by 2^25 pixels with
a font of 256 glyphs 8 pixels wide and 2^25 rows high, cursor `(0,0)` in a grid of
2 by 1, the glyph index of the character 128 is 128 and `128 * 2^25 = 2^32`
wraps to 0: font byte `data[128 * 2^25 + 0]` is `0xFF`, bit 7 set, yet pixel
`(0,0)` holds the background colour after `put_char`, because the code read
`data[0] = 0`. -/
theorem glyph_row_index_wraps :
    tall_state.fb = some tall_fb ∧
      tall_state.fb_mode = linearfb_mode_t.FB_MODE_CONSOLE ∧
      tall_fb.bpp / 8 = 4 ∧ tall_fb.width * (tall_fb.bpp / 8) ≤ tall_fb.pitch ∧
      tall_state.font_glyph_w = 8 ∧ tall_state.font_glyph_h = 33554432 ∧
      tall_state.font_glyph_count = 256 ∧
      tall_state.cursor = (0, 0) ∧ tall_state.console_cols = 2 ∧ tall_state.console_rows = 1 ∧
      tall_state.fb_font.data = some (fun i => if i < 4294967296 then 0 else 255) ∧
      glyph_index 128 tall_state.font_glyph_count = 128 ∧
      ((fun i => if i < 4294967296 then 0 else 255) (128 * 33554432 + 0) / 2 ^ (7 - 0)) % 2 = 1 ∧
      read_pixel (linearfb_console_putc 128 tall_state).mem tall_fb 0 0 =
        low_bytes tall_state.console_bg (tall_fb.bpp / 8) ∧
      low_bytes tall_state.console_bg (tall_fb.bpp / 8) ≠
        low_bytes 4294967295 (tall_fb.bpp / 8) := by
  refine ⟨rfl, rfl, by decide, by decide, rfl, rfl, rfl, rfl, rfl, rfl, rfl, by decide,
    by decide, ?_, by decide⟩
  have hwf := reachable_wf _ tall_state_reachable
  rw [putc_glyph_mem 128 tall_state tall_fb (fun i => if i < 4294967296 then 0 else 255)
    rfl rfl rfl (by decide) (by decide) (by decide) (by decide)]
  have h := (cell_mem_pixels tall_state tall_fb (fun i => if i < 4294967296 then 0 else 255)
    (glyph_index 128 tall_state.font_glyph_count) rfl hwf (by decide) (by decide) (by decide)
    (by decide)).1 0 0 (by decide) (by decide)
  have e1 : tall_state.console_col * tall_state.font_glyph_w + 0 = 0 := by decide
  have e2 : tall_state.console_row * tall_state.font_glyph_h + 0 = 0 := by decide
  rw [e1, e2, if_neg (by decide)] at h
  exact h

/-- C7 on the 4x4 sample surface with the font whose `A` differs from the other
glyphs: `A` sets pixel (1,0) and leaves (0,0) in the background colour, `?`
sets (0,0), and the character 200, above the glyph count 128, is drawn as `?`. -/
theorem putc_glyph_contract_witness :
    read_pixel (linearfb_console_putc 65 letter_state).mem sample_fb 1 0 = [255, 255, 255, 255] ∧
    read_pixel (linearfb_console_putc 65 letter_state).mem sample_fb 0 0 = [0, 0, 0, 0] ∧
    read_pixel (linearfb_console_putc 63 letter_state).mem sample_fb 0 0 = [255, 255, 255, 255] ∧
    read_pixel (linearfb_console_putc 200 letter_state).mem sample_fb 1 1 = [255, 255, 255, 255] ∧
    (linearfb_console_putc 65 letter_state).cursor = (1, 0) :=
  have h := putc_glyph_contract letter_state sample_fb
    (fun i => if i = 130 then 64 else if i = 131 then 128 else 128 + 64 * (i % 2)) 65
    rfl rfl rfl (reachable_wf _ letter_state_reachable) (by decide) (by decide) (by decide)
    (by decide) (by decide) (by decide) (by decide) (by decide) (by decide) (by decide)
  have h63 := putc_glyph_contract letter_state sample_fb
    (fun i => if i = 130 then 64 else if i = 131 then 128 else 128 + 64 * (i % 2)) 63
    rfl rfl rfl (reachable_wf _ letter_state_reachable) (by decide) (by decide) (by decide)
    (by decide) (by decide) (by decide) (by decide) (by decide) (by decide) (by decide)
  have h200 := putc_glyph_contract letter_state sample_fb
    (fun i => if i = 130 then 64 else if i = 131 then 128 else 128 + 64 * (i % 2)) 200
    rfl rfl rfl (reachable_wf _ letter_state_reachable) (by decide) (by decide) (by decide)
    (by decide) (by decide) (by decide) (by decide) (by decide) (by decide) (by decide)
  ⟨(h.1 1 0 (by decide) (by decide)).trans (by decide),
   (h.1 0 0 (by decide) (by decide)).trans (by decide),
   (h63.1 0 0 (by decide) (by decide)).trans (by decide),
   (h200.1 1 1 (by decide) (by decide)).trans (by decide), h.2.2.1⟩

theorem putc_control_contract_witness :
    (linearfb_console_putc 10 sample_state).cursor = (0, 1) ∧
    (linearfb_console_putc 8 sample_state).cursor = (0, 0) :=
  have h := putc_control_contract sample_state sample_fb (fun i => 128 + 64 * (i % 2))
    rfl rfl rfl (reachable_wf _ sample_state_reachable) (by decide) (by decide)
  ⟨congrArg State.cursor (h.1 (by decide)), congrArg State.cursor (h.2.2.2.2 rfl)⟩

/-! ### Gating, setup and the grid -/

/-- C11 (mode and font gating).  `put_char` changes nothing when the mode is not
console or no font is loaded; `draw_polygon` returns at once, whatever the
fuel, when the mode is console or `n < 2`; `draw_text` changes nothing when the
mode is console or no font is loaded. -/
theorem gating_contract :
    (∀ (c : Nat) (s : State),
      s.fb_mode ≠ linearfb_mode_t.FB_MODE_CONSOLE ∨ s.fb_font.data = none →
      linearfb_console_putc c s = s) ∧
    (∀ (fuel : Nat) (x y : List Int) (n color : Nat) (filled : Int) (s : State),
      s.fb_mode = linearfb_mode_t.FB_MODE_CONSOLE ∨ n < 2 →
      linearfb_draw_polygon fuel x y n color filled s = some s) ∧
    (∀ (text : List Nat) (x y : Nat) (s : State),
      s.fb_mode = linearfb_mode_t.FB_MODE_CONSOLE ∨ s.fb_font.data = none →
      linearfb_draw_text text x y s = s) := by
  refine ⟨?_, ?_, ?_⟩
  · intro c s h
    exact putc_guard c s (Or.symm h)
  · intro fuel x y n color filled s h
    unfold linearfb_draw_polygon
    by_cases hm : s.fb_mode = linearfb_mode_t.FB_MODE_CONSOLE
    · rw [if_pos hm]
    · rw [if_neg hm]
      rcases h with h | h
      · exact absurd h hm
      · rw [if_pos h]
  · intro text x y s h
    unfold linearfb_draw_text
    by_cases hm : s.fb_mode = linearfb_mode_t.FB_MODE_CONSOLE
    · rw [if_pos hm]
    · rw [if_neg hm]
      rcases h with h | h
      · exact absurd h hm
      · rw [h]

theorem gating_contract_witness :
    linearfb_console_putc 65 graphics_state = graphics_state ∧
    linearfb_draw_polygon 0 [0, 3, 3, 0] [0, 0, 3, 3] 4 255 1 sample_state = some sample_state ∧
    linearfb_draw_text [65] 0 0 sample_state = sample_state :=
  ⟨gating_contract.1 65 graphics_state (Or.inl (by decide)),
   gating_contract.2.1 0 _ _ 4 255 1 sample_state (Or.inl rfl),
   gating_contract.2.2 [65] 0 0 sample_state (Or.inl rfl)⟩

theorem update_grid_eq (s : State) (fb : limine_framebuffer) (hfb : s.fb = some fb)
    (hw : s.font_glyph_w ≠ 0) (hh : s.font_glyph_h ≠ 0) :
    update_grid s =
      { s with console_cols := fb.width / s.font_glyph_w,
               console_rows := fb.height / s.font_glyph_h } := by
  unfold update_grid
  rw [hfb]
  simp only
  rw [if_pos ⟨hw, hh⟩]
  have h1 := fb.width_lt
  have h2 := fb.height_lt
  have d1 : fb.width / s.font_glyph_w ≤ fb.width := Nat.div_le_self _ _
  have d2 : fb.height / s.font_glyph_h ≤ fb.height := Nat.div_le_self _ _
  rw [u32_of_lt (n := fb.width / s.font_glyph_w) (by omega),
    u32_of_lt (n := fb.height / s.font_glyph_h) (by omega)]

/-- C15 (grid recomputation).  A successful `load_font` of a font with nonzero
glyph width and height while a surface is bound, and a successful `bind` of a
surface while such a font is loaded, leave `columns = width div glyph_w` and
`rows = height div glyph_h`, with the glyph metrics of the loaded font. -/
theorem grid_recomputed :
    (∀ (f : linearfb_font_t) (count : Nat) (s : State) (fb : limine_framebuffer),
      s.fb = some fb → 1 ≤ f.width → 1 ≤ f.height →
      (linearfb_load_font (some f) count s).1 = 0 ∧
      (linearfb_load_font (some f) count s).2.console_cols = fb.width / f.width ∧
      (linearfb_load_font (some f) count s).2.console_rows = fb.height / f.height ∧
      (linearfb_load_font (some f) count s).2.font_glyph_w = f.width ∧
      (linearfb_load_font (some f) count s).2.font_glyph_h = f.height ∧
      (linearfb_load_font (some f) count s).2.fb = some fb) ∧
    (∀ (req : limine_framebuffer_request) (resp : limine_framebuffer_response)
      (fb : limine_framebuffer) (s : State),
      req.response = some resp → resp.framebuffer_count ≠ 0 → resp.framebuffers0 = some fb →
      1 ≤ s.font_glyph_w → 1 ≤ s.font_glyph_h →
      (linearfb_init (some req) s).1 = 0 ∧
      (linearfb_init (some req) s).2.console_cols = fb.width / s.font_glyph_w ∧
      (linearfb_init (some req) s).2.console_rows = fb.height / s.font_glyph_h ∧
      (linearfb_init (some req) s).2.fb = some fb) := by
  constructor
  · intro f count s fb hfb hw hh
    have e := update_grid_eq
      { s with fb_font := f, font_glyph_w := f.width, font_glyph_h := f.height,
               font_glyph_count := count } fb hfb
      (by show f.width ≠ 0; omega) (by show f.height ≠ 0; omega)
    simp only [linearfb_load_font]
    rw [e]
    simp [hfb]
  · intro req resp fb s hr hk hfb hw hh
    have e := update_grid_eq { s with fb := resp.framebuffers0 } fb hfb
      (by show s.font_glyph_w ≠ 0; omega) (by show s.font_glyph_h ≠ 0; omega)
    simp only [linearfb_init, hr, hk, if_false]
    rw [e]
    simp [hfb]

theorem grid_recomputed_witness :
    (linearfb_load_font (some font_8x8) 128
      (linearfb_init (request_of fb_64x48) (State.initial (fun _ => 0))).2).2.console_cols = 8 ∧
    (linearfb_load_font (some font_8x8) 128
      (linearfb_init (request_of fb_64x48) (State.initial (fun _ => 0))).2).2.console_rows = 6 ∧
    (linearfb_load_font (some font_4x8) 128
      (linearfb_load_font (some font_8x8) 128
        (linearfb_init (request_of fb_64x48) (State.initial (fun _ => 0))).2).2).2.console_cols
      = 16 ∧
    (linearfb_load_font (some font_4x8) 128
      (linearfb_load_font (some font_8x8) 128
        (linearfb_init (request_of fb_64x48) (State.initial (fun _ => 0))).2).2).2.console_rows
      = 6 :=
  have h1 := grid_recomputed.1 font_8x8 128
    (linearfb_init (request_of fb_64x48) (State.initial (fun _ => 0))).2 fb_64x48 rfl
    (by decide) (by decide)
  have h2 := grid_recomputed.1 font_4x8 128
    (linearfb_load_font (some font_8x8) 128
      (linearfb_init (request_of fb_64x48) (State.initial (fun _ => 0))).2).2 fb_64x48 rfl
    (by decide) (by decide)
  ⟨h1.2.1, h1.2.2.1, h2.2.1, h2.2.2.1⟩

/-- C17 (setup failures).  `linearfb_init` returns -1 exactly when the request
is absent, its response is absent or the framebuffer count is 0, and
`linearfb_load_font` returns -1 exactly when the font reference is absent; a
failing call leaves the whole state as it was, and every other call returns 0. -/
theorem setup_failures :
    (∀ (req : Option limine_framebuffer_request) (s : State),
      ((linearfb_init req s).1 = -1 ↔ no_framebuffer req) ∧
      ((linearfb_init req s).1 = -1 → (linearfb_init req s).2 = s) ∧
      ((linearfb_init req s).1 ≠ -1 → (linearfb_init req s).1 = 0)) ∧
    (∀ (font : Option linearfb_font_t) (count : Nat) (s : State),
      ((linearfb_load_font font count s).1 = -1 ↔ font = none) ∧
      ((linearfb_load_font font count s).1 = -1 → (linearfb_load_font font count s).2 = s) ∧
      ((linearfb_load_font font count s).1 ≠ -1 → (linearfb_load_font font count s).1 = 0)) := by
  constructor
  · intro req s
    rcases req with _ | ⟨⟨_ | ⟨cnt, fb0⟩⟩⟩
    · simp [linearfb_init, no_framebuffer]
    · simp [linearfb_init, no_framebuffer]
    · by_cases hc : cnt = 0
      · simp [linearfb_init, no_framebuffer, hc]
      · simp [linearfb_init, no_framebuffer, hc]
  · intro font count s
    cases font with
    | none => simp [linearfb_load_font]
    | some f => simp [linearfb_load_font]

theorem setup_failures_witness :
    (linearfb_init none sample_state).1 = -1 ∧ (linearfb_init none sample_state).2 = sample_state ∧
    (linearfb_load_font none 128 sample_state).2 = sample_state ∧
    (linearfb_init (request_of sample_fb) sample_state).1 = 0 :=
  have h := setup_failures.1 none sample_state
  have g := setup_failures.2 none 128 sample_state
  have k := setup_failures.1 (request_of sample_fb) sample_state
  ⟨h.1.mpr trivial, h.2.1 (h.1.mpr trivial), g.2.1 (g.1.mpr rfl), k.2.2 (by decide)⟩


/-! ### The fallback glyph and the scanline buffer -/

/-- The glyph index is inside the table when the font has at least 64 glyphs. -/
theorem glyph_index_lt (c count : Nat) (h : 64 ≤ count) : glyph_index c count < count := by
  unfold glyph_index
  split <;> omega

/-- C18: the fallback glyph is not inside every font.  With a font of 10
glyphs of 8 rows (a table of 80 bytes) the character `A` (65) is remapped to
glyph 63, and row 0 of that glyph is read at index 504. -/
theorem fallback_glyph_outside_small_font :
    glyph_index 65 10 = 63 ∧ ¬ (glyph_index 65 10 < 10) ∧
    u32 (glyph_index 65 10 * 8) + 0 = 504 ∧ ¬ (504 < 10 * 8) := by
  decide

theorem take_snoc_cap {α : Type} (l : List α) (v : α) (k : Nat) :
    (if (l.take k).length < k then l.take k ++ [v] else l.take k) = (l ++ [v]).take k := by
  by_cases h : l.length < k
  · have e : l.take k = l := List.take_of_length_le (by omega)
    rw [e, if_pos h]
    exact (List.take_of_length_le (by simp; omega)).symm
  · have hl : (l.take k).length = k := by rw [List.length_take]; omega
    rw [if_neg (by omega)]
    exact (List.take_append_of_le_length (by omega)).symm

/-- The edge loop stores the first 64 crossings of the scanline. -/
theorem scan_nodes_eq (x y : List Int) (n : Nat) (yy : Int) :
    scan_nodes x y n yy = (scan_crossings x y n yy).take 64 := by
  have key : ∀ k, (List.range k).foldl (fun (acc : List Int × Nat) i =>
      ((if (arr y i < yy ∧ arr y acc.2 ≥ yy) ∨ (arr y acc.2 < yy ∧ arr y i ≥ yy) then
          (if acc.1.length < 64 then
            acc.1 ++ [arr x i + Int.tdiv ((yy - arr y i) * (arr x acc.2 - arr x i))
              (arr y acc.2 - arr y i)]
          else acc.1)
        else acc.1), i)) ([], n - 1) =
      (((List.range k).flatMap (fun i =>
        if crossing_test y i (edge_prev n i) yy then [edge_xval x y i (edge_prev n i) yy]
        else [])).take 64, edge_prev n k) := by
    intro k
    induction k with
    | zero => simp [edge_prev]
    | succ k ih =>
      rw [List.range_succ, List.foldl_append, ih, List.flatMap_append]
      simp only [List.foldl_cons, List.foldl_nil, List.flatMap_cons, List.flatMap_nil,
        List.append_nil]
      have hp : edge_prev n (k + 1) = k := by unfold edge_prev; simp
      rw [hp]
      by_cases hc : crossing_test y k (edge_prev n k) yy
      · have hc2 := hc
        unfold crossing_test at hc2
        rw [if_pos hc2, if_pos hc]
        have := take_snoc_cap ((List.range k).flatMap (fun i =>
          if crossing_test y i (edge_prev n i) yy then [edge_xval x y i (edge_prev n i) yy]
          else [])) (edge_xval x y k (edge_prev n k) yy) 64
        unfold edge_xval at this ⊢
        rw [this]
      · have hc2 := hc
        unfold crossing_test at hc2
        rw [if_neg hc2, if_neg hc, List.append_nil]
  unfold scan_nodes scan_crossings for_range
  rw [key n]

/-- C19 (the scanline fill never fails).  On every scanline, an edge that passes
the crossing test has a nonzero divisor `y[j] - y[i]`; the buffer holds the
first 64 crossings that the edge loop finds and drops the rest, so it never
holds more than 64. -/
theorem scan_never_fails (x y : List Int) (n : Nat) (yy : Int) :
    (∀ i j, crossing_test y i j yy → arr y j - arr y i ≠ 0) ∧
    (scan_nodes x y n yy).length ≤ 64 ∧
    scan_nodes x y n yy = (scan_crossings x y n yy).take 64 := by
  refine ⟨?_, ?_, scan_nodes_eq x y n yy⟩
  · intro i j h
    unfold crossing_test at h
    omega
  · rw [scan_nodes_eq, List.length_take]
    omega

/-- C19 on a zigzag of 66 vertices with y alternating between 0 and 2: on
scanline 1 all 66 edges cross, each with divisor 2 or -2, and the buffer keeps
the first 64 crossings. -/
theorem scan_never_fails_witness :
    crossing_test ((List.range 66).map (fun k => ((k % 2 : Nat) : Int) * 2)) 1 0 1 ∧
      arr ((List.range 66).map (fun k => ((k % 2 : Nat) : Int) * 2)) 0 -
        arr ((List.range 66).map (fun k => ((k % 2 : Nat) : Int) * 2)) 1 ≠ 0 ∧
      (scan_crossings ((List.range 66).map (fun k => (k : Int)))
        ((List.range 66).map (fun k => ((k % 2 : Nat) : Int) * 2)) 66 1).length = 66 ∧
      (scan_nodes ((List.range 66).map (fun k => (k : Int)))
        ((List.range 66).map (fun k => ((k % 2 : Nat) : Int) * 2)) 66 1).length = 64 :=
  have h := scan_never_fails ((List.range 66).map (fun k => (k : Int)))
    ((List.range 66).map (fun k => ((k % 2 : Nat) : Int) * 2)) 66 1
  have hc : crossing_test ((List.range 66).map (fun k => ((k % 2 : Nat) : Int) * 2)) 1 0 1 := by
    decide
  have hl : (scan_crossings ((List.range 66).map (fun k => (k : Int)))
      ((List.range 66).map (fun k => ((k % 2 : Nat) : Int) * 2)) 66 1).length = 66 := by decide
  ⟨hc, h.1 1 0 hc, hl, by rw [h.2.2, List.length_take, hl]; rfl⟩

/-! ### The scanline fill as a list of points -/

theorem draw_points_append (color : Nat) (a b : List (Int × Int)) (s : State) :
    draw_points color (a ++ b) s = draw_points color b (draw_points color a s) := by
  unfold draw_points
  rw [List.foldl_append]

theorem int_for_eq {σ : Type} (lo hi : Int) (body : Int → σ → σ) (s : σ) :
    int_for lo hi body s = (int_range lo hi).foldl (fun acc v => body v acc) s := by
  unfold int_for int_range
  rw [List.foldl_map]

theorem foldl_draw_points {α : Type} (color : Nat) (l : List α) (body : α → State → State)
    (f : α → List (Int × Int)) (h : ∀ v s, body v s = draw_points color (f v) s) (s : State) :
    l.foldl (fun acc v => body v acc) s = draw_points color (l.flatMap f) s := by
  induction l generalizing s with
  | nil => rfl
  | cons a l ih =>
    rw [List.foldl_cons, h, ih, List.flatMap_cons, draw_points_append]

theorem fill_spans_eq (yy : Int) (color : Nat) :
    ∀ (nodes : List Int) (s : State),
      fill_spans yy color nodes s = draw_points color (span_points yy nodes) s
  | [], _ => rfl
  | [_], _ => rfl
  | a :: b :: rest, s => by
    unfold fill_spans span_points
    simp only
    rw [fill_spans_eq yy color rest, draw_points_append, int_for_eq]
    congr 1
    unfold draw_points
    rw [List.foldl_map]

/-- The function `fb_fill_polygon` is the sequence of `putpixel` calls on `fill_points`. -/
theorem fb_fill_polygon_eq (x y : List Int) (n color : Nat) (s : State) :
    fb_fill_polygon x y n color s = draw_points color (fill_points x y n) s := by
  unfold fb_fill_polygon fill_points
  simp only
  rw [int_for_eq]
  exact foldl_draw_points color _ (fun yy acc => fill_spans yy color (scan_nodes x y n yy) acc)
    (fun yy => span_points yy (scan_nodes x y n yy))
    (fun yy t => fill_spans_eq yy color (scan_nodes x y n yy) t) s

theorem mem_int_range {lo hi v : Int} : v ∈ int_range lo hi ↔ lo ≤ v ∧ v ≤ hi := by
  unfold int_range
  simp only [List.mem_map, List.mem_range]
  constructor
  · rintro ⟨k, hk, rfl⟩
    omega
  · rintro ⟨h1, h2⟩
    exact ⟨(v - lo).toNat, by omega, by omega⟩

/-- A point of `span_points` lies on the scanline, between two entries of the buffer. -/
theorem mem_span_points (yy : Int) :
    ∀ (nodes : List Int) (p : Int × Int), p ∈ span_points yy nodes →
      p.2 = yy ∧ ∃ a ∈ nodes, ∃ b ∈ nodes, a ≤ p.1 ∧ p.1 ≤ b
  | [], p, h => by simp [span_points] at h
  | [_], p, h => by simp [span_points] at h
  | a :: b :: rest, p, h => by
    unfold span_points at h
    rcases List.mem_append.mp h with h | h
    · obtain ⟨xx, hx, rfl⟩ := List.mem_map.mp h
      have hx := mem_int_range.mp hx
      refine ⟨rfl, ?_⟩
      by_cases hab : a > b
      · simp only [if_pos hab] at hx
        exact ⟨b, by simp, a, by simp, hx.1, hx.2⟩
      · simp only [if_neg hab] at hx
        exact ⟨a, by simp, b, by simp, hx.1, hx.2⟩
    · obtain ⟨h1, c, hc, e, he, h2⟩ := mem_span_points yy rest p h
      exact ⟨h1, c, by simp [hc], e, by simp [he], h2⟩

/-- Truncating division of `p * q` by `d` for `0 <= p <= d`: the quotient lies
between 0 and `q`. -/
theorem tdiv_between (p q d : Int) (hp0 : 0 ≤ p) (hpd : p ≤ d) (hd : 0 < d) :
    min 0 q ≤ Int.tdiv (p * q) d ∧ Int.tdiv (p * q) d ≤ max 0 q := by
  rcases le_total 0 q with hq | hq
  · have h1 : 0 ≤ p * q := mul_nonneg hp0 hq
    rw [Int.tdiv_eq_ediv h1 (le_of_lt hd)]
    have h2 : p * q / d ≤ q :=
      Int.ediv_le_of_le_mul hd (by rw [mul_comm]; exact mul_le_mul_of_nonneg_left hpd hq)
    have h3 : 0 ≤ p * q / d := Int.ediv_nonneg h1 (le_of_lt hd)
    omega
  · have h1 : 0 ≤ p * (-q) := mul_nonneg hp0 (by omega)
    have e : p * q = -(p * (-q)) := by ring
    rw [e, Int.neg_tdiv, Int.tdiv_eq_ediv h1 (le_of_lt hd)]
    have h2 : p * (-q) / d ≤ -q :=
      Int.ediv_le_of_le_mul hd (by
        rw [mul_comm]; exact mul_le_mul_of_nonneg_left hpd (by omega))
    have h3 : 0 ≤ p * (-q) / d := Int.ediv_nonneg h1 (le_of_lt hd)
    omega

/-- An intersection lies between the two ends of its edge. -/
theorem edge_xval_between (x y : List Int) (i j : Nat) (yy : Int)
    (h : crossing_test y i j yy) :
    min (arr x i) (arr x j) ≤ edge_xval x y i j yy ∧
    edge_xval x y i j yy ≤ max (arr x i) (arr x j) := by
  unfold crossing_test at h
  unfold edge_xval
  rcases h with h | h
  · have := tdiv_between (yy - arr y i) (arr x j - arr x i) (arr y j - arr y i)
      (by omega) (by omega) (by omega)
    omega
  · have := tdiv_between (-(yy - arr y i)) (arr x j - arr x i) (-(arr y j - arr y i))
      (by omega) (by omega) (by omega)
    rw [neg_mul, Int.neg_tdiv_neg] at this
    omega


theorem poly_min_max_prefix (y : List Int) (m : Nat) :
    (∃ a, a ≤ m ∧ ((List.range m).foldl (fun (acc : Int × Int) k =>
        ((if arr y (1 + k) < acc.1 then arr y (1 + k) else acc.1),
         (if arr y (1 + k) > acc.2 then arr y (1 + k) else acc.2))) (arr y 0, arr y 0)).1 =
      arr y a) ∧
    (∃ b, b ≤ m ∧ ((List.range m).foldl (fun (acc : Int × Int) k =>
        ((if arr y (1 + k) < acc.1 then arr y (1 + k) else acc.1),
         (if arr y (1 + k) > acc.2 then arr y (1 + k) else acc.2))) (arr y 0, arr y 0)).2 =
      arr y b) ∧
    (∀ k, k ≤ m →
      ((List.range m).foldl (fun (acc : Int × Int) k =>
        ((if arr y (1 + k) < acc.1 then arr y (1 + k) else acc.1),
         (if arr y (1 + k) > acc.2 then arr y (1 + k) else acc.2))) (arr y 0, arr y 0)).1 ≤
        arr y k ∧
      arr y k ≤ ((List.range m).foldl (fun (acc : Int × Int) k =>
        ((if arr y (1 + k) < acc.1 then arr y (1 + k) else acc.1),
         (if arr y (1 + k) > acc.2 then arr y (1 + k) else acc.2))) (arr y 0, arr y 0)).2) := by
  induction m with
  | zero =>
    refine ⟨⟨0, le_refl _, rfl⟩, ⟨0, le_refl _, rfl⟩, ?_⟩
    intro k hk
    have : k = 0 := by omega
    subst this
    exact ⟨le_refl _, le_refl _⟩
  | succ m ih =>
    rw [List.range_succ, List.foldl_append]
    simp only [List.foldl_cons, List.foldl_nil]
    generalize (List.range m).foldl (fun (acc : Int × Int) k =>
        ((if arr y (1 + k) < acc.1 then arr y (1 + k) else acc.1),
         (if arr y (1 + k) > acc.2 then arr y (1 + k) else acc.2))) (arr y 0, arr y 0) = r at ih ⊢
    obtain ⟨⟨a, ha, ea⟩, ⟨b, hb, eb⟩, hall⟩ := ih
    refine ⟨?_, ?_, ?_⟩
    · by_cases h : arr y (1 + m) < r.1
      · exact ⟨1 + m, by omega, by simp only [if_pos h]⟩
      · exact ⟨a, by omega, by simp only [if_neg h]; exact ea⟩
    · by_cases h : arr y (1 + m) > r.2
      · exact ⟨1 + m, by omega, by simp only [if_pos h]⟩
      · exact ⟨b, by omega, by simp only [if_neg h]; exact eb⟩
    · intro k hk
      by_cases hkm : k ≤ m
      · have := hall k hkm
        constructor
        · by_cases h : arr y (1 + m) < r.1
          · simp only [if_pos h]; omega
          · simp only [if_neg h]; exact this.1
        · by_cases h : arr y (1 + m) > r.2
          · simp only [if_pos h]; omega
          · simp only [if_neg h]; exact this.2
      · have hk2 : k = 1 + m := by omega
        subst hk2
        constructor
        · by_cases h : arr y (1 + m) < r.1
          · simp only [if_pos h]; omega
          · simp only [if_neg h]; omega
        · by_cases h : arr y (1 + m) > r.2
          · simp only [if_pos h]; omega
          · simp only [if_neg h]; omega

/-- The first loop of `fb_fill_polygon` finds the least and the greatest of `y[0..n)`. -/
theorem poly_min_max_spec (y : List Int) (n : Nat) (hn : 1 ≤ n) :
    (∃ a, a < n ∧ (poly_min_max y n).1 = arr y a) ∧
    (∃ b, b < n ∧ (poly_min_max y n).2 = arr y b) ∧
    (∀ k, k < n → (poly_min_max y n).1 ≤ arr y k ∧ arr y k ≤ (poly_min_max y n).2) := by
  obtain ⟨⟨a, ha, ea⟩, ⟨b, hb, eb⟩, hall⟩ := poly_min_max_prefix y (n - 1)
  unfold poly_min_max for_from
  exact ⟨⟨a, by omega, ea⟩, ⟨b, by omega, eb⟩, fun k hk => hall k (by omega)⟩

theorem edge_prev_lt (n i : Nat) (hi : i < n) : edge_prev n i < n := by
  unfold edge_prev
  split <;> omega

theorem mem_scan_nodes (x y : List Int) (n : Nat) (yy v : Int) (h : v ∈ scan_nodes x y n yy) :
    ∃ i, i < n ∧ crossing_test y i (edge_prev n i) yy ∧ v = edge_xval x y i (edge_prev n i) yy := by
  rw [scan_nodes_eq] at h
  have h2 := List.mem_of_mem_take h
  unfold scan_crossings at h2
  obtain ⟨i, hi, hv⟩ := List.mem_flatMap.mp h2
  by_cases hc : crossing_test y i (edge_prev n i) yy
  · rw [if_pos hc] at hv
    exact ⟨i, List.mem_range.mp hi, hc, List.mem_singleton.mp hv⟩
  · rw [if_neg hc] at hv
    cases hv

/-- C20 (the fill stays inside the bounding box).  Every intersection, computed
with the truncating division of C, lies between the two ends of its edge; and
every point `(xx, yy)` that `fb_fill_polygon` passes to `putpixel` has `yy`
between the least and the greatest `y[k]` and `xx` between the least and the
greatest `x[k]`, `k < n`. -/
theorem fill_inside_bounding_box (x y : List Int) (n : Nat) (hn : 1 ≤ n) :
    (∀ i j yy, crossing_test y i j yy →
      min (arr x i) (arr x j) ≤ edge_xval x y i j yy ∧
      edge_xval x y i j yy ≤ max (arr x i) (arr x j)) ∧
    (∀ color s, fb_fill_polygon x y n color s = draw_points color (fill_points x y n) s) ∧
    (∀ p, p ∈ fill_points x y n →
      (∀ k, k < n → (poly_min_max y n).1 ≤ arr y k ∧ arr y k ≤ (poly_min_max y n).2) ∧
      (poly_min_max y n).1 ≤ p.2 ∧ p.2 ≤ (poly_min_max y n).2 ∧
      (∃ a, a < n ∧ arr y a ≤ p.2) ∧ (∃ b, b < n ∧ p.2 ≤ arr y b) ∧
      (∃ a, a < n ∧ arr x a ≤ p.1) ∧ (∃ b, b < n ∧ p.1 ≤ arr x b)) := by
  refine ⟨fun i j yy h => edge_xval_between x y i j yy h,
    fun color s => fb_fill_polygon_eq x y n color s, ?_⟩
  intro p hp
  unfold fill_points at hp
  obtain ⟨yy, hyy, hps⟩ := List.mem_flatMap.mp hp
  have hyy := mem_int_range.mp hyy
  obtain ⟨⟨a, ha, ea⟩, ⟨b, hb, eb⟩, hall⟩ := poly_min_max_spec y n hn
  obtain ⟨hp2, c, hc, e, he, hce⟩ := mem_span_points yy _ p hps
  obtain ⟨i1, hi1, ht1, hv1⟩ := mem_scan_nodes x y n yy c hc
  obtain ⟨i2, hi2, ht2, hv2⟩ := mem_scan_nodes x y n yy e he
  have b1 := edge_xval_between x y i1 (edge_prev n i1) yy ht1
  have b2 := edge_xval_between x y i2 (edge_prev n i2) yy ht2
  have l1 := edge_prev_lt n i1 hi1
  have l2 := edge_prev_lt n i2 hi2
  refine ⟨hall, by omega, by omega, ⟨a, ha, by omega⟩, ⟨b, hb, by omega⟩, ?_, ?_⟩
  · rcases le_total (arr x i1) (arr x (edge_prev n i1)) with h | h
    · exact ⟨i1, hi1, by rw [min_eq_left h] at b1; omega⟩
    · exact ⟨edge_prev n i1, l1, by rw [min_eq_right h] at b1; omega⟩
  · rcases le_total (arr x i2) (arr x (edge_prev n i2)) with h | h
    · exact ⟨edge_prev n i2, l2, by rw [max_eq_right h] at b2; omega⟩
    · exact ⟨i2, hi2, by rw [max_eq_left h] at b2; omega⟩

theorem fill_inside_bounding_box_witness :
    ((1, 2) : Int × Int) ∈ fill_points [0, 3, 3, 0] [0, 0, 3, 3] 4 ∧
    (∃ a, a < 4 ∧ arr [0, 3, 3, 0] a ≤ 1) ∧ (∃ b, b < 4 ∧ (2 : Int) ≤ arr [0, 0, 3, 3] b) :=
  have h := (fill_inside_bounding_box [0, 3, 3, 0] [0, 0, 3, 3] 4 (by decide)).2.2 (1, 2)
    (by decide)
  ⟨by decide, h.2.2.2.2.2.1, h.2.2.2.2.1⟩

/-! ### The line loop -/

theorem draw_points_cons (color : Nat) (p : Int × Int) (pts : List (Int × Int)) (s : State) :
    draw_points color (p :: pts) s =
      draw_points color pts (putpixel (int_to_u32 p.1) (int_to_u32 p.2) color s) := by
  simp [draw_points]

theorem line_iters_head (dx dy sx sy x1 y1 : Int) (fuel : Nat) (x0 y0 err : Int) :
    (line_iters dx dy sx sy x1 y1 (fuel + 1) x0 y0 err).head? = some (x0, y0, err) := by
  simp [line_iters]

theorem getLast?_cons_of_some {α : Type} (a z : α) (l : List α) (h : l.getLast? = some z) :
    (a :: l).getLast? = some z := by
  rw [List.getLast?_cons, h]; rfl

/-- Lines whose x distance is the larger: the loop steps x in every iteration. -/
theorem line_iters_x_major (a b sx sy x1 y1 : Int) (color : Nat) (hb : 0 ≤ b) (hab : b ≤ a)
    (hsx : sx = 1 ∨ sx = -1) :
    ∀ (rx : Nat) (ry x0 y0 err : Int) (s : State) (fuel : Nat), rx + 1 ≤ fuel →
      x1 = x0 + sx * rx → y1 = y0 + sy * ry → 0 ≤ ry → ry ≤ b → (rx : Int) ≤ a →
      err = a - b + b * rx - a * ry → -b ≤ 2 * err → 2 * err ≤ 3 * a - 2 * b →
      fb_draw_line_loop a (-b) sx sy x1 y1 color fuel x0 y0 err s =
          some (draw_points color
            ((line_iters a (-b) sx sy x1 y1 fuel x0 y0 err).map (fun t => (t.1, t.2.1))) s) ∧
        (line_iters a (-b) sx sy x1 y1 fuel x0 y0 err).length = rx + 1 ∧
        (∃ e, (line_iters a (-b) sx sy x1 y1 fuel x0 y0 err).getLast? = some (x1, y1, e)) ∧
        List.Chain' (fun t u : Int × Int × Int =>
            (u.1 = t.1 ∨ (u.1 = t.1 + sx ∧ 0 < a)) ∧
            (u.2.1 = t.2.1 ∨ (u.2.1 = t.2.1 + sy ∧ 0 < b)) ∧ (u.1 ≠ t.1 ∨ u.2.1 ≠ t.2.1))
          (line_iters a (-b) sx sy x1 y1 fuel x0 y0 err) ∧
        (∀ t ∈ line_iters a (-b) sx sy x1 y1 fuel x0 y0 err,
          ∃ px py : Int, 0 ≤ px ∧ px ≤ rx ∧ 0 ≤ py ∧ py ≤ ry ∧ t.1 = x1 - sx * px ∧
            t.2.1 = y1 - sy * py ∧ -(3 * b) ≤ 2 * t.2.2 ∧ 2 * t.2.2 ≤ 3 * a) ∧
        ∀ px : Int, 0 ≤ px → px ≤ rx →
          ∃ t ∈ line_iters a (-b) sx sy x1 y1 fuel x0 y0 err, t.1 = x1 - sx * px := by
  intro rx
  induction rx with
  | zero =>
    intro ry x0 y0 err s fuel hf hx hy hry0 hryb hrxa herr hlo hhi
    obtain ⟨f, rfl⟩ : ∃ f, fuel = f + 1 := ⟨fuel - 1, by omega⟩
    have hry : ry = 0 := by
      by_contra hne
      have h1 : 1 ≤ ry := by omega
      have h2 : a * 1 ≤ a * ry := mul_le_mul_of_nonneg_left h1 (by omega)
      simp only [Nat.cast_zero, mul_zero, add_zero] at herr
      omega
    subst hry
    have hx0 : x0 = x1 := by simp at hx; omega
    have hy0 : y0 = y1 := by simp at hy; omega
    subst hx0; subst hy0
    simp only [Nat.cast_zero, mul_zero, add_zero, sub_zero] at herr
    refine ⟨?_, ?_, ?_, ?_, ?_, ?_⟩
    · simp [fb_draw_line_loop, line_iters, draw_points]
    · simp [line_iters]
    · exact ⟨err, by simp [line_iters]⟩
    · simp [line_iters]
    · intro t ht
      simp [line_iters] at ht
      subst ht
      exact ⟨0, 0, by simp, by simp, by simp, by simp, by simp, by simp, by simp; omega,
        by simp; omega⟩
    · intro px h0 h1
      have hp : px = 0 := by simp at h1; omega
      subst hp
      exact ⟨(x0, y0, err), by simp [line_iters], by simp⟩
  | succ rx ih =>
    intro ry x0 y0 err s fuel hf hx hy hry0 hryb hrxa herr hlo hhi
    obtain ⟨f, rfl⟩ : ∃ f, fuel = f + 1 := ⟨fuel - 1, by omega⟩
    have hf1 : rx + 1 ≤ f := by omega
    push_cast at hx hrxa herr
    have hrx0 : (0 : Int) ≤ rx := Int.ofNat_nonneg rx
    have hne : ¬ (x0 = x1 ∧ y0 = y1) := by
      rintro ⟨h, -⟩
      rcases hsx with h1 | h1 <;> subst h1 <;> omega
    have hxs : 2 * err ≥ -b := hlo
    have hbrx : 0 ≤ b * rx := mul_nonneg hb hrx0
    by_cases hys : 2 * err ≤ a
    · -- both coordinates step
      have hry1 : 1 ≤ ry := by
        by_contra hne1
        have h0 : ry = 0 := by omega
        subst h0
        simp only [mul_zero, sub_zero] at herr
        have h3 : b * (↑rx + 1) = b * rx + b := by ring
        omega
      have herr2 : err + -b + a = a - b + b * rx - a * (ry - 1) := by rw [herr]; ring
      have key := ih (ry - 1) (x0 + sx) (y0 + sy) (err + -b + a)
        (putpixel (int_to_u32 x0) (int_to_u32 y0) color s) f hf1
        (by rw [hx]; ring) (by rw [hy]; ring) (by omega) (by omega) (by omega) herr2
        (by omega) (by omega)
      have eL : line_iters a (-b) sx sy x1 y1 (f + 1) x0 y0 err =
          (x0, y0, err) :: line_iters a (-b) sx sy x1 y1 f (x0 + sx) (y0 + sy) (err + -b + a) := by
        obtain ⟨g, rfl⟩ : ∃ g, f = g + 1 := ⟨f - 1, by omega⟩
        rw [line_iters]
        simp only [hne, hxs, hys, if_true, if_false]
      have eF : fb_draw_line_loop a (-b) sx sy x1 y1 color (f + 1) x0 y0 err s =
          fb_draw_line_loop a (-b) sx sy x1 y1 color f (x0 + sx) (y0 + sy) (err + -b + a)
            (putpixel (int_to_u32 x0) (int_to_u32 y0) color s) := by
        rw [fb_draw_line_loop]
        simp only [hne, hxs, hys, if_true, if_false]
      obtain ⟨k1, k2, ⟨e, k3⟩, k4, k5, k6⟩ := key
      rw [eL, eF]
      refine ⟨?_, ?_, ?_, ?_, ?_, ?_⟩
      · rw [k1, List.map_cons, draw_points_cons]
      · simp [k2]
      · exact ⟨e, getLast?_cons_of_some _ _ _ k3⟩
      · rw [List.chain'_cons']
        refine ⟨?_, k4⟩
        obtain ⟨g, rfl⟩ : ∃ g, f = g + 1 := ⟨f - 1, by omega⟩
        intro u hu
        rw [line_iters_head] at hu
        simp only [Option.mem_def, Option.some.injEq] at hu
        subst hu
        refine ⟨Or.inr ⟨rfl, by omega⟩, Or.inr ⟨rfl, by omega⟩, Or.inl ?_⟩
        show x0 + sx ≠ x0
        rcases hsx with h1 | h1 <;> subst h1 <;> omega
      · intro t ht
        rcases List.mem_cons.mp ht with h | h
        · subst h
          refine ⟨rx + 1, ry, by omega, by push_cast; omega, hry0, le_refl _, ?_, ?_, ?_, ?_⟩
          · show x0 = x1 - sx * (rx + 1)
            rw [hx]; ring
          · show y0 = y1 - sy * ry
            rw [hy]; ring
          · show -(3 * b) ≤ 2 * err
            omega
          · show 2 * err ≤ 3 * a
            omega
        · obtain ⟨px, py, h1, h2, h3, h4, h5⟩ := k5 t h
          exact ⟨px, py, h1, by push_cast; omega, h3, by omega, h5⟩
      · intro px h0 h1
        by_cases hp : px = rx + 1
        · subst hp
          refine ⟨(x0, y0, err), List.mem_cons_self _ _, ?_⟩
          show x0 = x1 - sx * (rx + 1)
          rw [hx]; ring
        · obtain ⟨t, ht, e1⟩ := k6 px h0 (by push_cast at h1; omega)
          exact ⟨t, List.mem_cons_of_mem _ ht, e1⟩
    · -- only x steps
      have herr2 : err + -b = a - b + b * rx - a * ry := by rw [herr]; ring
      have key := ih ry (x0 + sx) y0 (err + -b)
        (putpixel (int_to_u32 x0) (int_to_u32 y0) color s) f hf1
        (by rw [hx]; ring) hy hry0 hryb (by omega) herr2
        (by omega) (by omega)
      have eL : line_iters a (-b) sx sy x1 y1 (f + 1) x0 y0 err =
          (x0, y0, err) :: line_iters a (-b) sx sy x1 y1 f (x0 + sx) y0 (err + -b) := by
        rw [line_iters]
        simp only [hne, hxs, hys, if_true, if_false]
      have eF : fb_draw_line_loop a (-b) sx sy x1 y1 color (f + 1) x0 y0 err s =
          fb_draw_line_loop a (-b) sx sy x1 y1 color f (x0 + sx) y0 (err + -b)
            (putpixel (int_to_u32 x0) (int_to_u32 y0) color s) := by
        rw [fb_draw_line_loop]
        simp only [hne, hxs, hys, if_true, if_false]
      obtain ⟨k1, k2, ⟨e, k3⟩, k4, k5, k6⟩ := key
      rw [eL, eF]
      refine ⟨?_, ?_, ?_, ?_, ?_, ?_⟩
      · rw [k1, List.map_cons, draw_points_cons]
      · simp [k2]
      · exact ⟨e, getLast?_cons_of_some _ _ _ k3⟩
      · rw [List.chain'_cons']
        refine ⟨?_, k4⟩
        obtain ⟨g, rfl⟩ : ∃ g, f = g + 1 := ⟨f - 1, by omega⟩
        intro u hu
        rw [line_iters_head] at hu
        simp only [Option.mem_def, Option.some.injEq] at hu
        subst hu
        refine ⟨Or.inr ⟨rfl, by omega⟩, Or.inl rfl, Or.inl ?_⟩
        show x0 + sx ≠ x0
        rcases hsx with h1 | h1 <;> subst h1 <;> omega
      · intro t ht
        rcases List.mem_cons.mp ht with h | h
        · subst h
          refine ⟨rx + 1, ry, by omega, by push_cast; omega, hry0, le_refl _, ?_, ?_, ?_, ?_⟩
          · show x0 = x1 - sx * (rx + 1)
            rw [hx]; ring
          · show y0 = y1 - sy * ry
            rw [hy]; ring
          · show -(3 * b) ≤ 2 * err
            omega
          · show 2 * err ≤ 3 * a
            omega
        · obtain ⟨px, py, h1, h2, h3, h4, h5⟩ := k5 t h
          exact ⟨px, py, h1, by push_cast; omega, h3, h4, h5⟩
      · intro px h0 h1
        by_cases hp : px = rx + 1
        · subst hp
          refine ⟨(x0, y0, err), List.mem_cons_self _ _, ?_⟩
          show x0 = x1 - sx * (rx + 1)
          rw [hx]; ring
        · obtain ⟨t, ht, e1⟩ := k6 px h0 (by push_cast at h1; omega)
          exact ⟨t, List.mem_cons_of_mem _ ht, e1⟩

/-- Lines whose y distance is the larger: the loop steps y in every iteration. -/
theorem line_iters_y_major (a b sx sy x1 y1 : Int) (color : Nat) (ha : 0 ≤ a) (hab : a ≤ b)
    (hsy : sy = 1 ∨ sy = -1) :
    ∀ (ry : Nat) (rx x0 y0 err : Int) (s : State) (fuel : Nat), ry + 1 ≤ fuel →
      x1 = x0 + sx * rx → y1 = y0 + sy * ry → 0 ≤ rx → rx ≤ a → (ry : Int) ≤ b →
      err = a - b + b * rx - a * ry → 2 * a - 3 * b ≤ 2 * err → 2 * err ≤ a →
      fb_draw_line_loop a (-b) sx sy x1 y1 color fuel x0 y0 err s =
          some (draw_points color
            ((line_iters a (-b) sx sy x1 y1 fuel x0 y0 err).map (fun t => (t.1, t.2.1))) s) ∧
        (line_iters a (-b) sx sy x1 y1 fuel x0 y0 err).length = ry + 1 ∧
        (∃ e, (line_iters a (-b) sx sy x1 y1 fuel x0 y0 err).getLast? = some (x1, y1, e)) ∧
        List.Chain' (fun t u : Int × Int × Int =>
            (u.1 = t.1 ∨ (u.1 = t.1 + sx ∧ 0 < a)) ∧
            (u.2.1 = t.2.1 ∨ (u.2.1 = t.2.1 + sy ∧ 0 < b)) ∧ (u.1 ≠ t.1 ∨ u.2.1 ≠ t.2.1))
          (line_iters a (-b) sx sy x1 y1 fuel x0 y0 err) ∧
        ∀ t ∈ line_iters a (-b) sx sy x1 y1 fuel x0 y0 err,
          ∃ px py : Int, 0 ≤ px ∧ px ≤ rx ∧ 0 ≤ py ∧ py ≤ ry ∧ t.1 = x1 - sx * px ∧
            t.2.1 = y1 - sy * py ∧ -(3 * b) ≤ 2 * t.2.2 ∧ 2 * t.2.2 ≤ 3 * a := by
  intro ry
  induction ry with
  | zero =>
    intro rx x0 y0 err s fuel hf hx hy hrx0 hrxa hryb herr hlo hhi
    obtain ⟨f, rfl⟩ : ∃ f, fuel = f + 1 := ⟨fuel - 1, by omega⟩
    have hrx : rx = 0 := by
      by_contra hne
      have h1 : 1 ≤ rx := by omega
      have h2 : b * 1 ≤ b * rx := mul_le_mul_of_nonneg_left h1 (by omega)
      simp only [Nat.cast_zero, mul_zero, sub_zero] at herr
      omega
    subst hrx
    have hx0 : x0 = x1 := by simp at hx; omega
    have hy0 : y0 = y1 := by simp at hy; omega
    subst hx0; subst hy0
    simp only [Nat.cast_zero, mul_zero, add_zero, sub_zero] at herr
    refine ⟨?_, ?_, ?_, ?_, ?_⟩
    · simp [fb_draw_line_loop, line_iters, draw_points]
    · simp [line_iters]
    · exact ⟨err, by simp [line_iters]⟩
    · simp [line_iters]
    · intro t ht
      simp [line_iters] at ht
      subst ht
      exact ⟨0, 0, by simp, by simp, by simp, by simp, by simp, by simp, by simp; omega,
        by simp; omega⟩
  | succ ry ih =>
    intro rx x0 y0 err s fuel hf hx hy hrx0 hrxa hryb herr hlo hhi
    obtain ⟨f, rfl⟩ : ∃ f, fuel = f + 1 := ⟨fuel - 1, by omega⟩
    have hf1 : ry + 1 ≤ f := by omega
    push_cast at hy hryb herr
    have hry0 : (0 : Int) ≤ ry := Int.ofNat_nonneg ry
    have hne : ¬ (x0 = x1 ∧ y0 = y1) := by
      rintro ⟨-, h⟩
      rcases hsy with h1 | h1 <;> subst h1 <;> omega
    have hys : 2 * err ≤ a := hhi
    have hary : 0 ≤ a * ry := mul_nonneg ha hry0
    have h3 : a * (↑ry + 1) = a * ry + a := by ring
    by_cases hxs : 2 * err ≥ -b
    · -- both coordinates step
      have hrx1 : 1 ≤ rx := by
        by_contra hne1
        have h0 : rx = 0 := by omega
        subst h0
        simp only [mul_zero, add_zero] at herr
        omega
      have herr2 : err + -b + a = a - b + b * (rx - 1) - a * ry := by rw [herr]; ring
      have key := ih (rx - 1) (x0 + sx) (y0 + sy) (err + -b + a)
        (putpixel (int_to_u32 x0) (int_to_u32 y0) color s) f hf1
        (by rw [hx]; ring) (by rw [hy]; ring) (by omega) (by omega) (by omega) herr2
        (by omega) (by omega)
      have eL : line_iters a (-b) sx sy x1 y1 (f + 1) x0 y0 err =
          (x0, y0, err) :: line_iters a (-b) sx sy x1 y1 f (x0 + sx) (y0 + sy) (err + -b + a) := by
        rw [line_iters]
        simp only [hne, hxs, hys, if_true, if_false]
      have eF : fb_draw_line_loop a (-b) sx sy x1 y1 color (f + 1) x0 y0 err s =
          fb_draw_line_loop a (-b) sx sy x1 y1 color f (x0 + sx) (y0 + sy) (err + -b + a)
            (putpixel (int_to_u32 x0) (int_to_u32 y0) color s) := by
        rw [fb_draw_line_loop]
        simp only [hne, hxs, hys, if_true, if_false]
      obtain ⟨k1, k2, ⟨e, k3⟩, k4, k5⟩ := key
      rw [eL, eF]
      refine ⟨?_, ?_, ?_, ?_, ?_⟩
      · rw [k1, List.map_cons, draw_points_cons]
      · simp [k2]
      · exact ⟨e, getLast?_cons_of_some _ _ _ k3⟩
      · rw [List.chain'_cons']
        refine ⟨?_, k4⟩
        obtain ⟨g, rfl⟩ : ∃ g, f = g + 1 := ⟨f - 1, by omega⟩
        intro u hu
        rw [line_iters_head] at hu
        simp only [Option.mem_def, Option.some.injEq] at hu
        subst hu
        refine ⟨Or.inr ⟨rfl, by omega⟩, Or.inr ⟨rfl, by omega⟩, Or.inr ?_⟩
        show y0 + sy ≠ y0
        rcases hsy with h1 | h1 <;> subst h1 <;> omega
      · intro t ht
        rcases List.mem_cons.mp ht with h | h
        · subst h
          refine ⟨rx, ry + 1, hrx0, le_refl _, by omega, by push_cast; omega, ?_, ?_, ?_, ?_⟩
          · show x0 = x1 - sx * rx
            rw [hx]; ring
          · show y0 = y1 - sy * (ry + 1)
            rw [hy]; ring
          · show -(3 * b) ≤ 2 * err
            omega
          · show 2 * err ≤ 3 * a
            omega
        · obtain ⟨px, py, h1, h2, h3, h4, h5⟩ := k5 t h
          exact ⟨px, py, h1, by omega, h3, by push_cast; omega, h5⟩
    · -- only y steps
      have herr2 : err + a = a - b + b * rx - a * ry := by rw [herr]; ring
      have key := ih rx x0 (y0 + sy) (err + a)
        (putpixel (int_to_u32 x0) (int_to_u32 y0) color s) f hf1
        hx (by rw [hy]; ring) hrx0 hrxa (by omega) herr2
        (by omega) (by omega)
      have eL : line_iters a (-b) sx sy x1 y1 (f + 1) x0 y0 err =
          (x0, y0, err) :: line_iters a (-b) sx sy x1 y1 f x0 (y0 + sy) (err + a) := by
        rw [line_iters]
        simp only [hne, hxs, hys, if_true, if_false]
      have eF : fb_draw_line_loop a (-b) sx sy x1 y1 color (f + 1) x0 y0 err s =
          fb_draw_line_loop a (-b) sx sy x1 y1 color f x0 (y0 + sy) (err + a)
            (putpixel (int_to_u32 x0) (int_to_u32 y0) color s) := by
        rw [fb_draw_line_loop]
        simp only [hne, hxs, hys, if_true, if_false]
      obtain ⟨k1, k2, ⟨e, k3⟩, k4, k5⟩ := key
      rw [eL, eF]
      refine ⟨?_, ?_, ?_, ?_, ?_⟩
      · rw [k1, List.map_cons, draw_points_cons]
      · simp [k2]
      · exact ⟨e, getLast?_cons_of_some _ _ _ k3⟩
      · rw [List.chain'_cons']
        refine ⟨?_, k4⟩
        obtain ⟨g, rfl⟩ : ∃ g, f = g + 1 := ⟨f - 1, by omega⟩
        intro u hu
        rw [line_iters_head] at hu
        simp only [Option.mem_def, Option.some.injEq] at hu
        subst hu
        refine ⟨Or.inl rfl, Or.inr ⟨rfl, by omega⟩, Or.inr ?_⟩
        show y0 + sy ≠ y0
        rcases hsy with h1 | h1 <;> subst h1 <;> omega
      · intro t ht
        rcases List.mem_cons.mp ht with h | h
        · subst h
          refine ⟨rx, ry + 1, hrx0, le_refl _, by omega, by push_cast; omega, ?_, ?_, ?_, ?_⟩
          · show x0 = x1 - sx * rx
            rw [hx]; ring
          · show y0 = y1 - sy * (ry + 1)
            rw [hy]; ring
          · show -(3 * b) ≤ 2 * err
            omega
          · show 2 * err ≤ 3 * a
            omega
        · obtain ⟨px, py, h1, h2, h3, h4, h5⟩ := k5 t h
          exact ⟨px, py, h1, h2, h3, by push_cast; omega, h5⟩

theorem line_iters_take (dx dy sx sy x1 y1 : Int) :
    ∀ (g f : Nat) (x0 y0 err : Int), g ≤ f →
      line_iters dx dy sx sy x1 y1 g x0 y0 err =
        (line_iters dx dy sx sy x1 y1 f x0 y0 err).take g := by
  intro g
  induction g with
  | zero => intros; simp [line_iters]
  | succ g ih =>
    intro f x0 y0 err h
    obtain ⟨f, rfl⟩ : ∃ k, f = k + 1 := ⟨f - 1, by omega⟩
    rw [line_iters, line_iters]
    by_cases hend : x0 = x1 ∧ y0 = y1
    · simp [hend]
    · simp only [hend, if_false, List.take_succ_cons]
      rw [ih f _ _ _ (by omega)]

theorem line_iters_spec (a b sx sy x0 y0 x1 y1 : Int) (color : Nat) (s : State) (fuel : Nat)
    (ha : 0 ≤ a) (hb : 0 ≤ b) (hsx : sx = 1 ∨ sx = -1) (hsy : sy = 1 ∨ sy = -1)
    (hx : x1 = x0 + sx * a) (hy : y1 = y0 + sy * b) (hfuel : (max a b).toNat + 1 ≤ fuel) :
    fb_draw_line_loop a (-b) sx sy x1 y1 color fuel x0 y0 (a + -b) s =
        some (draw_points color
          ((line_iters a (-b) sx sy x1 y1 fuel x0 y0 (a + -b)).map (fun t => (t.1, t.2.1))) s) ∧
      (line_iters a (-b) sx sy x1 y1 fuel x0 y0 (a + -b)).length = (max a b).toNat + 1 ∧
      (∃ e, (line_iters a (-b) sx sy x1 y1 fuel x0 y0 (a + -b)).getLast? = some (x1, y1, e)) ∧
      List.Chain' (fun t u : Int × Int × Int =>
          (u.1 = t.1 ∨ (u.1 = t.1 + sx ∧ 0 < a)) ∧
          (u.2.1 = t.2.1 ∨ (u.2.1 = t.2.1 + sy ∧ 0 < b)) ∧ (u.1 ≠ t.1 ∨ u.2.1 ≠ t.2.1))
        (line_iters a (-b) sx sy x1 y1 fuel x0 y0 (a + -b)) ∧
      ∀ t ∈ line_iters a (-b) sx sy x1 y1 fuel x0 y0 (a + -b),
        ∃ px py : Int, 0 ≤ px ∧ px ≤ a ∧ 0 ≤ py ∧ py ≤ b ∧ t.1 = x1 - sx * px ∧
          t.2.1 = y1 - sy * py ∧ -(3 * b) ≤ 2 * t.2.2 ∧ 2 * t.2.2 ≤ 3 * a := by
  by_cases hab : b ≤ a
  · have hm : max a b = a := max_eq_left hab
    rw [hm] at hfuel ⊢
    have hc : ((a.toNat : Nat) : Int) = a := Int.toNat_of_nonneg ha
    have h := line_iters_x_major a b sx sy x1 y1 color hb hab hsx a.toNat b x0 y0 (a + -b) s fuel
      hfuel (by rw [hc]; exact hx) hy hb (le_refl _) (by omega) (by rw [hc]; ring) (by omega)
      (by omega)
    obtain ⟨k1, k2, k3, k4, k5, -⟩ := h
    refine ⟨k1, k2, k3, k4, ?_⟩
    intro t ht
    obtain ⟨px, py, h1, h2, h3⟩ := k5 t ht
    exact ⟨px, py, h1, by omega, h3⟩
  · have hab1 : a ≤ b := by omega
    have hm : max a b = b := max_eq_right hab1
    rw [hm] at hfuel ⊢
    have hc : ((b.toNat : Nat) : Int) = b := Int.toNat_of_nonneg hb
    have h := line_iters_y_major a b sx sy x1 y1 color ha hab1 hsy b.toNat a x0 y0 (a + -b) s fuel
      hfuel hx (by rw [hc]; exact hy) ha (le_refl _) (by omega) (by rw [hc]; ring) (by omega)
      (by omega)
    obtain ⟨k1, k2, k3, k4, k5⟩ := h
    refine ⟨k1, k2, k3, k4, ?_⟩
    intro t ht
    obtain ⟨px, py, h1, h2, h3, h4, h5⟩ := k5 t ht
    exact ⟨px, py, h1, h2, h3, by omega, h5⟩

theorem c_abs_nonneg (v : Int) : 0 ≤ c_abs v := by
  unfold c_abs; split <;> omega

theorem line_sign_x (x0 x1 : Int) :
    x1 = x0 + (if x0 < x1 then (1 : Int) else -1) * c_abs (x1 - x0) := by
  unfold c_abs; split <;> split <;> omega

theorem line_sign_eq (x0 x1 : Int) (h : 0 < c_abs (x1 - x0)) :
    (if x0 < x1 then (1 : Int) else -1) = Int.sign (x1 - x0) := by
  unfold c_abs at h
  split
  · rw [Int.sign_eq_one_of_pos (by omega)]
  · rw [Int.sign_eq_neg_one_of_neg]
    split at h <;> omega

theorem line_sign_cases (x0 x1 : Int) :
    (if x0 < x1 then (1 : Int) else -1) = 1 ∨ (if x0 < x1 then (1 : Int) else -1) = -1 := by
  split <;> simp

theorem line_box (x0 x1 px : Int) (h0 : 0 ≤ px) (h1 : px ≤ c_abs (x1 - x0)) :
    min x0 x1 ≤ x1 - (if x0 < x1 then (1 : Int) else -1) * px ∧
      x1 - (if x0 < x1 then (1 : Int) else -1) * px ≤ max x0 x1 := by
  unfold c_abs at h1
  by_cases hlt : x0 < x1
  · simp only [hlt, if_true, one_mul]
    split at h1 <;> omega
  · simp only [hlt, if_false, neg_mul, one_mul, sub_neg_eq_add]
    split at h1 <;> omega

/-- The function `fb_draw_line` with enough fuel: it returns, and its pixel
writes are those of `line_points`. -/
theorem fb_draw_line_spec (x0 y0 x1 y1 : Int) (color fuel : Nat) (s : State)
    (hfuel : line_span x0 y0 x1 y1 + 1 ≤ fuel) :
    fb_draw_line fuel x0 y0 x1 y1 color s =
        some (draw_points color (line_points fuel x0 y0 x1 y1) s) ∧
      line_points fuel x0 y0 x1 y1 = line_points (line_span x0 y0 x1 y1 + 1) x0 y0 x1 y1 ∧
      (line_points fuel x0 y0 x1 y1).length = line_span x0 y0 x1 y1 + 1 ∧
      (line_points fuel x0 y0 x1 y1).head? = some (x0, y0) ∧
      (line_points fuel x0 y0 x1 y1).getLast? = some (x1, y1) ∧
      List.Chain' (line_step (Int.sign (x1 - x0)) (Int.sign (y1 - y0)))
        (line_points fuel x0 y0 x1 y1) ∧
      (∀ p ∈ line_points fuel x0 y0 x1 y1,
        min x0 x1 ≤ p.1 ∧ p.1 ≤ max x0 x1 ∧ min y0 y1 ≤ p.2 ∧ p.2 ≤ max y0 y1) ∧
      ∀ t ∈ line_trace fuel x0 y0 x1 y1,
        min x0 x1 ≤ t.1 ∧ t.1 ≤ max x0 x1 ∧ min y0 y1 ≤ t.2.1 ∧ t.2.1 ≤ max y0 y1 ∧
          -(3 * c_abs (y1 - y0)) ≤ 2 * t.2.2 ∧ 2 * t.2.2 ≤ 3 * c_abs (x1 - x0) := by
  have ha := c_abs_nonneg (x1 - x0)
  have hb := c_abs_nonneg (y1 - y0)
  have hx := line_sign_x x0 x1
  have hy := line_sign_x y0 y1
  have hsx := line_sign_cases x0 x1
  have hsy := line_sign_cases y0 y1
  have h := line_iters_spec (c_abs (x1 - x0)) (c_abs (y1 - y0)) _ _ x0 y0 x1 y1 color s fuel
    ha hb hsx hsy hx hy hfuel
  obtain ⟨k1, k2, ⟨e, k3⟩, k4, k5⟩ := h
  have hT : line_trace fuel x0 y0 x1 y1 =
      line_iters (c_abs (x1 - x0)) (-c_abs (y1 - y0)) (if x0 < x1 then 1 else -1)
        (if y0 < y1 then 1 else -1) x1 y1 fuel x0 y0 (c_abs (x1 - x0) + -c_abs (y1 - y0)) := rfl
  have hbox : ∀ t ∈ line_trace fuel x0 y0 x1 y1,
      min x0 x1 ≤ t.1 ∧ t.1 ≤ max x0 x1 ∧ min y0 y1 ≤ t.2.1 ∧ t.2.1 ≤ max y0 y1 ∧
        -(3 * c_abs (y1 - y0)) ≤ 2 * t.2.2 ∧ 2 * t.2.2 ≤ 3 * c_abs (x1 - x0) := by
    intro t ht
    rw [hT] at ht
    obtain ⟨px, py, h1, h2, h3, h4, h5, h6, h7, h8⟩ := k5 t ht
    have bx := line_box x0 x1 px h1 h2
    have by1 := line_box y0 y1 py h3 h4
    rw [h5, h6]
    exact ⟨bx.1, bx.2, by1.1, by1.2, h7, h8⟩
  have hlen : (line_trace fuel x0 y0 x1 y1).length = line_span x0 y0 x1 y1 + 1 := by
    rw [hT, k2]; rfl
  refine ⟨?_, ?_, ?_, ?_, ?_, ?_, ?_, hbox⟩
  · exact k1
  · unfold line_points
    rw [hT]
    have hT2 : line_trace (line_span x0 y0 x1 y1 + 1) x0 y0 x1 y1 =
        line_iters (c_abs (x1 - x0)) (-c_abs (y1 - y0)) (if x0 < x1 then 1 else -1)
          (if y0 < y1 then 1 else -1) x1 y1 (line_span x0 y0 x1 y1 + 1) x0 y0
          (c_abs (x1 - x0) + -c_abs (y1 - y0)) := rfl
    rw [hT2, line_iters_take _ _ _ _ _ _ (line_span x0 y0 x1 y1 + 1) fuel _ _ _ hfuel,
      List.take_of_length_le]
    rw [k2]; exact le_refl _
  · unfold line_points
    rw [List.length_map, hlen]
  · unfold line_points
    rw [hT]
    obtain ⟨f, rfl⟩ : ∃ f, fuel = f + 1 := ⟨fuel - 1, by omega⟩
    rw [List.head?_map, line_iters_head]; rfl
  · unfold line_points
    rw [List.getLast?_map, hT, k3]; rfl
  · unfold line_points
    rw [List.chain'_map, hT]
    refine k4.imp ?_
    rintro t u ⟨h1, h2, h3⟩
    refine ⟨?_, ?_, h3⟩
    · rcases h1 with h1 | ⟨h1, h1a⟩
      · exact Or.inl h1
      · right; rw [h1, line_sign_eq x0 x1 h1a]
    · rcases h2 with h2 | ⟨h2, h2a⟩
      · exact Or.inl h2
      · right; rw [h2, line_sign_eq y0 y1 h2a]
  · intro p hp
    unfold line_points at hp
    obtain ⟨t, ht, rfl⟩ := List.mem_map.mp hp
    obtain ⟨h1, h2, h3, h4, -⟩ := hbox t ht
    exact ⟨h1, h2, h3, h4⟩

/-- A line whose x distance is the larger visits every column between its ends. -/
theorem line_points_cover_x (x0 y0 x1 y1 : Int) (fuel : Nat)
    (hfuel : line_span x0 y0 x1 y1 + 1 ≤ fuel) (hab : c_abs (y1 - y0) ≤ c_abs (x1 - x0))
    (x : Int) (hlo : min x0 x1 ≤ x) (hhi : x ≤ max x0 x1) :
    ∃ p ∈ line_points fuel x0 y0 x1 y1, p.1 = x := by
  have ha := c_abs_nonneg (x1 - x0)
  have hb := c_abs_nonneg (y1 - y0)
  have hx := line_sign_x x0 x1
  have hy := line_sign_x y0 y1
  have hsx := line_sign_cases x0 x1
  have hm : max (c_abs (x1 - x0)) (c_abs (y1 - y0)) = c_abs (x1 - x0) := max_eq_left hab
  unfold line_span at hfuel
  rw [hm] at hfuel
  have hc : (((c_abs (x1 - x0)).toNat : Nat) : Int) = c_abs (x1 - x0) := Int.toNat_of_nonneg ha
  have h := line_iters_x_major (c_abs (x1 - x0)) (c_abs (y1 - y0)) _ _ x1 y1 0 hb hab hsx
    (c_abs (x1 - x0)).toNat (c_abs (y1 - y0)) x0 y0 (c_abs (x1 - x0) + -c_abs (y1 - y0))
    (State.initial (fun _ => 0)) fuel
    hfuel (by rw [hc]; exact hx) hy hb (le_refl _) (by omega) (by rw [hc]; ring) (by omega)
    (by omega)
  obtain ⟨-, -, -, -, -, k6⟩ := h
  have hpx : ∃ px : Int, 0 ≤ px ∧ px ≤ c_abs (x1 - x0) ∧
      x = x1 - (if x0 < x1 then (1 : Int) else -1) * px := by
    by_cases hlt : x0 < x1
    · refine ⟨x1 - x, ?_, ?_, ?_⟩
      · omega
      · unfold c_abs; split <;> omega
      · simp [hlt]
    · refine ⟨x - x1, ?_, ?_, ?_⟩
      · omega
      · unfold c_abs; split <;> omega
      · simp [hlt]
  obtain ⟨px, h0, h1, h2⟩ := hpx
  obtain ⟨t, ht, e1⟩ := k6 px h0 (by rw [hc]; exact h1)
  refine ⟨(t.1, t.2.1), List.mem_map.mpr ⟨t, ht, rfl⟩, ?_⟩
  show t.1 = x
  rw [e1, h2]


/-- C12, counterexample: with every coordinate below 2^29 in absolute value
the third iteration of the loop of `fb_draw_line` from (-536870911, 0) to
(536870911, 268435456) computes `2 * err = 2684354552`, which does not fit `int`. -/
theorem line_doubling_overflows :
    (∀ v ∈ [(-536870911 : Int), 0, 536870911, 268435456], -536870912 < v ∧ v < 536870912) ∧
      line_trace 3 (-536870911) 0 536870911 268435456 =
        [(-536870911, 0, 805306366), (-536870910, 0, 536870910), (-536870909, 1, 1342177276)] ∧
      ¬ is_int (2 * 1342177276) ∧
      ¬ (∀ t ∈ line_trace 3 (-536870911) 0 536870911 268435456,
          iter_in_range (c_abs (536870911 - -536870911)) (-c_abs (268435456 - 0)) 1 1 t) := by
  decide

/-- C12, amended: for endpoints whose coordinates are below 2^28 in absolute
value no value computed by `fb_draw_line` leaves the range of `int`; the loop
terminates (any fuel above the larger coordinate distance gives a result), it
calls `putpixel` exactly max(|x1-x0|, |y1-y0|) + 1 times, first at (x0, y0) and
last at (x1, y1), each later call differs from the previous one by 0 or
sign(x1-x0) in x and 0 or sign(y1-y0) in y, not both 0, and all calls lie in the
bounding box of the endpoints. -/
theorem draw_line_contract (x0 y0 x1 y1 : Int) (color fuel : Nat) (s : State)
    (hsmall : ∀ v ∈ [x0, y0, x1, y1], -268435456 < v ∧ v < 268435456)
    (hfuel : line_span x0 y0 x1 y1 + 1 ≤ fuel) :
    (is_int (x1 - x0) ∧ is_int (y1 - y0) ∧ is_int (c_abs (x1 - x0)) ∧
        is_int (-c_abs (y1 - y0)) ∧ is_int (c_abs (x1 - x0) + -c_abs (y1 - y0)) ∧
        ∀ t ∈ line_trace fuel x0 y0 x1 y1,
          iter_in_range (c_abs (x1 - x0)) (-c_abs (y1 - y0)) (if x0 < x1 then 1 else -1)
            (if y0 < y1 then 1 else -1) t) ∧
      fb_draw_line fuel x0 y0 x1 y1 color s =
        some (draw_points color (line_points fuel x0 y0 x1 y1) s) ∧
      line_points fuel x0 y0 x1 y1 = line_points (line_span x0 y0 x1 y1 + 1) x0 y0 x1 y1 ∧
      (line_points fuel x0 y0 x1 y1).length =
        (max (c_abs (x1 - x0)) (c_abs (y1 - y0))).toNat + 1 ∧
      (line_points fuel x0 y0 x1 y1).head? = some (x0, y0) ∧
      (line_points fuel x0 y0 x1 y1).getLast? = some (x1, y1) ∧
      List.Chain' (line_step (Int.sign (x1 - x0)) (Int.sign (y1 - y0)))
        (line_points fuel x0 y0 x1 y1) ∧
      ∀ p ∈ line_points fuel x0 y0 x1 y1,
        min x0 x1 ≤ p.1 ∧ p.1 ≤ max x0 x1 ∧ min y0 y1 ≤ p.2 ∧ p.2 ≤ max y0 y1 := by
  obtain ⟨k1, k2, k3, k4, k5, k6, k7, k8⟩ := fb_draw_line_spec x0 y0 x1 y1 color fuel s hfuel
  refine ⟨?_, k1, k2, k3, k4, k5, k6, k7⟩
  have hx0 := hsmall x0 (by simp)
  have hy0 := hsmall y0 (by simp)
  have hx1 := hsmall x1 (by simp)
  have hy1 := hsmall y1 (by simp)
  have ha0 := c_abs_nonneg (x1 - x0)
  have hb0 := c_abs_nonneg (y1 - y0)
  have ha : c_abs (x1 - x0) < 536870912 := by unfold c_abs; split <;> omega
  have hb : c_abs (y1 - y0) < 536870912 := by unfold c_abs; split <;> omega
  refine ⟨?_, ?_, ?_, ?_, ?_, ?_⟩
  · unfold is_int; omega
  · unfold is_int; omega
  · unfold is_int; omega
  · unfold is_int; omega
  · unfold is_int; omega
  · intro t ht
    obtain ⟨h1, h2, h3, h4, h5, h6⟩ := k8 t ht
    have hsx : -1 ≤ (if x0 < x1 then (1 : Int) else -1) ∧
        (if x0 < x1 then (1 : Int) else -1) ≤ 1 := by split <;> omega
    have hsy : -1 ≤ (if y0 < y1 then (1 : Int) else -1) ∧
        (if y0 < y1 then (1 : Int) else -1) ≤ 1 := by split <;> omega
    have m1 : min x0 x1 > -268435456 := by omega
    have m2 : max x0 x1 < 268435456 := by omega
    have m3 : min y0 y1 > -268435456 := by omega
    have m4 : max y0 y1 < 268435456 := by omega
    unfold iter_in_range is_int
    omega

/-- C12 at `fb_draw_line(0, 0, 4, 0, color)`: exactly the five pixels
(0,0), (1,0), (2,0), (3,0), (4,0) are written. -/
theorem draw_line_contract_witness :
    line_points 5 0 0 4 0 = [(0, 0), (1, 0), (2, 0), (3, 0), (4, 0)] ∧
      fb_draw_line 5 0 0 4 0 16777215 graphics_state =
        some (draw_points 16777215 (line_points 5 0 0 4 0) graphics_state) ∧
      (line_points 5 0 0 4 0).length = 5 :=
  ⟨by decide,
    (draw_line_contract 0 0 4 0 16777215 5 graphics_state (by decide) (by decide)).2.1,
    by decide⟩

/-! ### Polygons: the fill pass and the outline -/

theorem draw_points_paint (s : State) (fb : limine_framebuffer) (hfb : s.fb = some fb)
    (color : Nat) (pts : List (Int × Int)) :
    draw_points color pts s = s.set_mem (paint fb (pts.map (point_write color)) s.mem) := by
  have h := foldl_paint s fb pts
    (fun p acc => putpixel (int_to_u32 p.1) (int_to_u32 p.2) color acc)
    (fun p => [point_write color p])
    (fun p m => putpixel_set_mem s fb hfb _ _ color m) s.mem
  rw [set_mem_self] at h
  have e : ∀ l : List (Int × Int),
      l.flatMap (fun p => [point_write color p]) = l.map (point_write color) := by
    intro l
    induction l with
    | nil => rfl
    | cons a l ih => rw [List.flatMap_cons, List.map_cons, ih]; rfl
  unfold draw_points
  rw [h, e]

theorem int_to_u32_cast (n : Nat) (h : n < 4294967296) : int_to_u32 (n : Int) = n := by
  unfold int_to_u32; omega

theorem int_to_u32_eq {v : Int} {n : Nat} (h0 : 0 ≤ v) (h1 : v < 4294967296)
    (h : int_to_u32 v = n) : v = (n : Int) := by
  unfold int_to_u32 at h; omega

/-- A pixel after a sequence of one-colour `putpixel` calls at points whose
coordinates convert to `uint32_t` without change. -/
theorem read_pixel_draw_points (s : State) (fb : limine_framebuffer) (hfb : s.fb = some fb)
    (hp : fb.width * (fb.bpp / 8) ≤ fb.pitch) (hB : fb.bpp / 8 ≤ 4)
    (color : Nat) (pts : List (Int × Int))
    (hpts : ∀ p ∈ pts, 0 ≤ p.1 ∧ p.1 < 4294967296 ∧ 0 ≤ p.2 ∧ p.2 < 4294967296)
    {px py : Nat} (hx : px < fb.width) (hy : py < fb.height) :
    read_pixel (draw_points color pts s).mem fb px py =
      if ((px : Int), (py : Int)) ∈ pts then low_bytes color (fb.bpp / 8)
      else read_pixel s.mem fb px py := by
  rw [draw_points_paint s fb hfb]
  show read_pixel (paint fb (pts.map (point_write color)) s.mem) fb px py = _
  have hw := fb.width_lt
  have hh := fb.height_lt
  split
  · rename_i hmem
    apply read_pixel_paint_same fb hp hB _ _ color hx hy
    · intro w hw1
      obtain ⟨p, _, rfl⟩ := List.mem_map.mp hw1
      rfl
    · refine ⟨point_write color ((px : Int), (py : Int)), List.mem_map.mpr ⟨_, hmem, rfl⟩, ?_, ?_⟩
      · exact int_to_u32_cast px (by omega)
      · exact int_to_u32_cast py (by omega)
  · rename_i hmem
    apply read_pixel_paint_other fb hp _ _ hx hy
    intro w hw1 hw2
    obtain ⟨p, hpm, rfl⟩ := List.mem_map.mp hw1
    obtain ⟨h1, h2, h3, h4⟩ := hpts p hpm
    have e1 := int_to_u32_eq h1 h2 hw2.1
    have e2 := int_to_u32_eq h3 h4 hw2.2
    apply hmem
    have : p = ((px : Int), (py : Int)) := Prod.ext e1 e2
    rw [← this]; exact hpm

/-- Frame rule for a sequence of `putpixel` calls. -/
theorem draw_points_frame (s : State) (fb : limine_framebuffer) (hfb : s.fb = some fb)
    (color : Nat) (pts : List (Int × Int)) (a : Nat)
    (h : ∀ p ∈ pts, ¬ covers fb (point_write color p) a) :
    (draw_points color pts s).mem a = s.mem a := by
  rw [draw_points_paint s fb hfb]
  show paint fb (pts.map (point_write color)) s.mem a = s.mem a
  apply paint_frame
  intro w hw
  obtain ⟨p, hpm, rfl⟩ := List.mem_map.mp hw
  exact h p hpm

theorem foldlM_draw_lines (fuel : Nat) (x y : List Int) (n color : Nat)
    (hfuel : ∀ i, i < n →
      line_span (arr x i) (arr y i) (arr x ((i + 1) % n)) (arr y ((i + 1) % n)) + 1 ≤ fuel) :
    ∀ (l : List Nat) (s : State), (∀ i ∈ l, i < n) →
      l.foldlM (fun acc i =>
        fb_draw_line fuel (arr x i) (arr y i) (arr x ((i + 1) % n)) (arr y ((i + 1) % n))
          color acc) s =
      some (draw_points color (l.flatMap (fun i =>
        line_points fuel (arr x i) (arr y i) (arr x ((i + 1) % n)) (arr y ((i + 1) % n)))) s) := by
  intro l
  induction l with
  | nil => intro s _; rfl
  | cons a l ih =>
    intro s hl
    rw [List.foldlM_cons, (fb_draw_line_spec _ _ _ _ color fuel s
      (hfuel a (hl a (List.mem_cons_self _ _)))).1]
    show l.foldlM _ _ = _
    rw [ih _ (fun i hi => hl i (List.mem_cons_of_mem _ hi)), List.flatMap_cons,
      draw_points_append]

/-- The function `linearfb_draw_polygon` past its guards, with enough fuel for
every edge: the fill pass, then the outline. -/
theorem draw_polygon_eq (fuel : Nat) (x y : List Int) (n color : Nat) (filled : Int) (s : State)
    (hmode : s.fb_mode ≠ linearfb_mode_t.FB_MODE_CONSOLE) (hn : 2 ≤ n)
    (hfuel : ∀ i, i < n →
      line_span (arr x i) (arr y i) (arr x ((i + 1) % n)) (arr y ((i + 1) % n)) + 1 ≤ fuel) :
    linearfb_draw_polygon fuel x y n color filled s =
      some (draw_points color (outline_points fuel x y n)
        (if filled ≠ 0 then fb_fill_polygon x y n color s else s)) := by
  unfold linearfb_draw_polygon
  rw [if_neg hmode, if_neg (by omega)]
  exact foldlM_draw_lines fuel x y n color hfuel (List.range n) _
    (fun i hi => List.mem_range.mp hi)


theorem rect_min_max (y0 y1 : Int) (hy : y0 ≤ y1) :
    poly_min_max [y0, y0, y1, y1] 4 = (y0, y1) := by
  unfold poly_min_max for_from
  have h : ¬ y1 < y0 := by omega
  rcases lt_or_eq_of_le hy with h1 | h1
  · simp [List.range_succ, arr, h, h1]
  · subst h1
    simp [List.range_succ, arr]

theorem rect_scan_nodes (x0 y0 x1 y1 yy : Int) (hy : y0 ≤ y1) :
    scan_nodes [x0, x1, x1, x0] [y0, y0, y1, y1] 4 yy =
      if y0 < yy ∧ yy ≤ y1 then [x0, x1] else [] := by
  rw [scan_nodes_eq]
  unfold scan_crossings crossing_test edge_xval edge_prev
  by_cases h : y0 < yy ∧ yy ≤ y1
  · have h1 : ¬ (y1 < yy) := by omega
    have h2 : ¬ (y0 ≥ yy) := by omega
    simp [List.range_succ, arr, h, h1, h2]
  · have h1 : ¬ (y0 < yy ∧ y1 ≥ yy) := by omega
    have h2 : ¬ (y1 < yy ∧ y0 ≥ yy) := by omega
    have h3 : ¬ (y0 < yy ∧ y0 ≥ yy) := by omega
    have h4 : ¬ (y1 < yy ∧ y1 ≥ yy) := by omega
    simp [List.range_succ, arr, h, h1, h2, h3, h4]

theorem mem_rect_fill (x0 y0 x1 y1 : Int) (hx : x0 ≤ x1) (hy : y0 ≤ y1) (p : Int × Int) :
    p ∈ fill_points [x0, x1, x1, x0] [y0, y0, y1, y1] 4 ↔
      x0 ≤ p.1 ∧ p.1 ≤ x1 ∧ y0 < p.2 ∧ p.2 ≤ y1 := by
  unfold fill_points
  rw [rect_min_max y0 y1 hy]
  simp only [List.mem_flatMap, mem_int_range]
  have hgt : ¬ x0 > x1 := by omega
  constructor
  · rintro ⟨yy, ⟨h1, h2⟩, h3⟩
    rw [rect_scan_nodes x0 y0 x1 y1 yy hy] at h3
    split at h3
    · rename_i hc
      simp only [span_points, hgt, if_false, List.append_nil, List.mem_map, mem_int_range] at h3
      obtain ⟨xx, ⟨h4, h5⟩, rfl⟩ := h3
      exact ⟨h4, h5, hc.1, hc.2⟩
    · simp [span_points] at h3
  · rintro ⟨h1, h2, h3, h4⟩
    refine ⟨p.2, ⟨by omega, h4⟩, ?_⟩
    rw [rect_scan_nodes x0 y0 x1 y1 p.2 hy, if_pos ⟨h3, h4⟩]
    simp only [span_points, hgt, if_false, List.append_nil, List.mem_map, mem_int_range]
    exact ⟨p.1, ⟨h1, h2⟩, rfl⟩

theorem rect_outline_points (fuel : Nat) (x0 y0 x1 y1 : Int) :
    outline_points fuel [x0, x1, x1, x0] [y0, y0, y1, y1] 4 =
      line_points fuel x0 y0 x1 y0 ++ (line_points fuel x1 y0 x1 y1 ++
        (line_points fuel x1 y1 x0 y1 ++ line_points fuel x0 y1 x0 y0)) := by
  simp [outline_points, List.range_succ, arr]

theorem rect_line_span (x0 y0 x1 y1 : Int) (fuel : Nat) (hx : x0 ≤ x1) (hy : y0 ≤ y1)
    (hfuel : (max (x1 - x0) (y1 - y0)).toNat + 1 ≤ fuel) :
    line_span x0 y0 x1 y0 + 1 ≤ fuel ∧ line_span x1 y0 x1 y1 + 1 ≤ fuel ∧
      line_span x1 y1 x0 y1 + 1 ≤ fuel ∧ line_span x0 y1 x0 y0 + 1 ≤ fuel := by
  unfold line_span c_abs
  simp only [sub_self]
  refine ⟨?_, ?_, ?_, ?_⟩ <;> (repeat' split) <;> omega

theorem rect_edge_fuel (x0 y0 x1 y1 : Int) (fuel : Nat) (hx : x0 ≤ x1) (hy : y0 ≤ y1)
    (hfuel : (max (x1 - x0) (y1 - y0)).toNat + 1 ≤ fuel) :
    ∀ i, i < 4 →
      line_span (arr [x0, x1, x1, x0] i) (arr [y0, y0, y1, y1] i)
        (arr [x0, x1, x1, x0] ((i + 1) % 4)) (arr [y0, y0, y1, y1] ((i + 1) % 4)) + 1 ≤ fuel := by
  obtain ⟨h0, h1, h2, h3⟩ := rect_line_span x0 y0 x1 y1 fuel hx hy hfuel
  intro i hi
  interval_cases i
  · exact h0
  · exact h1
  · exact h2
  · exact h3

theorem mem_rect_outline (x0 y0 x1 y1 : Int) (fuel : Nat) (hx : x0 ≤ x1) (hy : y0 ≤ y1)
    (hfuel : (max (x1 - x0) (y1 - y0)).toNat + 1 ≤ fuel) :
    (∀ p ∈ outline_points fuel [x0, x1, x1, x0] [y0, y0, y1, y1] 4,
      x0 ≤ p.1 ∧ p.1 ≤ x1 ∧ y0 ≤ p.2 ∧ p.2 ≤ y1) ∧
    ∀ v : Int, x0 ≤ v → v ≤ x1 →
      (v, y0) ∈ outline_points fuel [x0, x1, x1, x0] [y0, y0, y1, y1] 4 := by
  obtain ⟨h0, h1, h2, h3⟩ := rect_line_span x0 y0 x1 y1 fuel hx hy hfuel
  rw [rect_outline_points]
  have b0 := (fb_draw_line_spec x0 y0 x1 y0 0 fuel (State.initial (fun _ => 0)) h0).2.2.2.2.2.2.1
  have b1 := (fb_draw_line_spec x1 y0 x1 y1 0 fuel (State.initial (fun _ => 0)) h1).2.2.2.2.2.2.1
  have b2 := (fb_draw_line_spec x1 y1 x0 y1 0 fuel (State.initial (fun _ => 0)) h2).2.2.2.2.2.2.1
  have b3 := (fb_draw_line_spec x0 y1 x0 y0 0 fuel (State.initial (fun _ => 0)) h3).2.2.2.2.2.2.1
  constructor
  · intro p hp
    simp only [List.mem_append] at hp
    rcases hp with hp | hp | hp | hp
    · have := b0 p hp; omega
    · have := b1 p hp; omega
    · have := b2 p hp; omega
    · have := b3 p hp; omega
  · intro v hv0 hv1
    have hab : c_abs (y0 - y0) ≤ c_abs (x1 - x0) := by
      unfold c_abs; simp only [sub_self]; split <;> split <;> omega
    obtain ⟨p, hp, e⟩ := line_points_cover_x x0 y0 x1 y0 fuel h0 hab v (by omega) (by omega)
    have := b0 p hp
    have e2 : p = (v, y0) := Prod.ext e (by show p.2 = y0; omega)
    rw [← e2]
    exact List.mem_append_left _ hp


/-- The pixels of the filled rectangle: the fill pass writes rows `y0 + 1 .. y1`
and the outline writes only points of the rectangle, among them the whole row `y0`. -/
theorem mem_rect_points (x0 y0 x1 y1 : Int) (fuel : Nat) (hx : x0 ≤ x1) (hy : y0 ≤ y1)
    (hfuel : (max (x1 - x0) (y1 - y0)).toNat + 1 ≤ fuel) (p : Int × Int) :
    p ∈ fill_points [x0, x1, x1, x0] [y0, y0, y1, y1] 4 ++
        outline_points fuel [x0, x1, x1, x0] [y0, y0, y1, y1] 4 ↔
      x0 ≤ p.1 ∧ p.1 ≤ x1 ∧ y0 ≤ p.2 ∧ p.2 ≤ y1 := by
  obtain ⟨hbox, htop⟩ := mem_rect_outline x0 y0 x1 y1 fuel hx hy hfuel
  rw [List.mem_append, mem_rect_fill x0 y0 x1 y1 hx hy]
  constructor
  · rintro (h | h)
    · omega
    · exact hbox p h
  · rintro ⟨h1, h2, h3, h4⟩
    by_cases htopr : p.2 = y0
    · right
      have : p = (p.1, y0) := Prod.ext rfl htopr
      rw [this]
      exact htop p.1 h1 h2
    · left; omega


theorem rect_points_range (x0 y0 x1 y1 : Int) (hx0 : 0 ≤ x0) (hy0 : 0 ≤ y0)
    (hxi : is_int x1) (hyi : is_int y1) (pts : List (Int × Int))
    (h : ∀ p ∈ pts, x0 ≤ p.1 ∧ p.1 ≤ x1 ∧ y0 ≤ p.2 ∧ p.2 ≤ y1) :
    ∀ p ∈ pts, 0 ≤ p.1 ∧ p.1 < 4294967296 ∧ 0 ≤ p.2 ∧ p.2 < 4294967296 := by
  intro p hp
  have := h p hp
  unfold is_int at hxi hyi
  omega

theorem point_write_of_nonneg (color : Nat) (p : Int × Int) (h1 : 0 ≤ p.1) (h2 : p.1 < 4294967296)
    (h3 : 0 ≤ p.2) (h4 : p.2 < 4294967296) :
    point_write color p = (p.1.toNat, p.2.toNat, color) := by
  unfold point_write int_to_u32
  have e1 : p.1 % 4294967296 = p.1 := Int.emod_eq_of_lt h1 h2
  have e2 : p.2 % 4294967296 = p.2 := Int.emod_eq_of_lt h3 h4
  rw [e1, e2]

/-- For end points below 2^28 in absolute value, with enough fuel, no value the
loop of `fb_draw_line` computes leaves the range of `int`. -/
theorem line_trace_in_range (x0 y0 x1 y1 : Int) (fuel : Nat)
    (hsmall : ∀ v ∈ [x0, y0, x1, y1], -268435456 < v ∧ v < 268435456)
    (hfuel : line_span x0 y0 x1 y1 + 1 ≤ fuel) :
    ∀ t ∈ line_trace fuel x0 y0 x1 y1,
      iter_in_range (c_abs (x1 - x0)) (-c_abs (y1 - y0)) (if x0 < x1 then 1 else -1)
        (if y0 < y1 then 1 else -1) t := by
  have k8 := (fb_draw_line_spec x0 y0 x1 y1 0 fuel (State.initial (fun _ => 0))
    hfuel).2.2.2.2.2.2.2
  have hx0 := hsmall x0 (by simp)
  have hy0 := hsmall y0 (by simp)
  have hx1 := hsmall x1 (by simp)
  have hy1 := hsmall y1 (by simp)
  have ha0 := c_abs_nonneg (x1 - x0)
  have hb0 := c_abs_nonneg (y1 - y0)
  have ha : c_abs (x1 - x0) < 536870912 := by unfold c_abs; split <;> omega
  have hb : c_abs (y1 - y0) < 536870912 := by unfold c_abs; split <;> omega
  intro t ht
  obtain ⟨h1, h2, h3, h4, h5, h6⟩ := k8 t ht
  have hsx : -1 ≤ (if x0 < x1 then (1 : Int) else -1) ∧
      (if x0 < x1 then (1 : Int) else -1) ≤ 1 := by split <;> omega
  have hsy : -1 ≤ (if y0 < y1 then (1 : Int) else -1) ∧
      (if y0 < y1 then (1 : Int) else -1) ≤ 1 := by split <;> omega
  have m1 : min x0 x1 > -268435456 := by omega
  have m2 : max x0 x1 < 268435456 := by omega
  have m3 : min y0 y1 > -268435456 := by omega
  have m4 : max y0 y1 < 268435456 := by omega
  unfold iter_in_range is_int
  omega

/-- C13, as stated, fails for large rectangles: with (x0,y0) = (0,0) and
(x1,y1) = (2^30, 1), all values of type `int`, the first line of the outline
runs from (0,0) to (2^30,0); its first iteration is not at the end point and
computes `2 * err = 2^31`, which does not fit `int`. -/
theorem rectangle_side_overflows :
    ((0 : Int) ≤ 0 ∧ (0 : Int) ≤ 1073741824 ∧ (0 : Int) ≤ 1 ∧ is_int 1073741824 ∧ is_int 1) ∧
      line_trace 1 (arr [0, 1073741824, 1073741824, 0] 0) (arr [0, 0, 1, 1] 0)
          (arr [0, 1073741824, 1073741824, 0] 1) (arr [0, 0, 1, 1] 1) =
        [(0, 0, 1073741824)] ∧
      ¬ ((0 : Int) = 1073741824 ∧ (0 : Int) = 0) ∧
      ¬ is_int (2 * 1073741824) ∧
      ¬ (∀ t ∈ line_trace 1 0 0 1073741824 0,
          iter_in_range (c_abs (1073741824 - 0)) (-c_abs (0 - 0)) 1 (-1) t) := by
  decide

/-- C13 (filled rectangle), amended.  In graphics mode on a bound surface with
B = bpp/8 in 1..4 and pitch >= width*B, for all `int` values
0 <= x0 <= x1 < 2^28 and 0 <= y0 <= y1 < 2^28 the call `linearfb_draw_polygon`
with the vertices (x0,y0), (x1,y0), (x1,y1), (x0,y1), n = 4 and a nonzero
`filled` returns (with fuel above the longer side for each line); afterwards
every pixel (px, py) of the surface with x0 <= px <= x1 and y0 <= py <= y1 holds
`color`, every other pixel of the surface holds its previous value, no byte
outside the pixels of the rectangle changes, and nothing but memory changes.
No `int` computation overflows: every value the four line loops compute fits
`int`, the loop counters of the fill fit `int` up to their final increment, and
the product in every intersection that the fill computes is 0. -/
theorem filled_rectangle (s : State) (fb : limine_framebuffer) (x0 y0 x1 y1 : Int)
    (color fuel : Nat) (filled : Int)
    (hfb : s.fb = some fb) (hmode : s.fb_mode = linearfb_mode_t.FB_MODE_GRAPHICS)
    (_hB1 : 1 ≤ fb.bpp / 8) (hB4 : fb.bpp / 8 ≤ 4) (hp : fb.width * (fb.bpp / 8) ≤ fb.pitch)
    (hx0 : 0 ≤ x0) (hx : x0 ≤ x1) (hy0 : 0 ≤ y0) (hy : y0 ≤ y1)
    (hxs : x1 < 268435456) (hys : y1 < 268435456) (hfilled : filled ≠ 0)
    (hfuel : (max (x1 - x0) (y1 - y0)).toNat + 1 ≤ fuel) :
    (∃ t, linearfb_draw_polygon fuel [x0, x1, x1, x0] [y0, y0, y1, y1] 4 color filled s = some t ∧
      t = s.set_mem t.mem ∧
      (∀ px py : Nat, px < fb.width → py < fb.height →
        read_pixel t.mem fb px py =
          if x0 ≤ px ∧ (px : Int) ≤ x1 ∧ y0 ≤ py ∧ (py : Int) ≤ y1
          then low_bytes color (fb.bpp / 8) else read_pixel s.mem fb px py) ∧
      ∀ a, (∀ px py : Nat, x0 ≤ px → (px : Int) ≤ x1 → y0 ≤ py → (py : Int) ≤ y1 →
          ¬ covers fb (px, py, color) a) → t.mem a = s.mem a) ∧
    (∀ i, i < 4 →
      ∀ t ∈ line_trace fuel (arr [x0, x1, x1, x0] i) (arr [y0, y0, y1, y1] i)
          (arr [x0, x1, x1, x0] ((i + 1) % 4)) (arr [y0, y0, y1, y1] ((i + 1) % 4)),
        iter_in_range
          (c_abs (arr [x0, x1, x1, x0] ((i + 1) % 4) - arr [x0, x1, x1, x0] i))
          (-c_abs (arr [y0, y0, y1, y1] ((i + 1) % 4) - arr [y0, y0, y1, y1] i))
          (if arr [x0, x1, x1, x0] i < arr [x0, x1, x1, x0] ((i + 1) % 4) then 1 else -1)
          (if arr [y0, y0, y1, y1] i < arr [y0, y0, y1, y1] ((i + 1) % 4) then 1 else -1) t) ∧
    is_int (x1 + 1) ∧ is_int (y1 + 1) ∧
    ∀ i yy, i < 4 → crossing_test [y0, y0, y1, y1] i (edge_prev 4 i) yy →
      (yy - arr [y0, y0, y1, y1] i) *
        (arr [x0, x1, x1, x0] (edge_prev 4 i) - arr [x0, x1, x1, x0] i) = 0 := by
  have hxi : is_int x1 := by unfold is_int; omega
  have hyi : is_int y1 := by unfold is_int; omega
  have hm : s.fb_mode ≠ linearfb_mode_t.FB_MODE_CONSOLE := by rw [hmode]; decide
  have hedge := rect_edge_fuel x0 y0 x1 y1 fuel hx hy hfuel
  have hpoly := draw_polygon_eq fuel [x0, x1, x1, x0] [y0, y0, y1, y1] 4 color filled s hm
    (by decide) hedge
  rw [if_pos hfilled, fb_fill_polygon_eq, ← draw_points_append] at hpoly
  have hmem := mem_rect_points x0 y0 x1 y1 fuel hx hy hfuel
  have hrange := rect_points_range x0 y0 x1 y1 hx0 hy0 hxi hyi _ (fun p hp => (hmem p).mp hp)
  refine ⟨⟨_, hpoly, ?_, ?_, ?_⟩, ?_, by unfold is_int; omega, by unfold is_int; omega, ?_⟩
  · rw [draw_points_paint s fb hfb]; rfl
  · intro px py hpx hpy
    rw [read_pixel_draw_points s fb hfb hp hB4 color _ hrange hpx hpy]
    by_cases hc : x0 ≤ px ∧ (px : Int) ≤ x1 ∧ y0 ≤ py ∧ (py : Int) ≤ y1
    · rw [if_pos hc, if_pos ((hmem _).mpr hc)]
    · rw [if_neg hc, if_neg (fun h => hc ((hmem _).mp h))]
  · intro a ha
    apply draw_points_frame s fb hfb
    intro p hpm
    obtain ⟨h1, h2, h3, h4⟩ := hrange p hpm
    obtain ⟨r1, r2, r3, r4⟩ := (hmem p).mp hpm
    rw [point_write_of_nonneg color p h1 h2 h3 h4]
    apply ha
    · rw [Int.toNat_of_nonneg h1]; exact r1
    · rw [Int.toNat_of_nonneg h1]; exact r2
    · rw [Int.toNat_of_nonneg h3]; exact r3
    · rw [Int.toNat_of_nonneg h3]; exact r4
  · intro i hi
    have hsmall : ∀ a b c e : Int, (a = x0 ∨ a = x1) → (c = x0 ∨ c = x1) →
        (b = y0 ∨ b = y1) → (e = y0 ∨ e = y1) →
        ∀ v ∈ [a, b, c, e], -268435456 < v ∧ v < 268435456 := by
      intro a b c e ha hb hc he v hv
      simp only [List.mem_cons, List.mem_singleton, List.not_mem_nil, or_false] at hv
      rcases hv with rfl | rfl | rfl | rfl
      · rcases ha with rfl | rfl <;> omega
      · rcases hb with rfl | rfl <;> omega
      · rcases hc with rfl | rfl <;> omega
      · rcases he with rfl | rfl <;> omega
    have hf := hedge i hi
    interval_cases i
    · exact line_trace_in_range x0 y0 x1 y0 fuel
        (hsmall _ _ _ _ (Or.inl rfl) (Or.inr rfl) (Or.inl rfl) (Or.inl rfl)) hf
    · exact line_trace_in_range x1 y0 x1 y1 fuel
        (hsmall _ _ _ _ (Or.inr rfl) (Or.inr rfl) (Or.inl rfl) (Or.inr rfl)) hf
    · exact line_trace_in_range x1 y1 x0 y1 fuel
        (hsmall _ _ _ _ (Or.inr rfl) (Or.inl rfl) (Or.inr rfl) (Or.inr rfl)) hf
    · exact line_trace_in_range x0 y1 x0 y0 fuel
        (hsmall _ _ _ _ (Or.inl rfl) (Or.inl rfl) (Or.inr rfl) (Or.inl rfl)) hf
  · intro i yy hi hc
    unfold crossing_test at hc
    interval_cases i
    · show (yy - y0) * (x0 - x0) = 0
      simp
    · exfalso
      have e1 : arr [y0, y0, y1, y1] 1 = y0 := rfl
      have e2 : arr [y0, y0, y1, y1] (edge_prev 4 1) = y0 := rfl
      rw [e1, e2] at hc
      omega
    · show (yy - y1) * (x1 - x1) = 0
      simp
    · exfalso
      have e1 : arr [y0, y0, y1, y1] 3 = y1 := rfl
      have e2 : arr [y0, y0, y1, y1] (edge_prev 4 3) = y1 := rfl
      rw [e1, e2] at hc
      omega

/-- C13 at the unit square [(0,0),(3,0),(3,3),(0,3)] on the 4x4 sample
surface: all 16 pixels hold the colour afterwards. -/
theorem filled_rectangle_witness :
    ∃ t, linearfb_draw_polygon 4 [0, 3, 3, 0] [0, 0, 3, 3] 4 16777215 1 graphics_state = some t ∧
      read_pixel t.mem sample_fb 0 0 = [255, 255, 255, 0] ∧
      read_pixel t.mem sample_fb 3 0 = [255, 255, 255, 0] ∧
      read_pixel t.mem sample_fb 1 2 = [255, 255, 255, 0] ∧
      read_pixel t.mem sample_fb 3 3 = [255, 255, 255, 0] ∧
      (List.range 16).map (fun k => read_pixel t.mem sample_fb (k % 4) (k / 4)) =
        List.replicate 16 [255, 255, 255, 0] := by
  obtain ⟨⟨t, h1, -, h3, -⟩, -⟩ := filled_rectangle graphics_state sample_fb 0 0 3 3 16777215 4 1
    rfl rfl (by decide) (by decide) (by decide) (by decide) (by decide) (by decide) (by decide)
    (by decide) (by decide) (by decide) (by decide)
  refine ⟨t, h1, ?_, ?_, ?_, ?_, ?_⟩
  · rw [h3 0 0 (by decide) (by decide)]; decide
  · rw [h3 3 0 (by decide) (by decide)]; decide
  · rw [h3 1 2 (by decide) (by decide)]; decide
  · rw [h3 3 3 (by decide) (by decide)]; decide
  · have e : ∀ k, k < 16 → read_pixel t.mem sample_fb (k % 4) (k / 4) = [255, 255, 255, 0] := by
      intro k hk
      rw [h3 (k % 4) (k / 4) (Nat.mod_lt _ (by decide)) (by
        show k / 4 < 4
        omega)]
      interval_cases k <;> decide
    rw [List.map_congr_left (fun k hk => e k (List.mem_range.mp hk))]
    rfl

theorem draw_text_loop_paint (s : State) (fb : limine_framebuffer) (hfb : s.fb = some fb)
    (data : Nat → Nat) (y : Nat) :
    ∀ (text : List Nat) (x : Nat) (m : Mem),
      draw_text_loop data text x y (s.set_mem m) =
        s.set_mem (paint fb
          (text_writes data s.font_glyph_count s.font_glyph_w s.font_glyph_h text x y) m) := by
  intro text
  induction text with
  | nil => intro x m; rfl
  | cons c cs ih =>
    intro x m
    unfold draw_text_loop text_writes
    by_cases hc : c = 0
    · rw [if_pos hc, if_pos hc]; rfl
    · rw [if_neg hc, if_neg hc]
      show draw_text_loop data cs (u32 (x + s.font_glyph_w)) y
        (blit_glyph data (glyph_index c s.font_glyph_count) x y (s.set_mem m)) = _
      rw [blit_glyph_paint s fb hfb, ih, paint_append]

theorem mem_text_writes (data : Nat → Nat) (count gw gh y : Nat) (w : Write)
    (hy : y + gh < 4294967296) :
    ∀ (text : List Nat) (x : Nat), (∀ c ∈ text, c ≠ 0) → x + text.length * gw < 4294967296 →
      (w ∈ text_writes data count gw gh text x y ↔
        ∃ k, k < text.length ∧ ∃ j, j < gh ∧ ∃ i, i < gw ∧
          glyph_bit (glyph_row data (glyph_index (text.getD k 0) count) gh j) i = true ∧
          w = (x + k * gw + i, y + j, 4294967295)) := by
  intro text
  induction text with
  | nil => intro x _ _; simp [text_writes]
  | cons c cs ih =>
    intro x hnz hx
    have hc : c ≠ 0 := hnz c (List.mem_cons_self _ _)
    have hlen : (c :: cs).length = cs.length + 1 := rfl
    rw [hlen] at hx
    have hmul : (cs.length + 1) * gw = cs.length * gw + gw := Nat.succ_mul _ _
    have hx1 : u32 (x + gw) = x + gw := u32_of_lt (by omega)
    unfold text_writes
    rw [if_neg hc, List.mem_append, mem_glyph_writes, hx1,
      ih (x + gw) (fun d hd => hnz d (List.mem_cons_of_mem _ hd)) (by omega)]
    constructor
    · rintro (⟨j, hj, i, hi, hb, rfl⟩ | ⟨k, hk, j, hj, i, hi, hb, rfl⟩)
      · refine ⟨0, by simp, j, hj, i, hi, by simpa using hb, ?_⟩
        rw [u32_of_lt (by omega), u32_of_lt (by omega)]
        simp
      · refine ⟨k + 1, by simp; omega, j, hj, i, hi, by simpa using hb, ?_⟩
        have : (k + 1) * gw = k * gw + gw := Nat.succ_mul _ _
        rw [this]
        simp only [Prod.mk.injEq, and_true]
        omega
    · rintro ⟨k, hk, j, hj, i, hi, hb, rfl⟩
      cases k with
      | zero =>
        left
        refine ⟨j, hj, i, hi, by simpa using hb, ?_⟩
        rw [u32_of_lt (by omega), u32_of_lt (by omega)]
        simp
      | succ k =>
        right
        refine ⟨k, by simp at hk; omega, j, hj, i, hi, by simpa using hb, ?_⟩
        have : (k + 1) * gw = k * gw + gw := Nat.succ_mul _ _
        rw [this]
        simp only [Prod.mk.injEq, and_true]
        omega


/-- C16, counterexample: on a 2x2 surface whose pitch (6) is shorter than a
row of pixels (8 bytes), in graphics mode with a 2x2 font loaded, drawing "A" at
(0,0) changes pixel (1,0), whose bit (bit 6 of row 0 of the glyph) is not set:
the write to pixel (0,1) covers two of its bytes. -/
theorem draw_text_changes_off_pixel :
    (linearfb_set_mode linearfb_mode_t.FB_MODE_GRAPHICS narrow_state).fb = some narrow_fb ∧
      (linearfb_set_mode linearfb_mode_t.FB_MODE_GRAPHICS narrow_state).font_glyph_w = 2 ∧
      (linearfb_set_mode linearfb_mode_t.FB_MODE_GRAPHICS narrow_state).font_glyph_count = 128 ∧
      glyph_bit (glyph_row (fun i => 128 + 64 * (i % 2)) (glyph_index 65 128) 2 0) 1 = false ∧
      read_pixel (linearfb_set_mode linearfb_mode_t.FB_MODE_GRAPHICS narrow_state).mem
        narrow_fb 1 0 = [1, 2, 1, 2] ∧
      read_pixel (linearfb_draw_text [65] 0 0
        (linearfb_set_mode linearfb_mode_t.FB_MODE_GRAPHICS narrow_state)).mem
        narrow_fb 1 0 = [1, 2, 255, 255] :=
  ⟨rfl, by decide, by decide, by decide, by decide, by decide⟩

/-- C16, amended: `linearfb_draw_text` in graphics mode with a font loaded
(glyph width at most 8) on a bound surface with B = bpp/8 in 1..4 and
pitch >= width*B, for a text without NUL with x + len*glyph_w and y + glyph_h
below 2^32: every pixel (x + k*glyph_w + i, y + j) of the surface with
k < len, i < glyph_w, j < glyph_h and bit (7-i) of the font byte
`data[(g * glyph_h mod 2^32) + j]` set becomes opaque white, where the glyph
index `g` of the k-th character `c` is `c mod 256` when that is below the glyph
count and 63 otherwise; every other pixel of the surface keeps its value; a
byte outside those pixels keeps its value; only memory changes, so the cursor
is unchanged. -/
theorem draw_text_contract (s : State) (fb : limine_framebuffer) (d : Nat → Nat)
    (text : List Nat) (x y : Nat)
    (hfb : s.fb = some fb) (hd : s.fb_font.data = some d)
    (hm : s.fb_mode = linearfb_mode_t.FB_MODE_GRAPHICS)
    (_hB1 : 1 ≤ fb.bpp / 8) (hB4 : fb.bpp / 8 ≤ 4) (hp : fb.width * (fb.bpp / 8) ≤ fb.pitch)
    (hgw : s.font_glyph_w ≤ 8) (hnz : ∀ c ∈ text, c ≠ 0)
    (hx : x + text.length * s.font_glyph_w < 4294967296)
    (hy : y + s.font_glyph_h < 4294967296) :
    (∀ k i j, k < text.length → i < s.font_glyph_w → j < s.font_glyph_h →
      (d (u32 ((if text.getD k 0 % 256 ≥ s.font_glyph_count then 63 else text.getD k 0 % 256) *
            s.font_glyph_h) + j) % 256 /
        2 ^ (7 - i)) % 2 = 1 →
      x + k * s.font_glyph_w + i < fb.width → y + j < fb.height →
      read_pixel (linearfb_draw_text text x y s).mem fb (x + k * s.font_glyph_w + i) (y + j) =
        low_bytes 4294967295 (fb.bpp / 8)) ∧
    (∀ px py, px < fb.width → py < fb.height →
      (¬ ∃ k i j, k < text.length ∧ i < s.font_glyph_w ∧ j < s.font_glyph_h ∧
        (d (u32 ((if text.getD k 0 % 256 ≥ s.font_glyph_count then 63 else text.getD k 0 % 256) *
            s.font_glyph_h) + j) % 256 /
          2 ^ (7 - i)) % 2 = 1 ∧ px = x + k * s.font_glyph_w + i ∧ py = y + j) →
      read_pixel (linearfb_draw_text text x y s).mem fb px py = read_pixel s.mem fb px py) ∧
    (∀ a, (∀ k i j, k < text.length → i < s.font_glyph_w → j < s.font_glyph_h →
        (d (u32 ((if text.getD k 0 % 256 ≥ s.font_glyph_count then 63 else text.getD k 0 % 256) *
            s.font_glyph_h) + j) % 256 /
          2 ^ (7 - i)) % 2 = 1 →
        ¬ covers fb (x + k * s.font_glyph_w + i, y + j, 4294967295) a) →
      (linearfb_draw_text text x y s).mem a = s.mem a) ∧
    linearfb_draw_text text x y s = s.set_mem (linearfb_draw_text text x y s).mem ∧
    (linearfb_draw_text text x y s).cursor = s.cursor := by
  have hmc : s.fb_mode ≠ linearfb_mode_t.FB_MODE_CONSOLE := by rw [hm]; decide
  have he : linearfb_draw_text text x y s =
      s.set_mem (paint fb
        (text_writes d s.font_glyph_count s.font_glyph_w s.font_glyph_h text x y) s.mem) := by
    unfold linearfb_draw_text
    rw [if_neg hmc]
    simp only [hd]
    have h := draw_text_loop_paint s fb hfb d y text x s.mem
    rw [set_mem_self] at h
    exact h
  have hmem := fun w => mem_text_writes d s.font_glyph_count s.font_glyph_w s.font_glyph_h y w hy
    text x hnz hx
  rw [he]
  refine ⟨?_, ?_, ?_, rfl, rfl⟩
  · intro k i j hk hi hj hbit hpx hpy
    show read_pixel (paint fb _ s.mem) fb _ _ = _
    apply read_pixel_paint_same fb hp hB4 _ _ 4294967295 hpx hpy
    · intro w hw
      obtain ⟨_, _, _, _, _, _, _, rfl⟩ := (hmem w).mp hw
      rfl
    · exact ⟨_, (hmem _).mpr ⟨k, hk, j, hj, i, hi,
        (glyph_bit_iff _ i (by omega)).mpr hbit, rfl⟩, rfl, rfl⟩
  · intro px py hpx hpy hno
    show read_pixel (paint fb _ s.mem) fb _ _ = _
    apply read_pixel_paint_other fb hp _ _ hpx hpy
    intro w hw hw2
    obtain ⟨k, hk, j, hj, i, hi, hb, rfl⟩ := (hmem w).mp hw
    exact hno ⟨k, i, j, hk, hi, hj, (glyph_bit_iff _ i (by omega)).mp hb, hw2.1.symm,
      hw2.2.symm⟩
  · intro a ha
    show paint fb _ s.mem a = s.mem a
    apply paint_frame
    intro w hw
    obtain ⟨k, hk, j, hj, i, hi, hb, rfl⟩ := (hmem w).mp hw
    exact ha k i j hk hi hj ((glyph_bit_iff _ i (by omega)).mp hb)

/-- C16 on the 4x4 sample surface with the font whose `A` differs from the
other glyphs: the text `A`, then the character 200 (remapped to glyph 63), drawn
at (0,0) turns pixel (1,0) of the first cell and pixel (3,1) of the second cell
white and leaves the unset pixel (0,0) of the first cell as it was. -/
theorem draw_text_contract_witness :
    read_pixel (linearfb_draw_text [65, 200] 0 0 letter_graphics_state).mem sample_fb 1 0 =
      [255, 255, 255, 255] ∧
    read_pixel (linearfb_draw_text [65, 200] 0 0 letter_graphics_state).mem sample_fb 3 1 =
      [255, 255, 255, 255] ∧
    read_pixel (linearfb_draw_text [65, 200] 0 0 letter_graphics_state).mem sample_fb 0 0 =
      read_pixel letter_graphics_state.mem sample_fb 0 0 ∧
    (linearfb_draw_text [65, 200] 0 0 letter_graphics_state).cursor =
      letter_graphics_state.cursor :=
  have h := draw_text_contract letter_graphics_state sample_fb
    (fun i => if i = 130 then 64 else if i = 131 then 128 else 128 + 64 * (i % 2)) [65, 200] 0 0
    rfl rfl rfl (by decide) (by decide) (by decide) (by decide) (by decide) (by decide)
    (by decide)
  ⟨(h.1 0 1 0 (by decide) (by decide) (by decide) (by decide) (by decide) (by decide)).trans
      (by decide),
    (h.1 1 1 1 (by decide) (by decide) (by decide) (by decide) (by decide) (by decide)).trans
      (by decide),
    h.2.1 0 0 (by decide) (by decide) (by
      rintro ⟨k, i, j, hk, hi, hj, hb, h1, h2⟩
      have hgw : letter_graphics_state.font_glyph_w = 2 := rfl
      have hgh : letter_graphics_state.font_glyph_h = 2 := rfl
      rw [hgw] at hi h1
      rw [hgh] at hj hb
      have hk0 : k = 0 := by omega
      have hi0 : i = 0 := by omega
      have hj0 : j = 0 := by omega
      subst hk0; subst hi0; subst hj0
      revert hb
      decide),
    h.2.2.2.2⟩

end Linearfb
